import Mathlib

/-! MIDI import of MuseScore: a shallow embedding of `mscore/importmidi.cpp` and of
`Tuplet::add` of `libmscore/tuplet.cpp`.

The C++ `int` is embedded as `Int`: tick values of a score stay far below `2^31`, so
no operation of the importer on them wraps; the change of resolution in `createMTrackList`,
where the raw ticks of a file are multiplied, checks the range of `int`.  C++ integer
division truncates towards zero and is written `Int.tdiv`; `>> 1` is the arithmetic shift
`>>> 1`.  A `std::multimap<int, MidiChord>` is a list of entries kept in ascending key
order, entries of equal key in insertion order.
-/

namespace Ms

/-! ## Data model -/

/-- The class `MidiNote`; `tie` is the identifier of the `Tie` object the pointer refers to,
`none` for the null pointer. -/
structure MidiNote where
  pitch : Int
  velo : Int
  onTime : Int
  len : Int
  tie : Option Nat := none
deriving DecidableEq, Repr

/-- The class `MidiChord`. -/
structure MidiChord where
  voice : Int := 0
  onTime : Int
  duration : Int
  notes : List MidiNote
deriving DecidableEq, Repr

/-- The expression `c.notes[0]`.  Every chord the importer builds holds at least one note
(`createMTrackList` creates each chord with one note and `findChords` only appends), which
is the only kind of chord the source reads element 0 of. -/
def MidiChord.notes0 (c : MidiChord) : MidiNote :=
  c.notes.headD { pitch := 0, velo := 0, onTime := 0, len := 0 }

/-- The type `std::multimap<int, MidiChord>`: entries in ascending key order. -/
abbrev ChordMap := List (Int × MidiChord)

/-- The ordering invariant of a `std::multimap`: keys ascend along the iteration order. -/
def ChordMap.Ordered (m : ChordMap) : Prop :=
  m.Pairwise (fun a b => a.1 ≤ b.1)

/-- The call `m.insert({k, c})`: the entry goes to the upper bound of the keys equal to `k`,
that is, right before the first entry of strictly greater key. -/
def ChordMap.insert : ChordMap → Int → MidiChord → ChordMap
  | [], k, c => [(k, c)]
  | (k1, c1) :: rest, k, c =>
    if k < k1 then (k, c) :: (k1, c1) :: rest
    else (k1, c1) :: ChordMap.insert rest k c

/-! ## `MTrack::quantize` -/

/-- Modelled from the spec: `quantizeLen` of `libmscore/utils`, which is not among the sources.
The spec takes it as closest-value quantization, "round to nearest multiple", and takes the
duration it gives as the "nearest multiple of raster (minimum one raster unit, never
zero)": the result is the multiple of `raster` nearest to `len`, a tie at half a raster
going up as in the onset rounding of `MTrack::quantize`, and one raster unit where that
multiple would be smaller. -/
def quantizeLen (len raster : Int) : Int :=
  max raster (Int.fdiv (2 * len + raster) (2 * raster) * raster)

/-- The chords the loops of `MTrack::quantize` visit: the first loop skips the entries of key
below `startTick`, the two later loops run from there up to the first key `>= endTick`. -/
def MTrack.quantize.interval (chords : ChordMap) (startTick endTick : Int) : ChordMap :=
  (chords.dropWhile (fun e => decide (e.1 < startTick))).takeWhile
    (fun e => decide (e.1 < endTick))

/-- The variable `mintick` after the loop "find shortest note in measure": the running
minimum starts at `division`. -/
def MTrack.quantize.mintick (division : Int) (sel : ChordMap) : Int :=
  sel.foldl (fun m e => min m e.2.duration) division

/-- The variable `div` after the ladder of comparisons. -/
def MTrack.quantize.div (division mintick : Int) : Int :=
  if mintick ≤ Int.tdiv division 16 then Int.tdiv division 16
  else if mintick ≤ Int.tdiv division 8 then Int.tdiv division 8
  else if mintick ≤ Int.tdiv division 4 then Int.tdiv division 4
  else if mintick ≤ Int.tdiv division 2 then Int.tdiv division 2
  else if mintick ≤ division then division
  else if mintick ≤ division * 2 then division * 2
  else if mintick ≤ division * 4 then division * 4
  else if mintick ≤ division * 8 then division * 8
  else division

/-- The variable `raster` for given `division` and running minimum. -/
def MTrack.quantize.rasterOf (division mintick : Int) : Int :=
  if MTrack.quantize.div division mintick = Int.tdiv division 16 then
    MTrack.quantize.div division mintick
  else quantizeLen mintick (MTrack.quantize.div division mintick >>> (1 : Nat))

/-- The variable `raster` of a call `quantize(startTick, endTick, dst)`. -/
def MTrack.quantize.raster (division : Int) (chords : ChordMap) (startTick endTick : Int) :
    Int :=
  MTrack.quantize.rasterOf division
    (MTrack.quantize.mintick division (MTrack.quantize.interval chords startTick endTick))

/-- The body of the last loop: the copy `e` of a chord with `onTime` and `duration`
rewritten. -/
def MTrack.quantize.snap (raster : Int) (e : MidiChord) : MidiChord :=
  { e with
    onTime := Int.tdiv (e.onTime + (raster >>> (1 : Nat))) raster * raster
    duration := quantizeLen e.duration raster }

/-- The method `MTrack::quantize` with `MScore::division` as a parameter.  The result is the
map `dst` after the call; `none` stands for the undefined behaviour of the division by a
zero `raster` in the last loop, which is executed once per chord of the interval. -/
def MTrack.quantize (division : Int) (chords : ChordMap) (startTick endTick : Int)
    (dst : ChordMap) : Option ChordMap :=
  let sel := MTrack.quantize.interval chords startTick endTick
  let raster := MTrack.quantize.raster division chords startTick endTick
  if sel ≠ [] ∧ raster = 0 then none
  else some (sel.foldl
    (fun d e => ChordMap.insert d (MTrack.quantize.snap raster e.2).onTime
      (MTrack.quantize.snap raster e.2)) dst)

/-- The variable `div` of a call `quantize(startTick, endTick, dst)`. -/
def MTrack.quantize.divOf (division : Int) (chords : ChordMap) (startTick endTick : Int) :
    Int :=
  MTrack.quantize.div division
    (MTrack.quantize.mintick division (MTrack.quantize.interval chords startTick endTick))

/-! ## `MTrack::cleanup` -/

/-- The loop "quantize every measure" of `MTrack::cleanup`, entered with bar index `i`,
`startTick` and the map `dl` built so far; `bar2tick i` is `sigmap->bar2tick(i, 0)`.  The
source loop has no bound, so the embedding takes a number of iterations it may run and
answers `none` when that is used up (or when `quantize` is undefined). -/
def MTrack.cleanup.measures (division : Int) (chords : ChordMap) (bar2tick : Nat → Int)
    (lastTick : Int) : Nat → Nat → Int → ChordMap → Option ChordMap
  | 0, _, _, _ => none
  | fuel + 1, i, startTick, dl =>
    match MTrack.quantize division chords startTick (bar2tick i) dl with
    | none => none
    | some dl1 =>
      if bar2tick i > lastTick then some dl1
      else MTrack.cleanup.measures division chords bar2tick lastTick fuel (i + 1)
        (bar2tick i) dl1

/-- The inner loop of the overlap pass for the chord `e` of the entry `i`, run over the
entries after `i`: entries of another pitch are skipped, the first entry `ee` of the same
pitch ends the loop, shortening `e` when `ee` starts before `e` ends. -/
def MTrack.cleanup.scan (e : MidiChord) : ChordMap → MidiChord
  | [] => e
  | (_, ee) :: rest =>
    if ee.notes0.pitch ≠ e.notes0.pitch then MTrack.cleanup.scan e rest
    else if ee.onTime ≥ e.onTime + e.duration then e
    else { e with duration := ee.onTime - e.onTime }

/-- The overlap pass of `MTrack::cleanup` over `dl`.  The inner loop reads only the pitch
and `onTime` of later entries, which the pass never changes, so each entry is rewritten from
the entries after it.  The closing test `if (e.duration <= 0)` only prints a message and
continues with the next entry: it changes nothing. -/
def MTrack.cleanup.overlaps : ChordMap → ChordMap
  | [] => []
  | (k, e) :: rest => (k, MTrack.cleanup.scan e rest) :: MTrack.cleanup.overlaps rest

/-- The method `MTrack::cleanup`: the value of `chords` after the call. -/
def MTrack.cleanup (division : Int) (chords : ChordMap) (bar2tick : Nat → Int)
    (lastTick : Int) (fuel : Nat) : Option ChordMap :=
  (MTrack.cleanup.measures division chords bar2tick lastTick fuel 1 0 []).map
    MTrack.cleanup.overlaps

/-! ## `MTrack::findChords` -/

/-- The part of the class `Drumset` that the importer reads: `isValid(pitch)`,
`voice(pitch)` and `stemDirection(pitch)`. -/
structure Drumset where
  isValid : Int → Bool
  voice : Int → Int
  stemDirection : Int → Int

/-- The template `qAbs` of Qt: `t >= 0 ? t : -t`. -/
def qAbs (t : Int) : Int :=
  if t ≥ 0 then t else -t

/-- The flag `useDrumset` that `findChords` computes for the anchor chord `e`. -/
def MTrack.findChords.useDrumset (drumset : Option Drumset) (e : MidiChord) : Bool :=
  match drumset with
  | some d => d.isValid e.notes0.pitch
  | none => false

/-- The anchor chord after the drum map has assigned its voice. -/
def MTrack.findChords.anchor (drumset : Option Drumset) (e : MidiChord) : MidiChord :=
  match drumset with
  | some d => if d.isValid e.notes0.pitch then { e with voice := d.voice e.notes0.pitch } else e
  | none => e

/-- The test `!useDrumset || (drumset->isValid(pitch) && drumset->voice(pitch) == e.voice)`
for an event of pitch `pitch`. -/
def MTrack.findChords.sameVoice (drumset : Option Drumset) (useDrumset : Bool) (voice : Int)
    (pitch : Int) : Bool :=
  !useDrumset ||
    (match drumset with
     | some d => d.isValid pitch && decide (d.voice pitch = voice)
     | none => false)

/-- The inner loop of `findChords` (iterator `k`) over the entries after the anchor, for the
anchor's `ontime`, `offtime` and voice: the result is the list of notes appended to the
anchor, in order, and the entries that are left in the map. -/
def MTrack.findChords.absorb (drumset : Option Drumset) (useDrumset : Bool) (voice : Int)
    (jitter ontime offtime : Int) : ChordMap → List MidiNote × ChordMap
  | [] => ([], [])
  | (k, ck) :: rest =>
    if k - jitter > ontime then ([], (k, ck) :: rest)
    else if qAbs (k - ontime) > jitter ∨ qAbs (k + ck.duration - offtime) > jitter then
      ((MTrack.findChords.absorb drumset useDrumset voice jitter ontime offtime rest).1,
        (k, ck) ::
          (MTrack.findChords.absorb drumset useDrumset voice jitter ontime offtime rest).2)
    else if MTrack.findChords.sameVoice drumset useDrumset voice ck.notes0.pitch then
      (ck.notes0 ::
          (MTrack.findChords.absorb drumset useDrumset voice jitter ontime offtime rest).1,
        (MTrack.findChords.absorb drumset useDrumset voice jitter ontime offtime rest).2)
    else
      ((MTrack.findChords.absorb drumset useDrumset voice jitter ontime offtime rest).1,
        (k, ck) ::
          (MTrack.findChords.absorb drumset useDrumset voice jitter ontime offtime rest).2)

/-- The outer loop of `findChords` (iterator `i`) over the entries from `i` on.  Each
iteration leaves at most the entries it found, so as many iterations as there are entries
suffice; the counter only makes the recursion structural. -/
def MTrack.findChords.loop (drumset : Option Drumset) : Nat → ChordMap → ChordMap
  | 0, m => m
  | _ + 1, [] => []
  | n + 1, (k, e) :: rest =>
    (k, { MTrack.findChords.anchor drumset e with
          notes := e.notes ++
            (MTrack.findChords.absorb drumset (MTrack.findChords.useDrumset drumset e)
              (MTrack.findChords.anchor drumset e).voice 3 k (k + e.duration) rest).1 }) ::
      MTrack.findChords.loop drumset n
        (MTrack.findChords.absorb drumset (MTrack.findChords.useDrumset drumset e)
          (MTrack.findChords.anchor drumset e).voice 3 k (k + e.duration) rest).2

/-- The method `MTrack::findChords`: the value of `chords` after the call; `drumset` is
`smDrumset` on a drum track and `none` (the null pointer) otherwise. -/
def MTrack.findChords (drumset : Option Drumset) (chords : ChordMap) : ChordMap :=
  MTrack.findChords.loop drumset chords.length chords

/-! ## `splitIntoLeftRightHands` -/

/-- The calls `m.insert({x.first, x.second})` for the entries `x` of a list, in order. -/
def ChordMap.insertAll (m : ChordMap) (xs : List (Int × MidiChord)) : ChordMap :=
  xs.foldl (fun d x => ChordMap.insert d x.1 x.2) m

/-- The variable `durationTol`: it starts at the `notes[0].len` of the first chord `first`
and is lowered by every chord of smaller `notes[0].len`. -/
def splitIntoLeftRightHands.durationTol (first : Int × MidiChord) (chords : ChordMap) : Int :=
  chords.foldl (fun tol chord => if chord.2.notes0.len < tol then chord.2.notes0.len else tol)
    first.2.notes0.len

/-- The block "process current group": `chordGroup` is sorted by `notes[0].pitch` with
`std::sort` (the parameter `sort`; the order it gives to chords of equal pitch is not
determined), its chords are inserted into the chord maps of the left-hand and right-hand
tracks, and the new maps are returned. -/
def splitIntoLeftRightHands.assign
    (sort : List (Int × MidiChord) → List (Int × MidiChord))
    (chordGroup : List (Int × MidiChord)) (leftHand rightHand : ChordMap) :
    ChordMap × ChordMap :=
  match (sort chordGroup).head?, (sort chordGroup).getLast? with
  | some front, some back =>
    if back.2.notes0.pitch - front.2.notes0.pitch > 12 then
      (sort chordGroup).foldl
        (fun hands chordIter =>
          if chordIter.2.notes0.pitch ≤ front.2.notes0.pitch + 12 then
            (ChordMap.insert hands.1 chordIter.1 chordIter.2, hands.2)
          else (hands.1, ChordMap.insert hands.2 chordIter.1 chordIter.2))
        (leftHand, rightHand)
    else
      (ChordMap.insertAll leftHand (sort chordGroup).dropLast,
        ChordMap.insert rightHand back.1 back.2)
  | _, _ => (leftHand, rightHand)

/-- The loop of `splitIntoLeftRightHands` over the chords of the source track from the
entry `i` on, with the current `chordGroup`, `currentTime` and the two hand maps built so
far. -/
def splitIntoLeftRightHands.walk
    (sort : List (Int × MidiChord) → List (Int × MidiChord)) (durationTol : Int) :
    ChordMap → List (Int × MidiChord) → Int → ChordMap → ChordMap → ChordMap × ChordMap
  | [], _, _, leftHand, rightHand => (leftHand, rightHand)
  | i :: rest, chordGroup, currentTime, leftHand, rightHand =>
    match rest with
    | [] => splitIntoLeftRightHands.assign sort (chordGroup ++ [i]) leftHand rightHand
    | next :: _ =>
      if next.2.onTime - (if chordGroup.isEmpty then i.2.onTime else currentTime) >
          durationTol then
        splitIntoLeftRightHands.walk sort durationTol rest []
          (if chordGroup.isEmpty then i.2.onTime else currentTime)
          (splitIntoLeftRightHands.assign sort (chordGroup ++ [i]) leftHand rightHand).1
          (splitIntoLeftRightHands.assign sort (chordGroup ++ [i]) leftHand rightHand).2
      else
        splitIntoLeftRightHands.walk sort durationTol rest (chordGroup ++ [i])
          (if chordGroup.isEmpty then i.2.onTime else currentTime) leftHand rightHand

/-- The chord maps of `leftHandTrack` and `rightHandTrack` that the body of
`splitIntoLeftRightHands` builds for a flagged source track with chord map `chords`;
`none` stands for the undefined read of `chords.begin()` on an empty map. -/
def splitIntoLeftRightHands.hands
    (sort : List (Int × MidiChord) → List (Int × MidiChord)) (chords : ChordMap) :
    Option (ChordMap × ChordMap) :=
  match chords with
  | [] => none
  | first :: _ =>
    some (splitIntoLeftRightHands.walk sort
      (splitIntoLeftRightHands.durationTol first chords) chords [] 0 [] [])

/-! ## The score objects `MTrack::processPendingNotes` creates -/

/-- The part of a `Measure` the importer reads: `tick()` and `ticks()`. -/
structure Measure where
  tick : Int
  ticks : Int
deriving DecidableEq, Repr

/-- A `Note` of the score as the importer sets it up: pitch, velocity offset, the play event
`(ron, rlen)`, and the two tie pointers (identifiers of `Tie` objects). -/
structure Note where
  pitch : Int
  veloOffset : Int
  ron : Int
  rlen : Int
  tieFor : Option Nat := none
  tieBack : Option Nat := none
deriving DecidableEq, Repr

/-- A `Tie` of the score: start note and end note (identifiers of `Note` objects) and the
track. -/
structure Tie where
  startNote : Option Nat := none
  endNote : Option Nat := none
  track : Option Int := none
deriving DecidableEq, Repr

/-- A `Chord` of the score: its track, the tick of the segment it is added to, the ticks of
its duration `d`, its notes (identifiers, in the order of `chord->add`) and the stem
direction when the drum map set one. -/
structure Chord where
  track : Int
  tick : Int
  ticks : Int
  notes : List Nat := []
  stemDirection : Option Int := none
deriving DecidableEq, Repr

/-- A `Rest` of the score: track, tick of its segment, ticks of its duration, and whether its
duration type is `V_MEASURE`. -/
structure Rest where
  track : Int
  tick : Int
  ticks : Int
  measureRest : Bool
deriving DecidableEq, Repr

/-- The objects the importer has created in the score: an object's identifier is its
position in its list, so `new` appends. -/
structure Score where
  chords : List Chord := []
  notes : List Note := []
  ties : List Tie := []
  rests : List Rest := []
deriving DecidableEq, Repr

/-- What `processPendingNotes` reads from the staff and the score: `staff->idx()`, the
constant `VOICES`, the drum map of the instrument when `useDrumset()` holds,
`score->tick2measure` (`none` for the null pointer) and
`toDurationList(Fraction::fromTicks(len), false)` given as the ticks of its durations. -/
structure Env where
  staffIdx : Int
  VOICES : Int
  drumset : Option Drumset
  tick2measure : Int → Option Measure
  toDurationList : Int → List Int

/-- A write through a pointer to the object `i` of a list of objects. -/
def Score.update {α : Type} (l : List α) (i : Nat) (f : α → α) : List α :=
  match l[i]? with
  | some a => l.set i (f a)
  | none => l

/-- The call `chord->findNote(pitch)`, taken as the first note of the chord, in the order
the notes were added, that has this pitch. -/
def Chord.findNote (score : Score) (chord : Chord) (pitch : Int) : Option Nat :=
  chord.notes.find? (fun id => (score.notes[id]?.map (fun n => n.pitch)) == some pitch)

/-! ## `MTrack::processPendingNotes` -/

/-- The `foreach` loop that lowers `len` to the smallest non-zero duration below it. -/
def MTrack.processPendingNotes.minLen (notes : List MidiChord) (len : Int) : Int :=
  notes.foldl (fun len c => if c.duration < len ∧ c.duration ≠ 0 then c.duration else len) len

/-- The requested length of a segment at `tick` in `measure`: the smallest pending
duration, cut at the end of the measure ("split notes on measure boundary"). -/
def MTrack.processPendingNotes.clipLen (notes : List MidiChord) (measure : Measure)
    (tick t : Int) : Int :=
  if tick + MTrack.processPendingNotes.minLen notes (t - tick) > measure.tick + measure.ticks
  then measure.tick + measure.ticks - tick
  else MTrack.processPendingNotes.minLen notes (t - tick)

/-- The first inner loop over `nl` for one pending chord: a `Note` is created for each
`MidiNote` and added to `chord` (the chord's `actualTicks()` is the ticks of its duration);
a pending tie of the `MidiNote` gets the new note as end note and becomes its tie-back. -/
def MTrack.processPendingNotes.addNotes (env : Env) (tick actualTicks : Int) :
    List MidiNote → Chord → Score → Chord × Score
  | [], chord, score => (chord, score)
  | mn :: nl, chord, score =>
    MTrack.processPendingNotes.addNotes env tick actualTicks nl
      { chord with
        notes := chord.notes ++ [score.notes.length]
        stemDirection :=
          match env.drumset with
          | some d =>
            if d.isValid mn.pitch then some (d.stemDirection mn.pitch)
            else chord.stemDirection
          | none => chord.stemDirection }
      { score with
        notes := score.notes ++
          [{ pitch := mn.pitch, veloOffset := mn.velo,
             ron := Int.tdiv ((mn.onTime - tick) * 1000) actualTicks,
             rlen := Int.tdiv (mn.len * 1000) actualTicks,
             tieBack := mn.tie }]
        ties :=
          match mn.tie with
          | some tie =>
            Score.update score.ties tie
              (fun x => { x with endNote := some score.notes.length,
                                 track := some chord.track })
          | none => score.ties }

/-- The second inner loop over `nl` for a chord that stays pending: for each `MidiNote` a
new `Tie` is created and stored in it, its start note is `chord->findNote(mn.pitch)`, and
that note gets the tie as forward tie.  The result is the new list `n.notes` and the
score. -/
def MTrack.processPendingNotes.openTies (chord : Chord) :
    List MidiNote → Score → List MidiNote × Score
  | [], score => ([], score)
  | mn :: nl, score =>
    ({ mn with tie := some score.ties.length } ::
        (MTrack.processPendingNotes.openTies chord nl
          { score with
            ties := score.ties ++ [{ startNote := Chord.findNote score chord mn.pitch }]
            notes :=
              match Chord.findNote score chord mn.pitch with
              | some note =>
                Score.update score.notes note
                  (fun x => { x with tieFor := some score.ties.length })
              | none => score.notes }).1,
      (MTrack.processPendingNotes.openTies chord nl
          { score with
            ties := score.ties ++ [{ startNote := Chord.findNote score chord mn.pitch }]
            notes :=
              match Chord.findNote score chord mn.pitch with
              | some note =>
                Score.update score.notes note
                  (fun x => { x with tieFor := some score.ties.length })
              | none => score.notes }).2)

/-- The loop `for (int k = 0; k < notes.size(); ++k)` of one iteration, run over the pending
chords from `k` on with the chord being built: notes are added for every pending chord; a
chord with `duration <= len` is removed from the list, any other stays with a tie opened
for each note, `onTime` advanced and `duration` reduced by `len`.  The result is the new
pending list, the chord and the score. -/
def MTrack.processPendingNotes.chords (env : Env) (tick len : Int) :
    List MidiChord → Chord → Score → List MidiChord × Chord × Score
  | [], chord, score => ([], chord, score)
  | n :: rest, chord, score =>
    if n.duration ≤ len then
      MTrack.processPendingNotes.chords env tick len rest
        (MTrack.processPendingNotes.addNotes env tick len n.notes chord score).1
        (MTrack.processPendingNotes.addNotes env tick len n.notes chord score).2
    else
      ({ n with
          notes := (MTrack.processPendingNotes.openTies
            (MTrack.processPendingNotes.addNotes env tick len n.notes chord score).1 n.notes
            (MTrack.processPendingNotes.addNotes env tick len n.notes chord score).2).1
          onTime := n.onTime + len
          duration := n.duration - len } ::
        (MTrack.processPendingNotes.chords env tick len rest
          (MTrack.processPendingNotes.addNotes env tick len n.notes chord score).1
          (MTrack.processPendingNotes.openTies
            (MTrack.processPendingNotes.addNotes env tick len n.notes chord score).1 n.notes
            (MTrack.processPendingNotes.addNotes env tick len n.notes chord score).2).2).1,
        (MTrack.processPendingNotes.chords env tick len rest
          (MTrack.processPendingNotes.addNotes env tick len n.notes chord score).1
          (MTrack.processPendingNotes.openTies
            (MTrack.processPendingNotes.addNotes env tick len n.notes chord score).1 n.notes
            (MTrack.processPendingNotes.addNotes env tick len n.notes chord score).2).2).2)

/-- The head of one iteration of the `while` loop: `none` when the null measure is
dereferenced, `some none` when the loop ends (no pending chord, `len <= 0`, or an empty
duration list), and `some (some (tick, len))` with the tick and the final `len = d.ticks()`
of the segment to emit. -/
def MTrack.processPendingNotes.segment (env : Env) (notes : List MidiChord) (t : Int) :
    Option (Option (Int × Int)) :=
  match notes with
  | [] => some none
  | first :: _ =>
    if t - first.onTime ≤ 0 then some none
    else
      match env.tick2measure first.onTime with
      | none => none
      | some measure =>
        match env.toDurationList
            (MTrack.processPendingNotes.clipLen notes measure first.onTime t) with
        | [] => some none
        | d :: _ => some (some (first.onTime, d))

/-- The rest of one iteration: the chord of `len` ticks is created at `tick` on `track` and
filled by the loop over the pending chords.  The result is the new pending list and the
score with the chord added. -/
def MTrack.processPendingNotes.emit (env : Env) (voice tick len : Int)
    (notes : List MidiChord) (score : Score) : List MidiChord × Score :=
  ((MTrack.processPendingNotes.chords env tick len notes
      { track := env.staffIdx * env.VOICES + voice, tick := tick, ticks := len } score).1,
    { (MTrack.processPendingNotes.chords env tick len notes
        { track := env.staffIdx * env.VOICES + voice, tick := tick, ticks := len }
        score).2.2 with
      chords := (MTrack.processPendingNotes.chords env tick len notes
          { track := env.staffIdx * env.VOICES + voice, tick := tick, ticks := len }
          score).2.2.chords ++
        [(MTrack.processPendingNotes.chords env tick len notes
          { track := env.staffIdx * env.VOICES + voice, tick := tick, ticks := len }
          score).2.1] })

/-- The record of one iteration of the `while` loop, kept beside the program state to state
properties of a run: the tick and length of the emitted segment and the pending list at the
start of the iteration (every chord of which gets its notes into the segment). -/
structure Segment where
  tick : Int
  len : Int
  pending : List MidiChord
deriving DecidableEq, Repr

/-- The `while (!notes.isEmpty())` loop.  The source loop has no bound, so the embedding
takes a number of iterations it may run and answers `none` when that is used up, as it does
when the null measure is dereferenced.  The result is the pending list, `ctick`, the score
and the iterations recorded. -/
def MTrack.processPendingNotes.loop (env : Env) (voice t : Int) :
    Nat → List MidiChord → Int → Score → List Segment →
      Option (List MidiChord × Int × Score × List Segment)
  | 0, _, _, _, _ => none
  | fuel + 1, notes, ctick, score, log =>
    match MTrack.processPendingNotes.segment env notes t with
    | none => none
    | some none => some (notes, ctick, score, log)
    | some (some (tick, len)) =>
      MTrack.processPendingNotes.loop env voice t fuel
        (MTrack.processPendingNotes.emit env voice tick len notes score).1 (ctick + len)
        (MTrack.processPendingNotes.emit env voice tick len notes score).2
        (log ++ [{ tick := tick, len := len, pending := notes }])

/-- The `foreach (TDuration d, dl)` loop that emits one rest per duration from `ctick`
on. -/
def MTrack.processPendingNotes.restList (track : Int) :
    List Int → Int → List Rest → List Rest
  | [], _, rests => rests
  | d :: dl, ctick, rests =>
    MTrack.processPendingNotes.restList track dl (ctick + d)
      (rests ++ [{ track := track, tick := ctick, ticks := d, measureRest := false }])

/-- The variable `len` of the rest loop after "split rest on measure boundary". -/
def MTrack.processPendingNotes.restClip (measure : Measure) (ctick restLen : Int) : Int :=
  if ctick + restLen > measure.tick + measure.ticks then measure.tick + measure.ticks - ctick
  else restLen

/-- The loop `while (restLen > 0)` ("check for gap and fill with rest"), with the same
bound on the iterations as the first loop. -/
def MTrack.processPendingNotes.rests (env : Env) (track : Int) :
    Nat → Int → Int → Score → Option Score
  | 0, _, _, _ => none
  | fuel + 1, restLen, ctick, score =>
    if restLen > 0 then
      match env.tick2measure ctick with
      | none => none
      | some measure =>
        if ctick ≥ measure.tick + measure.ticks then some score
        else if MTrack.processPendingNotes.restClip measure ctick restLen ≥ measure.ticks then
          MTrack.processPendingNotes.rests env track fuel (restLen - measure.ticks)
            (ctick + measure.ticks)
            { score with
              rests := score.rests ++
                [{ track := track, tick := ctick, ticks := measure.ticks,
                   measureRest := true }] }
        else
          match env.toDurationList
              (MTrack.processPendingNotes.restClip measure ctick restLen) with
          | [] => some score
          | d :: dl =>
            MTrack.processPendingNotes.rests env track fuel (restLen - (d :: dl).sum)
              (ctick + (d :: dl).sum)
              { score with
                rests := MTrack.processPendingNotes.restList track (d :: dl) ctick
                  score.rests }
    else some score

/-- The method `MTrack::processPendingNotes(notes, voice, ctick, t)`: the list `notes`
(passed by reference) and the score after the call, with the iterations recorded; `ctick`
is passed by value and its changes are not seen by the caller. -/
def MTrack.processPendingNotes (env : Env) (fuel : Nat) (notes : List MidiChord)
    (voice ctick t : Int) (score : Score) (log : List Segment) :
    Option (List MidiChord × Score × List Segment) :=
  match MTrack.processPendingNotes.loop env voice t fuel notes ctick score log with
  | none => none
  | some (notes1, ctick1, score1, log1) =>
    if voice = 0 then
      (MTrack.processPendingNotes.rests env (env.staffIdx * env.VOICES + voice) fuel
        (t - ctick1) ctick1 score1).map (fun score2 => (notes1, score2, log1))
    else some (notes1, score1, log1)

/-! ## `MTrack::convertTrack`: the loop over the voices -/

/-- The loop `for (auto i = chords.begin(); i != chords.end();)` of `convertTrack` for one
voice, run over the entries from `i` on.  The flag `collecting` tells that the inner loop
"collect all notes on current tick position" is running: an entry of key `ctick` is then
appended to `notes` when its voice fits; any other entry ends the inner loop, the test
`notes.isEmpty()` follows, and the outer loop body handles the entry (skipping it when its
voice differs, else calling `processPendingNotes` with its key, setting `ctick` and starting
to collect with this entry). -/
def MTrack.convertTrack.walk (env : Env) (fuel : Nat) (voice : Int) :
    ChordMap → Bool → List MidiChord → Int → Score → List Segment →
      Option (List MidiChord × Int × Score × List Segment)
  | [], _, notes, ctick, score, log => some (notes, ctick, score, log)
  | i :: rest, collecting, notes, ctick, score, log =>
    if collecting = true ∧ i.1 = ctick then
      MTrack.convertTrack.walk env fuel voice rest true
        (if i.2.voice ≠ voice then notes else notes ++ [i.2]) ctick score log
    else if collecting = true ∧ notes = [] then some (notes, ctick, score, log)
    else if i.2.voice ≠ voice then
      MTrack.convertTrack.walk env fuel voice rest false notes ctick score log
    else
      match MTrack.processPendingNotes env fuel notes voice ctick i.1 score log with
      | none => none
      | some (notes1, score1, log1) =>
        MTrack.convertTrack.walk env fuel voice rest true (notes1 ++ [i.2]) i.1 score1 log1

/-- The body of the loop `for (int voice = 0; voice < voices; ++voice)` of `convertTrack`:
the walk over the chord map and the closing call
`processPendingNotes(notes, voice, ctick, lastTick)`. -/
def MTrack.convertTrack.voice (env : Env) (fuel : Nat) (chords : ChordMap)
    (voice lastTick : Int) (score : Score) (log : List Segment) :
    Option (List MidiChord × Score × List Segment) :=
  match MTrack.convertTrack.walk env fuel voice chords false [] 0 score log with
  | none => none
  | some (notes, ctick, score1, log1) =>
    MTrack.processPendingNotes env fuel notes voice ctick lastTick score1 log1

/-- The loop over the voices of `MTrack::convertTrack`; `voices` is the constant 1 in the
source, so the body runs for voice 0 only.  The result is the pending list left by the last
call, the score and the iterations recorded. -/
def MTrack.convertTrack.voices (env : Env) (fuel : Nat) (chords : ChordMap) (lastTick : Int)
    (score : Score) : Option (List MidiChord × Score × List Segment) :=
  MTrack.convertTrack.voice env fuel chords 0 lastTick score []

/-! ## `splitIntoLeftRightHands`: the list of tracks -/

/-- The class `MTrack`: its data members with their in-class initialisers as defaults;
`staff` and `mtrack` are the identifiers of the objects the pointers refer to, `none` for
the null pointer.  The methods of the class are the functions `MTrack.quantize`,
`MTrack.cleanup`, `MTrack.findChords`, `MTrack.processPendingNotes` and
`MTrack.convertTrack.voices`, which take the members they use as arguments, and
`MTrack.processMeta`. -/
structure MTrack where
  minPitch : Int := 127
  maxPitch : Int := 0
  medPitch : Int := 0
  program : Int := 0
  staff : Option Nat := none
  mtrack : Option Nat := none
  name : String := ""
  hasKey : Bool := false
  chords : ChordMap := []
deriving DecidableEq, Repr

/-- An element of the list type `tMidiImportOperations`, which is declared outside the
sources: the two flags the importer reads, with "import, no separation" as defaults. -/
structure TrackOperations where
  doImport : Bool := true
  doLHRHSeparation : Bool := false
deriving DecidableEq, Repr

/-- The function `splitIntoLeftRightHands(tracks, operations)`: the lists `tracks` and
`operations` after the call.  The arguments are the parts of the two lists from the loop
index `i` on (`operations` is empty there when `i >= operations.size()`); the parts before
`i` are never read again.  A track that is not flagged is kept.  For a flagged track the
two hand tracks are fresh `MTrack` objects that only get `mtrack` and their chords; the
right-hand track is assigned to `tracks[i]` when it has chords, the left-hand track is
inserted at `i + 1`, with a copy of `operations[i]` in the other list, when it has chords,
and the loop goes on behind it.  `none` stands for the undefined read of `chords.begin()`
on a flagged track without chords. -/
def splitIntoLeftRightHands (sort : List (Int × MidiChord) → List (Int × MidiChord)) :
    List MTrack → List TrackOperations → Option (List MTrack × List TrackOperations)
  | [], operations => some ([], operations)
  | srcTrack :: tracks, [] => some (srcTrack :: tracks, [])
  | srcTrack :: tracks, op :: operations =>
    if !op.doLHRHSeparation then
      (splitIntoLeftRightHands sort tracks operations).map
        (fun r => (srcTrack :: r.1, op :: r.2))
    else
      match Ms.splitIntoLeftRightHands.hands sort srcTrack.chords with
      | none => none
      | some (leftHand, rightHand) =>
        (splitIntoLeftRightHands sort tracks operations).map
          (fun r =>
            ((if rightHand ≠ [] then { mtrack := srcTrack.mtrack, chords := rightHand }
              else srcTrack) ::
              (if leftHand ≠ [] then
                { mtrack := srcTrack.mtrack, chords := leftHand } :: r.1
              else r.1),
              op :: (if leftHand ≠ [] then op :: r.2 else r.2)))

/-! ## `Tuplet::add` (`libmscore/tuplet.cpp`) -/

/-- The values of `Element::type()` that `Tuplet::add` tells apart; `other` stands for every
type the `switch` sends to `default`. -/
inductive ElementType where
  | TEXT
  | CHORD
  | REST
  | TUPLET
  | other
deriving DecidableEq, Repr

/-- What `Tuplet::add` reads and writes of the element `e` it is given: its identity (the
pointer, as an identifier), `type()`, `tick()` and the tuplet pointer that `setTuplet`
sets. -/
structure Element where
  id : Nat
  type : ElementType
  tick : Int
  tuplet : Option Nat := none
deriving DecidableEq, Repr

/-- The members of a `Tuplet` that `Tuplet::add` reads and writes: the list `_elements`
(pointers, given as the elements they point to), the text `_number`, and the tick that
`setTick` sets; `id` identifies the tuplet itself (`this`). -/
structure Tuplet where
  id : Nat
  _elements : List Element := []
  _number : Option Nat := none
  _tick : Int := 0
deriving DecidableEq, Repr

/-- The loop `for (int i = 0; i < _elements.size(); ++i)` of `Tuplet::add`: the list with
`de` inserted before the first element of strictly greater tick, `none` when the loop ends
with `found` still false. -/
def Tuplet.add.insert (de : Element) : List Element → Option (List Element)
  | [] => none
  | el :: rest =>
    if el.tick > de.tick then some (de :: el :: rest)
    else (Tuplet.add.insert de rest).map (fun l => el :: l)

/-- The expression `_elements.front()->tick()`; the list is not empty where `Tuplet::add`
reads it. -/
def Tuplet.add.frontTick : List Element → Int
  | [] => 0
  | el :: _ => el.tick

/-- The case `CHORD`, `REST`, `TUPLET` of `Tuplet::add` for the element `de`: the tuplet
after the case and the element as `setTuplet` leaves it.  The list holds pointers, so the
element in the list is the one whose tuplet pointer has been set; the loop reads only
ticks, which `setTuplet` does not change. -/
def Tuplet.add.durationElement (self : Tuplet) (de : Element) : Tuplet × Element :=
  match (if de.tick ≠ -1 then
      Tuplet.add.insert { de with tuplet := some self.id } self._elements
    else none) with
  | some l =>
    ({ self with _elements := l, _tick := Tuplet.add.frontTick l },
      { de with tuplet := some self.id })
  | none =>
    ({ self with
        _elements := self._elements ++ [{ de with tuplet := some self.id }]
        _tick := Tuplet.add.frontTick
          (self._elements ++ [{ de with tuplet := some self.id }]) },
      { de with tuplet := some self.id })

/-- The method `Tuplet::add(e)`: the tuplet after the call and the element `e` after it.
`ndebug` tells whether `NDEBUG` is defined; without it an element that is already in
`_elements` makes the method call `abort()`, which is `none`. -/
def Tuplet.add (ndebug : Bool) (self : Tuplet) (e : Element) : Option (Tuplet × Element) :=
  if ndebug = false ∧ (self._elements.any (fun el => el.id == e.id)) = true then none
  else
    match e.type with
    | ElementType.TEXT => some ({ self with _number := some e.id }, e)
    | ElementType.CHORD => some (Tuplet.add.durationElement self e)
    | ElementType.REST => some (Tuplet.add.durationElement self e)
    | ElementType.TUPLET => some (Tuplet.add.durationElement self e)
    | ElementType.other => some (self, e)

/-! ## `importMidi` -/

/-- Modelled from the spec: the enumeration `Score::FileError` of `libmscore/score.h`, which
is not among the sources.  The spec takes file-not-found, open-error and bad-format as
distinct outcomes, distinct from success; the constructors are the four enumerators that
`importMidi` returns. -/
inductive FileError where
  | FILE_NO_ERROR
  | FILE_NOT_FOUND
  | FILE_OPEN_ERROR
  | FILE_BAD_FORMAT
deriving DecidableEq, Repr

/-- The function `importMidi(score, name)`.  The collaborators are parameters: `fpOpen` is
`QFile fp(name); fp.open(QIODevice::ReadOnly)` (the opened device, `none` when `open`
answers false), `read` is `MidiFile::read` (the `QString` it throws as the error value) and
`convertMidi` is the conversion, given as the score it leaves.  The result is the value
returned, the score after the call and the MIDI files `convertMidi` has been called with.
The message box, `fp.close()` and the debug output are left out. -/
def importMidi {File MidiFile : Type} (fpOpen : String → Option File)
    (read : File → Except String MidiFile) (convertMidi : Score → MidiFile → Score)
    (score : Score) (name : String) : FileError × Score × List MidiFile :=
  if name = "" then (FileError.FILE_NOT_FOUND, score, [])
  else
    match fpOpen name with
    | none => (FileError.FILE_OPEN_ERROR, score, [])
    | some fp =>
      match read fp with
      | Except.error _ => (FileError.FILE_BAD_FORMAT, score, [])
      | Except.ok mf => (FileError.FILE_NO_ERROR, convertMidi score mf, [mf])

/-! ## `MTrack::processMeta` and the key signatures of `MTrack::convertTrack` -/

/-- The values of `MidiEvent::type()` that the importer tells apart. -/
inductive MidiEventType where
  | ME_NOTE
  | ME_META
  | ME_PROGRAM
  | other
deriving DecidableEq, Repr

/-- The values of `MidiEvent::metaType()` that the `switch` of `processMeta` names; `other`
stands for every value it sends to `default`. -/
inductive MetaType where
  | META_TEXT
  | META_LYRIC
  | META_TRACK_NAME
  | META_TEMPO
  | META_KEY_SIGNATURE
  | META_COMPOSER
  | META_POET
  | META_TRANSLATOR
  | META_SUBTITLE
  | META_TITLE
  | META_COPYRIGHT
  | META_TIME_SIGNATURE
  | other
deriving DecidableEq, Repr

/-- What the importer reads of a `MidiEvent`: `type()`, `metaType()`, the bytes `edata()`,
and `pitch()`, `velo()`, `len()`, `dataA()`. -/
structure MidiEvent where
  type : MidiEventType
  metaType : MetaType := MetaType.other
  edata : List Nat := []
  pitch : Int := 0
  velo : Int := 0
  len : Int := 0
  dataA : Int := 0
deriving DecidableEq, Repr

/-- The part of a `KeySigEvent` the importer sets: the value given to
`setAccidentalType`. -/
structure KeySigEvent where
  accidentalType : Int := 0
deriving DecidableEq, Repr

/-- The type `KeyList`, a `std::map<int, KeySigEvent>`: entries in ascending order of
distinct ticks. -/
abbrev KeyList := List (Int × KeySigEvent)

/-- The assignment `(*km)[tick] = ks`: the entry of that tick is replaced, or inserted at
its place in the order when there is none. -/
def KeyList.set : KeyList → Int → KeySigEvent → KeyList
  | [], tick, ks => [(tick, ks)]
  | (t1, k1) :: rest, tick, ks =>
    if tick < t1 then (tick, ks) :: (t1, k1) :: rest
    else if tick = t1 then (tick, ks) :: rest
    else (t1, k1) :: KeyList.set rest tick ks

/-- The conversion of the byte `data[0]` to `int` through `char`, with `char` taken as
signed, which the test `key < -7` of `processMeta` presumes. -/
def MTrack.processMeta.toChar (b : Nat) : Int :=
  if b % 256 < 128 then ((b % 256 : Nat) : Int) else ((b % 256 : Nat) : Int) - 256

/-- The method `MTrack::processMeta(tick, mm)` on the members of the track and the key map
of its staff.  The cases that only change other parts of the score (lyrics, tempo, texts,
the copyright tag, the time signature map) or print a message leave both as they are;
`none` stands for the undefined read of `data[0]` when the event has no data. -/
def MTrack.processMeta (self : MTrack) (keymap : KeyList) (tick : Int) (mm : MidiEvent) :
    Option (MTrack × KeyList) :=
  match self.staff with
  | none => some (self, keymap)
  | some _ =>
    match mm.metaType with
    | MetaType.META_TRACK_NAME =>
      some ({ self with
          name := String.mk ((mm.edata.takeWhile (fun b => b ≠ 0)).map Char.ofNat) },
        keymap)
    | MetaType.META_KEY_SIGNATURE =>
      match mm.edata with
      | [] => none
      | b :: _ =>
        if MTrack.processMeta.toChar b < -7 ∨ MTrack.processMeta.toChar b > 7 then
          some (self, keymap)
        else
          some ({ self with hasKey := true },
            KeyList.set keymap tick { accidentalType := MTrack.processMeta.toChar b })
    | _ => some (self, keymap)

/-- A `KeySig` element as `convertTrack` sets it up: track, the tick of its segment, the
key signature event and the flag `generated`. -/
structure KeySig where
  track : Int
  tick : Int
  keySigEvent : KeySigEvent
  generated : Bool := false
deriving DecidableEq, Repr

/-- The loop `for (auto i = km->begin(); i != km->end(); ++i)` of `convertTrack` over the
entries from `i` on, with the `KeySig` elements added so far; `none` stands for the null
measure being dereferenced. -/
def MTrack.convertTrack.keySigLoop (env : Env) : KeyList → List KeySig → Option (List KeySig)
  | [], added => some added
  | (tick, key) :: rest, added =>
    match env.tick2measure tick with
    | none => none
    | some _ =>
      MTrack.convertTrack.keySigLoop env rest
        (added ++ [{ track := env.staffIdx * env.VOICES, tick := tick, keySigEvent := key }])

/-- The key signature part of `MTrack::convertTrack`: the key map of the staff after it and
the `KeySig` elements added to the score, in order.  `drumTrack` is `mtrack->drumTrack()`;
the variable `key` is the constant 0. -/
def MTrack.convertTrack.keySigs (env : Env) (self : MTrack) (drumTrack : Bool)
    (km : KeyList) : Option (KeyList × List KeySig) :=
  (MTrack.convertTrack.keySigLoop env
      (if self.hasKey = false ∧ drumTrack = false then
        KeyList.set km 0 { accidentalType := 0 }
      else km) []).map
    (fun added =>
      (if self.hasKey = false ∧ drumTrack = false then
        KeyList.set km 0 { accidentalType := 0 }
      else km, added))

/-! ## `createMTrackList` -/

/-- The expression `(r * MScore::division + mf->division()/2) / mf->division()` of
`createMTrackList` for a raw tick or length `r`, in 32-bit `int` arithmetic: `none` stands
for the undefined behaviour of a division by zero or of a product or sum that leaves the
range of `int`. -/
def createMTrackList.toDivision (division mfDivision r : Int) : Option Int :=
  if mfDivision = 0 then none
  else if r * division < -2147483648 ∨ 2147483647 < r * division then none
  else if r * division + Int.tdiv mfDivision 2 < -2147483648 ∨
      2147483647 < r * division + Int.tdiv mfDivision 2 then none
  else some (Int.tdiv (r * division + Int.tdiv mfDivision 2) mfDivision)

/-- The function `metaTimeSignature`: the fraction `z / 2^nn` of a time signature event as
the pair of its numerator and denominator (0 for a byte that is not there). -/
def metaTimeSignature (e : MidiEvent) : Int × Int :=
  ((e.edata.headD 0 : Nat), ((2 ^ (e.edata.tail.headD 0) : Nat) : Int))

/-- The local state of the loop of `createMTrackList` over the events of one MIDI track:
the track being built, the counter `events`, `lastTick` and the entries added to the time
signature map. -/
structure createMTrackList.State where
  track : MTrack
  events : Int := 0
  lastTick : Int
  sigmap : List (Int × (Int × Int))
deriving DecidableEq, Repr

/-- The body of the loop `for (auto i : t->events())` for the event `i`. -/
def createMTrackList.event (division mfDivision : Int) (st : createMTrackList.State)
    (i : Int × MidiEvent) : Option createMTrackList.State :=
  match createMTrackList.toDivision division mfDivision i.1 with
  | none => none
  | some tick =>
    if i.2.type = MidiEventType.ME_META ∧ i.2.metaType = MetaType.META_TIME_SIGNATURE then
      some { st with
        sigmap := st.sigmap ++ [(tick, metaTimeSignature i.2)]
        lastTick := max st.lastTick tick }
    else if i.2.type = MidiEventType.ME_NOTE then
      match createMTrackList.toDivision division mfDivision i.2.len with
      | none => none
      | some len =>
        some { st with
          events := st.events + 1
          track := { st.track with
            maxPitch := max i.2.pitch st.track.maxPitch
            minPitch := min i.2.pitch st.track.minPitch
            medPitch := st.track.medPitch + i.2.pitch
            chords := ChordMap.insert st.track.chords tick
              { onTime := tick, duration := len,
                notes := [{ pitch := i.2.pitch, velo := i.2.velo, onTime := tick,
                            len := len }] } }
          lastTick := max (max st.lastTick (tick + len)) tick }
    else if i.2.type = MidiEventType.ME_PROGRAM then
      some { st with
        track := { st.track with program := i.2.dataA }
        lastTick := max st.lastTick tick }
    else some { st with lastTick := max st.lastTick tick }

/-- The loop over the events of one MIDI track, from the state `st`. -/
def createMTrackList.events (division mfDivision : Int) :
    createMTrackList.State → List (Int × MidiEvent) → Option createMTrackList.State
  | st, [] => some st
  | st, i :: rest =>
    match createMTrackList.event division mfDivision st i with
    | none => none
    | some st1 => createMTrackList.events division mfDivision st1 rest

/-- The loop `foreach(MidiTrack* t, mf->tracks())` of `createMTrackList` over the MIDI
tracks from number `t` on, each given by its events after `mergeNoteOnOff`; `operations`
is `preferences.midiImportOperations.allOperations()`.  The state is `trackIndex`,
`lastTick`, the list `tracks` and the entries added to the time signature map. -/
def createMTrackList.tracks (division mfDivision : Int)
    (operations : List TrackOperations) :
    List (List (Int × MidiEvent)) → Nat → Int → Int → List MTrack →
      List (Int × (Int × Int)) → Option (Int × List MTrack × List (Int × (Int × Int)))
  | [], _, _, lastTick, tracks, sigmap => some (lastTick, tracks, sigmap)
  | evs :: rest, t, trackIndex, lastTick, tracks, sigmap =>
    match createMTrackList.events division mfDivision
        { track := { mtrack := some t }, lastTick := lastTick, sigmap := sigmap } evs with
    | none => none
    | some st =>
      if st.events ≠ 0 then
        if trackIndex + 1 ≥ operations.length ∨
            (match operations[(trackIndex + 1).toNat]? with
              | some op => op.doImport
              | none => true) = true then
          createMTrackList.tracks division mfDivision operations rest (t + 1)
            (trackIndex + 1) st.lastTick
            (tracks ++ [{ st.track with medPitch := Int.tdiv st.track.medPitch st.events }])
            st.sigmap
        else
          createMTrackList.tracks division mfDivision operations rest (t + 1)
            (trackIndex + 1) st.lastTick tracks st.sigmap
      else
        createMTrackList.tracks division mfDivision operations rest (t + 1) trackIndex
          st.lastTick tracks st.sigmap

/-- The function `createMTrackList(lastTick, score, tracks, mf)`: `lastTick`, the list
`tracks` and the time signature map after the call; the map is cleared and gets the
default 4/4 at tick 0 first. -/
def createMTrackList (division mfDivision : Int) (operations : List TrackOperations)
    (lastTick : Int) (tracks : List MTrack) (mfTracks : List (List (Int × MidiEvent))) :
    Option (Int × List MTrack × List (Int × (Int × Int))) :=
  createMTrackList.tracks division mfDivision operations mfTracks 0 (-1) lastTick tracks
    [(0, (4, 4))]

/-! ## The notions of the specification -/

/-- The ladder of allowed grid values of the specification:
`{1/16, 1/8, 1/4, 1/2, 1, 2, 4, 8}` times the base unit. -/
def Spec.ladder (division : Int) : List Int :=
  [Int.tdiv division 16, Int.tdiv division 8, Int.tdiv division 4, Int.tdiv division 2,
    division, division * 2, division * 4, division * 8]

/-- The specification's `minDuration`: the minimum chord duration among the chords with onset
key in `[startTick, endTick)`; `none` when the interval holds no chord. -/
def Spec.minDuration (chords : ChordMap) (startTick endTick : Int) : Option Int :=
  ((chords.filter (fun e => decide (startTick ≤ e.1 ∧ e.1 < endTick))).map
    (fun e => e.2.duration)).min?

/-- The specification's grid resolution: the smallest ladder rung `>= minDuration`, clamped to
the largest rung when no rung reaches `minDuration` (a `minDuration` below the smallest rung
already selects the smallest rung). -/
def Spec.gridResolution (division minDuration : Int) : Int :=
  (((Spec.ladder division).filter (fun r => decide (minDuration ≤ r))).min?).getD
    (division * 8)

/-- The specification's onset rule `round(onset / raster) * raster`, over the rationals. -/
def Spec.snapOnset (onset raster : Int) : Int :=
  round ((onset : ℚ) / (raster : ℚ)) * raster

/-- Every entry of the map is keyed by its chord's `onTime`. -/
def ChordMap.Keyed (m : ChordMap) : Prop :=
  ∀ x ∈ m, x.1 = x.2.onTime

/-- No two chords of equal pitch overlap: a chord ends at or before the onset of every later
chord (in map order) of the same pitch. -/
def ChordMap.NoOverlap (m : ChordMap) : Prop :=
  m.Pairwise (fun a b =>
    a.2.notes0.pitch = b.2.notes0.pitch → a.2.onTime + a.2.duration ≤ b.2.onTime)

/-- The merge condition of the specification for an event `x` against the anchor event of
key `k` and chord `e`: the onsets differ by at most 3 ticks and the offsets (onset plus
length) differ by at most 3 ticks. -/
def Spec.mergesInto (k : Int) (e : MidiChord) (x : Int × MidiChord) : Bool :=
  decide (|x.1 - k| ≤ 3 ∧ |(x.1 + x.2.duration) - (k + e.duration)| ≤ 3)

/-- What the specification asks of `std::sort` with the comparison `lessThan` on
`notes[0].pitch`: the result is a rearrangement of the input in ascending pitch order. -/
def Spec.SortsByPitch (sort : List (Int × MidiChord) → List (Int × MidiChord)) : Prop :=
  ∀ l, (sort l).Perm l ∧
    (sort l).Pairwise (fun a b => a.2.notes0.pitch ≤ b.2.notes0.pitch)

/-- The lowest `notes[0].pitch` among the chords of a cluster. -/
def Spec.minPitch (cluster : List (Int × MidiChord)) : Int :=
  ((cluster.map (fun x => x.2.notes0.pitch)).min?).getD 0

/-- The highest `notes[0].pitch` among the chords of a cluster. -/
def Spec.maxPitch (cluster : List (Int × MidiChord)) : Int :=
  ((cluster.map (fun x => x.2.notes0.pitch)).max?).getD 0

/-- A `MidiNote` without its tie pointer: what identifies the note event. -/
def MidiNote.untied (mn : MidiNote) : MidiNote :=
  { mn with tie := none }

/-- The chord `n` as it is carried forward when a segment of `len` ticks has been emitted
and the chord stays pending, tie pointers left aside. -/
def Spec.carry (len : Int) (n : MidiChord) : MidiChord :=
  { n with
    notes := n.notes.map MidiNote.untied
    onTime := n.onTime + len
    duration := n.duration - len }

/-- The pending chords of positive duration whose note events satisfy `P`: the chords a
property of a run is stated about.  The note events of a chord never change while it is
pending, so `P` can single out one chord of the track. -/
def Spec.selected (P : List MidiNote → Bool) (pending : List MidiChord) : List MidiChord :=
  pending.filter (fun n => P (n.notes.map MidiNote.untied) && decide (0 < n.duration))

/-- What the claims take for granted of the score and of `toDurationList`, for lengths on
a grid of `g` ticks (the quantizer leaves every onset, duration and barline on such a grid):
for a positive length on the grid `toDurationList` returns legal durations, at least one,
each positive and on the grid, the first at most the requested length; and every tick of
the grid from 0 up to `lastTick` lies before the end of the measure `tick2measure` answers
for it, a measure of positive length that starts and ends on the grid. -/
structure Spec.Regular (env : Env) (lastTick g : Int) : Prop where
  grid_pos : 0 < g
  lastTick_grid : g ∣ lastTick
  durations : ∀ l, 0 < l → g ∣ l →
    ∃ d dl, env.toDurationList l = d :: dl ∧ d ≤ l ∧ ∀ x ∈ d :: dl, 0 < x ∧ g ∣ x
  measure : ∀ tick, 0 ≤ tick → tick < lastTick → g ∣ tick →
    ∃ m, env.tick2measure tick = some m ∧ 0 < m.ticks ∧ tick < m.tick + m.ticks ∧
      g ∣ m.tick ∧ g ∣ m.ticks

/-- The state of the pending list between two segments at tick `T`: every pending chord
starts at `T` and has a duration on the grid that is not negative, and the chords the
property is stated about end at or before `lastTick`. -/
def Spec.PendingAt (P : List MidiNote → Bool) (lastTick g T : Int)
    (notes : List MidiChord) : Prop :=
  ∀ n ∈ notes, n.onTime = T ∧ 0 ≤ n.duration ∧ g ∣ n.duration ∧
    (P (n.notes.map MidiNote.untied) = true → 0 < n.duration → T + n.duration ≤ lastTick)

/-- The total length notated for the selected chords in the recorded iterations: each
segment counts once, with its length, for each selected chord that is pending in it. -/
def Spec.notated (P : List MidiNote → Bool) (log : List Segment) : Int :=
  (log.map (fun s => s.len * ((Spec.selected P s.pending).length : Int))).sum

/-- The total duration of the selected chords. -/
def Spec.totalDuration (P : List MidiNote → Bool) (pending : List MidiChord) : Int :=
  ((Spec.selected P pending).map (fun n => n.duration)).sum

/-- The recorded iterations are the chords of the score: the chords the importer has created
are, in order, one per recorded segment, at its tick and of its length. -/
def Spec.Logged (score : Score) (log : List Segment) : Prop :=
  score.chords.map (fun c => (c.tick, c.ticks)) = log.map (fun s => (s.tick, s.len))

/-- The chords of a track that `convertTrack` feeds to `processPendingNotes` for the voice
`voice`. -/
def Spec.fed (voice : Int) (chords : ChordMap) : List MidiChord :=
  (chords.filter (fun e => decide (e.2.voice = voice))).map (fun e => e.2)

/-- The `onTime` of the first chord of a cluster (0 for the empty list). -/
def Spec.firstOnTime (cluster : List (Int × MidiChord)) : Int :=
  (cluster.head?.map (fun x => x.2.onTime)).getD 0

/-- The clusters of the specification for the tolerance `tol`, over the chords from `c` on
with the current cluster `cur` still open: the chord `c` joins the current cluster, which is
closed after `c` exactly when `c` is the last chord or the next chord's `onTime` minus the
`onTime` of the cluster's first chord exceeds the tolerance. -/
def Spec.clusters (tol : Int) :
    List (Int × MidiChord) → List (Int × MidiChord) → List (List (Int × MidiChord))
  | [], _ => []
  | c :: rest, cur =>
    match rest with
    | [] => [cur ++ [c]]
    | next :: _ =>
      if next.2.onTime - Spec.firstOnTime (cur ++ [c]) > tol then
        (cur ++ [c]) :: Spec.clusters tol rest []
      else Spec.clusters tol rest (cur ++ [c])

/-- The flag of the track of index `i`: `operations[i].doLHRHSeparation`, and false for an
index beyond the operations list. -/
def Spec.flag (operations : List TrackOperations) (i : Nat) : Bool :=
  match operations[i]? with
  | some op => op.doLHRHSeparation
  | none => false

/-- What the specification puts in the place of a flagged track: its right-hand track,
followed by its left-hand track if and only if the left-hand set is non-empty. -/
def Spec.handTracks (sort : List (Int × MidiChord) → List (Int × MidiChord))
    (srcTrack : MTrack) : List MTrack :=
  match splitIntoLeftRightHands.hands sort srcTrack.chords with
  | some (leftHand, rightHand) =>
    { mtrack := srcTrack.mtrack, chords := rightHand } ::
      (if leftHand ≠ [] then [{ mtrack := srcTrack.mtrack, chords := leftHand }] else [])
  | none => [srcTrack]

/-- The track list of the specification: every flagged track replaced at its position by
its hand tracks, every other track unchanged, the order kept. -/
def Spec.splitTracks (sort : List (Int × MidiChord) → List (Int × MidiChord))
    (tracks : List MTrack) (operations : List TrackOperations) : List MTrack :=
  (tracks.mapIdx (fun i srcTrack =>
    if Spec.flag operations i then Spec.handTracks sort srcTrack else [srcTrack])).flatten

/-- The overlap rule of the specification for a chord `e` and the entries `later` after it
in map order: with `n` the first later chord of the same `notes[0].pitch`, the duration of
`e` becomes `n.onTime - e.onTime` when `n` exists and starts before `e` ends, and stays as
it is otherwise. -/
def Spec.truncate (e : MidiChord) (later : ChordMap) : MidiChord :=
  match later.find? (fun x => decide (x.2.notes0.pitch = e.notes0.pitch)) with
  | some n =>
    if n.2.onTime < e.onTime + e.duration then { e with duration := n.2.onTime - e.onTime }
    else e
  | none => e

/-- The overlap rule applied to every entry of a map, each against the entries after it. -/
def Spec.resolveOverlaps : ChordMap → ChordMap
  | [] => []
  | (k, e) :: rest => (k, Spec.truncate e rest) :: Spec.resolveOverlaps rest

/-- The insertion of the specification: `de` goes immediately before the first element of
strictly greater tick and is appended when there is none. -/
def Spec.insertByTick (de : Element) (elements : List Element) : List Element :=
  elements.takeWhile (fun el => decide (el.tick ≤ de.tick)) ++ de ::
    elements.dropWhile (fun el => decide (el.tick ≤ de.tick))

/-- The entries of a key map at which the key differs from the key in force before, `prev`
being the key in force before the first entry (`none` when no key is in force). -/
def Spec.keyChanges : Option KeySigEvent → KeyList → KeyList
  | _, [] => []
  | prev, (tick, key) :: rest =>
    if prev = some key then Spec.keyChanges (some key) rest
    else (tick, key) :: Spec.keyChanges (some key) rest

/-- The conversion of the specification: the integer nearest to `r * D / m` (a tie goes
up), for a raw tick `r`, the internal resolution `D` and the resolution `m` of the file. -/
def Spec.toDivision (D m r : Int) : Int :=
  round (((r * D : Int) : ℚ) / (m : ℚ))

/-- The notes of all chords of a track, in map order. -/
def Spec.allNotes (m : ChordMap) : List MidiNote :=
  (m.map (fun x => x.2.notes)).flatten

/-- The number of merges a chord map shows: every merge has appended one note to a chord
that started with one note. -/
def Spec.merges (m : ChordMap) : Nat :=
  (m.map (fun x => x.2.notes.length - 1)).sum

/-- What `MTrack::cleanup` leaves of a chord as it is: its notes list and its voice. -/
def Spec.kept (x : Int × MidiChord) : List MidiNote × Int :=
  (x.2.notes, x.2.voice)

/-- The merge test of the specification's chord building for a later event `x` against the
anchor event of key `k` and chord `e`: `x` is within 3 ticks of the anchor in onset and in
offset and, on a drum track whose drum map holds the anchor's pitch, the pitch of `x` is in
the drum map with the anchor's voice. -/
def Spec.joins (drumset : Option Drumset) (k : Int) (e : MidiChord) (x : Int × MidiChord) :
    Bool :=
  Spec.mergesInto k e x &&
    MTrack.findChords.sameVoice drumset (MTrack.findChords.useDrumset drumset e)
      (MTrack.findChords.anchor drumset e).voice x.2.notes0.pitch

/-- The merge groups of a chord map: the first event is an anchor, its group is the anchor
followed by the later events that join it, and the events that do not join it form the
further groups in the same way.  The counter bounds the number of groups; the number of
events suffices. -/
def Spec.mergeGroups (drumset : Option Drumset) :
    Nat → ChordMap → List (List (Int × MidiChord))
  | 0, _ => []
  | _ + 1, [] => []
  | n + 1, (k, e) :: rest =>
    ((k, e) :: rest.filter (Spec.joins drumset k e)) ::
      Spec.mergeGroups drumset n (rest.filter (fun x => !(Spec.joins drumset k e x)))

/-- The pitches a merge group brings into its chord: those of the notes of the anchor and
that of the first note of every other event. -/
def Spec.groupPitches : List (Int × MidiChord) → List Int
  | [] => []
  | a :: rest => a.2.notes.map (fun mn => mn.pitch) ++ rest.map (fun x => x.2.notes0.pitch)

/-! ## Concrete inputs -/

/-- A chord of one note, as `createMTrackList` builds it for a note event. -/
def mkChord (pitch tick len : Int) : MidiChord :=
  { onTime := tick, duration := len,
    notes := [{ pitch := pitch, velo := 80, onTime := tick, len := len }] }

/-- The measure of the specification's scenario: two notes of 60 ticks at 59 and 121. -/
def exSixteenths : ChordMap := [(59, mkChord 60 59 60), (121, mkChord 62 121 60)]

/-- One half note (960 ticks at 480 ticks per quarter) at tick 0. -/
def exHalfNote : ChordMap := [(0, mkChord 60 0 960)]

/-- The bar positions of a score in 4/4 at 480 ticks per quarter. -/
def bar44 (i : Nat) : Int := 1920 * i

/-- Two notes of pitch 60 that overlap after quantization (0..480 and 240..720) and a note
of another pitch in between. -/
def exOverlap : ChordMap :=
  [(0, mkChord 60 0 480), (0, mkChord 64 0 240), (240, mkChord 60 240 480)]

/-- Four events: the second is within the jitter of the first in onset and offset, the
third only in onset, the fourth is within 3 ticks of the second but not of the first. -/
def exJitter : ChordMap :=
  [(0, mkChord 60 0 100), (2, mkChord 64 2 100), (3, mkChord 67 3 200), (5, mkChord 72 5 98)]

/-- A sorting function for the parameter `sort`: insertion sort by `notes[0].pitch`. -/
def sortByPitch (l : List (Int × MidiChord)) : List (Int × MidiChord) :=
  l.insertionSort (fun a b => a.2.notes0.pitch ≤ b.2.notes0.pitch)

/-- The specification's scenario: pitches 40 and 64 together, then 40 and 52 together. -/
def exHands : ChordMap :=
  [(0, mkChord 40 0 240), (0, mkChord 64 0 240), (480, mkChord 52 480 240),
    (480, mkChord 40 480 240)]

/-- A duration list for the tests: the note values from the longa (7680 ticks) down to the
1/64 note (30 ticks) at 480 ticks per quarter, each taken at most once, largest first. -/
def exDurations : List Int → Int → List Int
  | [], _ => []
  | v :: vs, len => if v ≤ len then v :: exDurations vs (len - v) else exDurations vs len

/-- The staff and score of the tests: staff 0 of a score of `bars` measures in 4/4 at 480
ticks per quarter, no drum map; `tick2measure` answers the last measure for the end tick of
the score and the null pointer beyond it. -/
def env44 (bars : Int) : Env :=
  { staffIdx := 0
    VOICES := 4
    drumset := none
    tick2measure := fun tick =>
      if tick < 0 ∨ 1920 * bars < tick ∨ bars ≤ 0 then none
      else if tick = 1920 * bars then some { tick := 1920 * (bars - 1), ticks := 1920 }
      else some { tick := 1920 * (tick / 1920), ticks := 1920 }
    toDurationList := exDurations [7680, 3840, 1920, 960, 480, 240, 120, 60, 30] }

/-- A quantized track whose only chord starts at 1860 and lasts 120 ticks, past the end of
a score of one measure. -/
def exPastEnd : ChordMap := [(1860, mkChord 60 1860 120)]

/-- A quantized track of two chords: 720 ticks from 0 and 240 ticks from 480. -/
def exTwoChords : ChordMap := [(0, mkChord 60 0 720), (480, mkChord 64 480 240)]

/-- The note events of the first chord of `exTwoChords`. -/
def exFirstChord (notes : List MidiNote) : Bool :=
  notes == (mkChord 60 0 720).notes

/-- The note events of a track before quantization: a note of 60 ticks at tick 0 and a note
of 90 ticks at tick 1830, which ends at tick 1920, the end of the only measure. -/
def exRawPastEnd : ChordMap := [(0, mkChord 62 0 60), (1830, mkChord 60 1830 90)]

/-- A measure whose only chord, of 10 ticks, is shorter than half the smallest raster. -/
def exShortNote : ChordMap := [(0, mkChord 60 0 10)]

/-- Two notes of pitch 60 and 480 ticks whose onsets 0 and 10 quantize to the same tick. -/
def exSamePitch : ChordMap := [(0, mkChord 60 0 480), (10, mkChord 60 10 480)]

/-- Two chords pending at tick 0: one of 720 ticks and one of 240 ticks. -/
def exPending : List MidiChord := [mkChord 60 0 720, mkChord 64 0 240]

/-- A drum map with three instruments: the pitches 35 and 36 (bass drums) in voice 1 and
the pitch 42 (hi-hat) in voice 0. -/
def exDrumset : Drumset :=
  { isValid := fun p => p == 35 || p == 36 || p == 42
    voice := fun p => if p = 35 ∨ p = 36 then 1 else 0
    stemDirection := fun _ => 0 }

/-- A drum track of one measure: a bass drum and a hi-hat stroke of a quarter at tick 0. -/
def exDrums : ChordMap := [(0, mkChord 36 0 480), (0, mkChord 42 0 480)]

/-- The staff of the drum track: `env44 1` with the drum map `exDrumset`. -/
def envDrums : Env := { env44 1 with drumset := some exDrumset }

/-- Two events of pitch 60 whose onsets and offsets are 2 ticks apart. -/
def exEqualPitch : ChordMap := [(0, mkChord 60 0 100), (2, mkChord 60 2 100)]

/-- A drum track with an event outside the drum map: bass drums 36 and 35 at 0 and 2, the
unmapped pitch 50 at 1 and a hi-hat at 3, all of 480 ticks. -/
def exDrumsJitter : ChordMap :=
  [(0, mkChord 36 0 480), (1, mkChord 50 1 480), (2, mkChord 35 2 480),
    (3, mkChord 42 3 480)]

/-- Three chords of 150 ticks at 0, 100 and 200: each starts within 150 ticks of the one
before it, the third more than 150 ticks after the first. -/
def exChain : ChordMap := [(0, mkChord 60 0 150), (100, mkChord 62 100 150),
  (200, mkChord 64 200 150)]

/-- Three tracks: the chords of `exHands` as program 0 of MIDI track 7, the chords of
`exChain` and the chords of `exHalfNote`. -/
def exTracks : List MTrack :=
  [{ mtrack := some 7, name := "Piano", medPitch := 49, chords := exHands },
    { mtrack := some 8, chords := exChain }, { mtrack := some 9, chords := exHalfNote }]

/-- A tuplet with two chords at the ticks 0 and 160. -/
def exTuplet : Tuplet :=
  { id := 1, _elements := [{ id := 10, type := ElementType.CHORD, tick := 0, tuplet := some 1 },
      { id := 12, type := ElementType.CHORD, tick := 160, tuplet := some 1 }] }

/-- A file system with one readable file `a.mid` (two bytes) and one readable file
`b.mid` that is not a MIDI file. -/
def exOpen (name : String) : Option (List Nat) :=
  if name = "a.mid" then some [77, 84] else if name = "b.mid" then some [0] else none

/-- A reader that accepts the bytes `[77, 84]` only. -/
def exRead (fp : List Nat) : Except String Nat :=
  if fp = [77, 84] then Except.ok 1 else Except.error ("bad midifile: MThd expected")

/-- A conversion that adds a rest to the score. -/
def exConvert (score : Score) (_ : Nat) : Score :=
  { score with
    rests := score.rests ++ [{ track := 0, tick := 0, ticks := 1920, measureRest := true }] }

/-- A track with a staff, as `createInstruments` leaves it. -/
def exTrack : MTrack := { staff := some 0, mtrack := some 0 }

/-- A key signature meta event with the payload byte `b`. -/
def mkKeySig (b : Nat) : MidiEvent :=
  { type := MidiEventType.ME_META, metaType := MetaType.META_KEY_SIGNATURE, edata := [b, 0] }

/-- A key map with the key of two sharps at tick 0 and the same key again at tick 1920, as
two key signature meta events of the same key leave it. -/
def exKeyMap : KeyList := [(0, { accidentalType := 2 }), (1920, { accidentalType := 2 })]

/-- A MIDI track at 96 ticks per quarter: a note of pitch 60 at raw tick 100 with the raw
length 37, and a program change. -/
def exMidiTrack : List (Int × MidiEvent) :=
  [(0, { type := MidiEventType.ME_PROGRAM, dataA := 5 }),
    (100, { type := MidiEventType.ME_NOTE, pitch := 60, velo := 80, len := 37 })]

/-- A raw track over two 4/4 measures: notes of 100, 230 and 470 ticks at the ticks 7, 1000
and 2005. -/
def exRawTrack : ChordMap :=
  [(7, mkChord 60 7 100), (1000, mkChord 64 1000 230), (2005, mkChord 60 2005 470)]

/-- Modelled from the spec: `toDurationList` of `libmscore/durationtype`, which is not among
the sources, as the spec's scenario of the chord across the barline takes it: the 220 ticks
up to the barline and the 480 ticks after it are each notated as one duration, so the list
of a positive length starts with that length.  Here it is that length alone, and the empty
list for a length that is not positive. -/
def toDurationList (len : Int) : List Int :=
  if 0 < len then [len] else []

/-- Two events of pitch 60 whose onsets are 2 ticks and whose offsets are 402 ticks apart. -/
def exEqualPitchApart : ChordMap := [(0, mkChord 60 0 100), (2, mkChord 60 2 500)]

/-! ## Lemmas on the multimap -/

theorem ChordMap.mem_insert (m : ChordMap) (k : Int) (c : MidiChord) (x : Int × MidiChord) :
    x ∈ ChordMap.insert m k c ↔ x = (k, c) ∨ x ∈ m := by
  induction m with
  | nil => simp [ChordMap.insert]
  | cons hd tl ih =>
    obtain ⟨k1, c1⟩ := hd
    unfold ChordMap.insert
    split
    · simp
    · simp only [List.mem_cons, ih]
      tauto

theorem ChordMap.mem_foldl_insert (f : MidiChord → MidiChord) (sel : ChordMap)
    (dst : ChordMap) (x : Int × MidiChord) :
    x ∈ sel.foldl (fun d e => ChordMap.insert d (f e.2).onTime (f e.2)) dst ↔
      x ∈ dst ∨ ∃ e ∈ sel, x = ((f e.2).onTime, f e.2) := by
  induction sel generalizing dst with
  | nil => simp
  | cons hd tl ih =>
    simp only [List.foldl_cons, ih, ChordMap.mem_insert, List.mem_cons, exists_eq_or_imp]
    tauto

theorem MTrack.quantize.mem_interval (chords : ChordMap) (startTick endTick : Int)
    (hs : chords.Ordered) (x : Int × MidiChord) :
    x ∈ MTrack.quantize.interval chords startTick endTick ↔
      x ∈ chords ∧ startTick ≤ x.1 ∧ x.1 < endTick := by
  unfold MTrack.quantize.interval
  induction chords with
  | nil => simp
  | cons hd tl ih =>
    have hs1 := List.pairwise_cons.mp hs
    have ih1 := ih hs1.2
    by_cases h1 : hd.1 < startTick
    · rw [List.dropWhile_cons_of_pos (by simpa using h1), ih1]
      constructor
      · rintro ⟨hx, h2, h3⟩
        exact ⟨List.mem_cons_of_mem _ hx, h2, h3⟩
      · rintro ⟨hx, h2, h3⟩
        rcases List.mem_cons.mp hx with rfl | hx
        · omega
        · exact ⟨hx, h2, h3⟩
    · rw [List.dropWhile_cons_of_neg (by simpa using h1)]
      have hdrop : tl.dropWhile (fun e => decide (e.1 < startTick)) = tl := by
        rw [List.dropWhile_eq_self_iff]
        intro hl
        have := hs1.1 _ (List.get_mem tl 0 hl)
        simp only [decide_eq_true_eq]
        omega
      rw [hdrop] at ih1
      by_cases h2 : hd.1 < endTick
      · rw [List.takeWhile_cons_of_pos (by simpa using h2), List.mem_cons, ih1]
        constructor
        · rintro (rfl | ⟨hx, h3, h4⟩)
          · exact ⟨List.mem_cons_self _ _, by omega, h2⟩
          · exact ⟨List.mem_cons_of_mem _ hx, h3, h4⟩
        · rintro ⟨hx, h3, h4⟩
          rcases List.mem_cons.mp hx with rfl | hx
          · exact Or.inl rfl
          · exact Or.inr ⟨hx, h3, h4⟩
      · rw [List.takeWhile_cons_of_neg (by simpa using h2)]
        constructor
        · intro hx
          exact absurd hx (List.not_mem_nil _)
        · rintro ⟨hx, h3, h4⟩
          rcases List.mem_cons.mp hx with rfl | hx
          · omega
          · have := hs1.1 _ hx
            omega

/-! ## The raster of `MTrack::quantize` -/

theorem MTrack.quantize.foldl_min_le (sel : ChordMap) (a : Int) :
    sel.foldl (fun m e => min m e.2.duration) a ≤ a := by
  induction sel generalizing a with
  | nil => simp
  | cons hd tl ih =>
    simp only [List.foldl_cons]
    exact le_trans (ih _) (min_le_left _ _)

theorem MTrack.quantize.mintick_le (division : Int) (sel : ChordMap) :
    MTrack.quantize.mintick division sel ≤ division :=
  MTrack.quantize.foldl_min_le sel division

theorem quantizeLen_dvd (len raster : Int) : raster ∣ quantizeLen len raster := by
  unfold quantizeLen
  rcases max_choice raster (Int.fdiv (2 * len + raster) (2 * raster) * raster) with h | h
  · rw [h]
  · rw [h]
    exact Dvd.intro_left _ rfl

theorem quantizeLen_ge (len raster : Int) (_ : 0 < raster) (_ : raster ≤ len) :
    raster ≤ quantizeLen len raster := by
  unfold quantizeLen
  exact le_max_left _ _

theorem MTrack.quantize.rasterOf_pos (division mintick : Int) (hdiv : 16 ≤ division)
    (hm : mintick ≤ division) : 0 < MTrack.quantize.rasterOf division mintick := by
  have h16 : Int.tdiv division 16 = division / 16 := Int.tdiv_eq_ediv (by omega) (by omega)
  have h8 : Int.tdiv division 8 = division / 8 := Int.tdiv_eq_ediv (by omega) (by omega)
  have h4 : Int.tdiv division 4 = division / 4 := Int.tdiv_eq_ediv (by omega) (by omega)
  have h2 : Int.tdiv division 2 = division / 2 := Int.tdiv_eq_ediv (by omega) (by omega)
  have hsh : ∀ x : Int, x >>> (1 : Nat) = x / 2 := by
    intro x
    rw [Int.shiftRight_eq_div_pow]
    norm_num
  unfold MTrack.quantize.rasterOf MTrack.quantize.div
  rw [h16, h8, h4, h2]
  split_ifs <;> first
    | omega
    | (rw [hsh]
       refine lt_of_lt_of_le ?_ (quantizeLen_ge _ _ ?_ ?_) <;> omega)

theorem MTrack.quantize.raster_pos (division : Int) (chords : ChordMap)
    (startTick endTick : Int) (hdiv : 16 ≤ division) :
    0 < MTrack.quantize.raster division chords startTick endTick :=
  MTrack.quantize.rasterOf_pos division _ hdiv (MTrack.quantize.mintick_le division _)

/-! ## Onset rounding -/

theorem MTrack.quantize.tdiv_half_eq (o r : Int) (ho : 0 ≤ o) (hr : 0 < r) :
    Int.tdiv (o + (r >>> (1 : Nat))) r = (2 * o + r) / (2 * r) := by
  have hsh : r >>> (1 : Nat) = r / 2 := by
    rw [Int.shiftRight_eq_div_pow]
    norm_num
  rw [hsh, Int.tdiv_eq_ediv (by omega) (by omega)]
  have h1 := Int.emod_add_ediv (o + r / 2) r
  have h2 := Int.emod_nonneg (o + r / 2) (by omega : r ≠ 0)
  have h3 := Int.emod_lt_of_pos (o + r / 2) hr
  generalize (o + r / 2) / r = q at h1 ⊢
  generalize (o + r / 2) % r = m at h1 h2 h3
  apply le_antisymm
  · apply Int.le_ediv_of_mul_le (by omega)
    have : q * (2 * r) = 2 * (r * q) := by ring
    omega
  · have : (2 * o + r) / (2 * r) < q + 1 := by
      apply (Int.ediv_lt_iff_lt_mul (by omega)).mpr
      have : (q + 1) * (2 * r) = 2 * (r * q) + 2 * r := by ring
      omega
    omega

theorem Spec.round_div_eq (o r : Int) (hr : 0 < r) :
    round ((o : ℚ) / (r : ℚ)) = (2 * o + r) / (2 * r) := by
  obtain ⟨n, rfl⟩ := Int.eq_ofNat_of_zero_le (le_of_lt hr)
  have hn : (n : ℚ) ≠ 0 := by
    have : (0 : Int) < n := hr
    exact_mod_cast (ne_of_gt this)
  have h1 : ((o : ℚ) / ((n : Int) : ℚ)) + 1 / 2 =
      (((2 * o + (n : Int) : Int)) : ℚ) / (((2 * n : ℕ)) : ℚ) := by
    push_cast
    field_simp
    ring
  rw [round_eq, h1, Rat.floor_intCast_div_natCast]
  push_cast
  rfl

theorem MTrack.quantize.snap_onTime_eq (o r : Int) (c : MidiChord) (ho : 0 ≤ c.onTime)
    (hr : 0 < r) (hc : c.onTime = o) :
    (MTrack.quantize.snap r c).onTime = (2 * o + r) / (2 * r) * r := by
  subst hc
  show Int.tdiv (c.onTime + (r >>> (1 : Nat))) r * r = _
  rw [MTrack.quantize.tdiv_half_eq _ _ ho hr]

theorem MTrack.quantize.nearest_bounds (o r : Int) (hr : 0 < r) :
    2 * ((2 * o + r) / (2 * r) * r) - r ≤ 2 * o ∧
      2 * o < 2 * ((2 * o + r) / (2 * r) * r) + r := by
  have h1 := Int.emod_add_ediv (2 * o + r) (2 * r)
  have h2 := Int.emod_nonneg (2 * o + r) (by omega : 2 * r ≠ 0)
  have h3 := Int.emod_lt_of_pos (2 * o + r) (by omega : 0 < 2 * r)
  generalize (2 * o + r) / (2 * r) = q at h1 ⊢
  generalize (2 * o + r) % (2 * r) = m at h1 h2 h3
  have e1 : 2 * r * q = 2 * (q * r) := by ring
  constructor <;> omega

theorem MTrack.quantize.eq_some (division : Int) (chords dst : ChordMap)
    (startTick endTick : Int) (hdiv : 16 ≤ division) :
    MTrack.quantize division chords startTick endTick dst =
      some ((MTrack.quantize.interval chords startTick endTick).foldl
        (fun d e => ChordMap.insert d
          (MTrack.quantize.snap (MTrack.quantize.raster division chords startTick endTick)
            e.2).onTime
          (MTrack.quantize.snap (MTrack.quantize.raster division chords startTick endTick)
            e.2)) dst) := by
  have hpos := MTrack.quantize.raster_pos division chords startTick endTick hdiv
  unfold MTrack.quantize
  simp only
  rw [if_neg]
  rintro ⟨_, h0⟩
  omega

theorem MTrack.quantize.mem_out (division : Int) (chords dst : ChordMap)
    (startTick endTick : Int) (hdiv : 16 ≤ division) (hord : chords.Ordered) :
    ∃ out, MTrack.quantize division chords startTick endTick dst = some out ∧
      ∀ x, x ∈ out ↔ x ∈ dst ∨ ∃ e ∈ chords, startTick ≤ e.1 ∧ e.1 < endTick ∧
        x = ((MTrack.quantize.snap
              (MTrack.quantize.raster division chords startTick endTick) e.2).onTime,
            MTrack.quantize.snap
              (MTrack.quantize.raster division chords startTick endTick) e.2) := by
  refine ⟨_, MTrack.quantize.eq_some division chords dst startTick endTick hdiv, ?_⟩
  intro x
  rw [ChordMap.mem_foldl_insert
    (MTrack.quantize.snap (MTrack.quantize.raster division chords startTick endTick))]
  simp only [MTrack.quantize.mem_interval chords startTick endTick hord]
  constructor
  · rintro (h | ⟨e, ⟨h1, h2, h3⟩, h4⟩)
    · exact Or.inl h
    · exact Or.inr ⟨e, h1, h2, h3, h4⟩
  · rintro (h | ⟨e, h1, h2, h3, h4⟩)
    · exact Or.inl h
    · exact Or.inr ⟨e, ⟨h1, h2, h3⟩, h4⟩

/-! ## Claims on `MTrack::quantize` -/

/-- C1: with `MScore::division >= 16` (it is 480) the call
`quantize(startTick, endTick, dst)` is defined, `dst` afterwards holds its old entries and,
for every chord of the track with key in `[startTick, endTick)`, the rewritten copy keyed by
its new onset; the new `onTime` and the new `duration` of each such copy are integer
multiples of the raster computed for the interval. -/
theorem MTrack.quantize_multiples_of_raster (division : Int) (chords dst : ChordMap)
    (startTick endTick : Int) (hdiv : 16 ≤ division) (hord : chords.Ordered) :
    ∃ out, MTrack.quantize division chords startTick endTick dst = some out ∧
      (∀ x, x ∈ out ↔ x ∈ dst ∨ ∃ e ∈ chords, startTick ≤ e.1 ∧ e.1 < endTick ∧
        x = ((MTrack.quantize.snap
              (MTrack.quantize.raster division chords startTick endTick) e.2).onTime,
            MTrack.quantize.snap
              (MTrack.quantize.raster division chords startTick endTick) e.2)) ∧
      ∀ e ∈ chords, startTick ≤ e.1 → e.1 < endTick →
        MTrack.quantize.raster division chords startTick endTick ∣
          (MTrack.quantize.snap
            (MTrack.quantize.raster division chords startTick endTick) e.2).onTime ∧
        MTrack.quantize.raster division chords startTick endTick ∣
          (MTrack.quantize.snap
            (MTrack.quantize.raster division chords startTick endTick) e.2).duration := by
  obtain ⟨out, h1, h2⟩ :=
    MTrack.quantize.mem_out division chords dst startTick endTick hdiv hord
  refine ⟨out, h1, h2, ?_⟩
  intro e _ _ _
  exact ⟨Dvd.intro_left _ rfl, quantizeLen_dvd _ _⟩

/-- Witness of C1 on the measure of the specification's scenario. -/
theorem MTrack.quantize_multiples_of_raster_witness :
    (16 : Int) ≤ 480 ∧ ChordMap.Ordered exSixteenths ∧
    ∃ out, MTrack.quantize 480 exSixteenths 0 1920 [] = some out ∧
      (∀ x, x ∈ out ↔ x ∈ ([] : ChordMap) ∨ ∃ e ∈ exSixteenths, 0 ≤ e.1 ∧ e.1 < 1920 ∧
        x = ((MTrack.quantize.snap
              (MTrack.quantize.raster 480 exSixteenths 0 1920) e.2).onTime,
            MTrack.quantize.snap
              (MTrack.quantize.raster 480 exSixteenths 0 1920) e.2)) ∧
      ∀ e ∈ exSixteenths, 0 ≤ e.1 → e.1 < 1920 →
        MTrack.quantize.raster 480 exSixteenths 0 1920 ∣
          (MTrack.quantize.snap
            (MTrack.quantize.raster 480 exSixteenths 0 1920) e.2).onTime ∧
        MTrack.quantize.raster 480 exSixteenths 0 1920 ∣
          (MTrack.quantize.snap
            (MTrack.quantize.raster 480 exSixteenths 0 1920) e.2).duration :=
  ⟨by decide, by unfold ChordMap.Ordered; decide,
    MTrack.quantize_multiples_of_raster 480 exSixteenths [] 0 1920 (by decide)
      (by unfold ChordMap.Ordered; decide)⟩

theorem MTrack.quantize.nearest_multiple (o r m : Int) (hr : 0 < r) (hm : r ∣ m) :
    |(2 * o + r) / (2 * r) * r - o| ≤ |m - o| ∧
      (|m - o| = |(2 * o + r) / (2 * r) * r - o| → m ≤ (2 * o + r) / (2 * r) * r) := by
  obtain ⟨h1, h2⟩ := MTrack.quantize.nearest_bounds o r hr
  obtain ⟨j, rfl⟩ := hm
  generalize (2 * o + r) / (2 * r) = t at h1 h2 ⊢
  rcases lt_trichotomy j t with hlt | rfl | hgt
  · have h3 : r * j ≤ r * (t - 1) := mul_le_mul_of_nonneg_left (by omega) (by omega)
    have h4 : r * (t - 1) = t * r - r := by ring
    rcases abs_cases (t * r - o) with ⟨e1, _⟩ | ⟨e1, _⟩ <;>
      rcases abs_cases (r * j - o) with ⟨e2, _⟩ | ⟨e2, _⟩ <;>
      rw [e1, e2] <;> constructor <;> intros <;> omega
  · rw [mul_comm]
    exact ⟨le_refl _, fun _ => le_refl _⟩
  · have h3 : r * (t + 1) ≤ r * j := mul_le_mul_of_nonneg_left (by omega) (by omega)
    have h4 : r * (t + 1) = t * r + r := by ring
    rcases abs_cases (t * r - o) with ⟨e1, _⟩ | ⟨e1, _⟩ <;>
      rcases abs_cases (r * j - o) with ⟨e2, _⟩ | ⟨e2, _⟩ <;>
      rw [e1, e2] <;> constructor <;> intros <;> omega

/-- C10: for a chord of the interval with a non-negative onset, the onset
`MTrack::quantize` writes (the call is defined and `dst` receives the rewritten chord under
that onset) is `round(onset / raster) * raster`; it is a multiple of the raster, no multiple
of the raster is nearer to the original onset, a multiple just as near is not above it (a tie
at half a raster rounds up), and it differs from the original onset by at most half a
raster. -/
theorem MTrack.quantize_onset_nearest (division : Int) (chords dst : ChordMap)
    (startTick endTick : Int) (e : Int × MidiChord) (hdiv : 16 ≤ division)
    (hord : chords.Ordered) (he : e ∈ chords) (hs : startTick ≤ e.1) (ht : e.1 < endTick)
    (hon : 0 ≤ e.2.onTime) :
    (∃ out, MTrack.quantize division chords startTick endTick dst = some out ∧
      ((MTrack.quantize.snap
          (MTrack.quantize.raster division chords startTick endTick) e.2).onTime,
        MTrack.quantize.snap
          (MTrack.quantize.raster division chords startTick endTick) e.2) ∈ out) ∧
    (MTrack.quantize.snap
        (MTrack.quantize.raster division chords startTick endTick) e.2).onTime =
      Spec.snapOnset e.2.onTime (MTrack.quantize.raster division chords startTick endTick) ∧
    MTrack.quantize.raster division chords startTick endTick ∣
      (MTrack.quantize.snap
        (MTrack.quantize.raster division chords startTick endTick) e.2).onTime ∧
    (∀ m, MTrack.quantize.raster division chords startTick endTick ∣ m →
      |(MTrack.quantize.snap
        (MTrack.quantize.raster division chords startTick endTick) e.2).onTime - e.2.onTime|
        ≤ |m - e.2.onTime|) ∧
    (∀ m, MTrack.quantize.raster division chords startTick endTick ∣ m →
      |m - e.2.onTime| = |(MTrack.quantize.snap
        (MTrack.quantize.raster division chords startTick endTick) e.2).onTime - e.2.onTime| →
      m ≤ (MTrack.quantize.snap
        (MTrack.quantize.raster division chords startTick endTick) e.2).onTime) ∧
    2 * |(MTrack.quantize.snap
        (MTrack.quantize.raster division chords startTick endTick) e.2).onTime - e.2.onTime|
      ≤ MTrack.quantize.raster division chords startTick endTick := by
  have hpos := MTrack.quantize.raster_pos division chords startTick endTick hdiv
  have hq := MTrack.quantize.snap_onTime_eq e.2.onTime _ e.2 hon hpos rfl
  obtain ⟨out, h1, h2⟩ :=
    MTrack.quantize.mem_out division chords dst startTick endTick hdiv hord
  generalize MTrack.quantize.raster division chords startTick endTick = r at hpos hq h2 ⊢
  refine ⟨?_, ?_, ?_, ?_, ?_, ?_⟩
  · exact ⟨out, h1, (h2 _).mpr (Or.inr ⟨e, he, hs, ht, rfl⟩)⟩
  · rw [hq, Spec.snapOnset, Spec.round_div_eq _ _ hpos]
  · exact Dvd.intro_left _ rfl
  · intro m hm
    rw [hq]
    exact (MTrack.quantize.nearest_multiple _ _ _ hpos hm).1
  · intro m hm
    rw [hq]
    exact (MTrack.quantize.nearest_multiple _ _ _ hpos hm).2
  · rw [hq]
    obtain ⟨b1, b2⟩ := MTrack.quantize.nearest_bounds e.2.onTime r hpos
    rcases abs_cases ((2 * e.2.onTime + r) / (2 * r) * r - e.2.onTime) with ⟨e1, _⟩ | ⟨e1, _⟩ <;>
      rw [e1] <;> omega

/-- Witness of C10 on the specification's measure: the onsets 59 and 121 become 60 and
120. -/
theorem MTrack.quantize_onset_nearest_witness :
    ((MTrack.quantize.snap (MTrack.quantize.raster 480 exSixteenths 0 1920)
        (mkChord 60 59 60)).onTime = 60 ∧
      (MTrack.quantize.snap (MTrack.quantize.raster 480 exSixteenths 0 1920)
        (mkChord 62 121 60)).onTime = 120) ∧
    (∃ out, MTrack.quantize 480 exSixteenths 0 1920 [] = some out ∧
      ((MTrack.quantize.snap
          (MTrack.quantize.raster 480 exSixteenths 0 1920) (mkChord 60 59 60)).onTime,
        MTrack.quantize.snap
          (MTrack.quantize.raster 480 exSixteenths 0 1920) (mkChord 60 59 60)) ∈ out) ∧
    (MTrack.quantize.snap
        (MTrack.quantize.raster 480 exSixteenths 0 1920) (mkChord 60 59 60)).onTime =
      Spec.snapOnset (mkChord 60 59 60).onTime (MTrack.quantize.raster 480 exSixteenths 0 1920) ∧
    MTrack.quantize.raster 480 exSixteenths 0 1920 ∣
      (MTrack.quantize.snap
        (MTrack.quantize.raster 480 exSixteenths 0 1920) (mkChord 60 59 60)).onTime ∧
    (∀ m, MTrack.quantize.raster 480 exSixteenths 0 1920 ∣ m →
      |(MTrack.quantize.snap
        (MTrack.quantize.raster 480 exSixteenths 0 1920) (mkChord 60 59 60)).onTime -
          (mkChord 60 59 60).onTime|
        ≤ |m - (mkChord 60 59 60).onTime|) ∧
    (∀ m, MTrack.quantize.raster 480 exSixteenths 0 1920 ∣ m →
      |m - (mkChord 60 59 60).onTime| = |(MTrack.quantize.snap
        (MTrack.quantize.raster 480 exSixteenths 0 1920) (mkChord 60 59 60)).onTime -
          (mkChord 60 59 60).onTime| →
      m ≤ (MTrack.quantize.snap
        (MTrack.quantize.raster 480 exSixteenths 0 1920) (mkChord 60 59 60)).onTime) ∧
    2 * |(MTrack.quantize.snap
        (MTrack.quantize.raster 480 exSixteenths 0 1920) (mkChord 60 59 60)).onTime -
          (mkChord 60 59 60).onTime|
      ≤ MTrack.quantize.raster 480 exSixteenths 0 1920 :=
  ⟨by decide,
    MTrack.quantize_onset_nearest 480 exSixteenths [] 0 1920 (59, mkChord 60 59 60)
      (by decide) (by unfold ChordMap.Ordered; decide) (by decide) (by decide) (by decide)
      (by decide)⟩

/-! ## The grid resolution -/

theorem Spec.min?_eq_some (l : List Int) (m : Int) :
    l.min? = some m ↔ m ∈ l ∧ ∀ b ∈ l, m ≤ b := by
  haveI : Std.Antisymm (fun (a b : Int) => a ≤ b) := ⟨fun h1 h2 => le_antisymm h1 h2⟩
  exact List.min?_eq_some_iff (fun a => le_refl a) (fun a b => min_choice a b)
    (fun _ _ _ => le_min_iff)

theorem MTrack.quantize.foldl_min_spec (sel : ChordMap) (a : Int) :
    (∀ e ∈ sel, sel.foldl (fun m e => min m e.2.duration) a ≤ e.2.duration) ∧
      (sel.foldl (fun m e => min m e.2.duration) a = a ∨
        ∃ e ∈ sel, sel.foldl (fun m e => min m e.2.duration) a = e.2.duration) := by
  induction sel generalizing a with
  | nil => simp
  | cons hd tl ih =>
    simp only [List.foldl_cons, List.mem_cons, forall_eq_or_imp, exists_eq_or_imp]
    obtain ⟨h1, h2⟩ := ih (min a hd.2.duration)
    have h3 := MTrack.quantize.foldl_min_le tl (min a hd.2.duration)
    refine ⟨⟨le_trans h3 (min_le_right _ _), h1⟩, ?_⟩
    rcases h2 with h2 | h2
    · rcases min_choice a hd.2.duration with h4 | h4
      · exact Or.inl (h2.trans h4)
      · exact Or.inr (Or.inl (h2.trans h4))
    · exact Or.inr (Or.inr h2)

theorem MTrack.quantize.mintick_eq_min (division : Int) (chords : ChordMap)
    (startTick endTick m : Int) (hord : chords.Ordered)
    (hm : Spec.minDuration chords startTick endTick = some m) :
    MTrack.quantize.mintick division (MTrack.quantize.interval chords startTick endTick) =
      min m division := by
  obtain ⟨h1, h2⟩ := (Spec.min?_eq_some _ _).mp hm
  simp only [List.mem_map, List.mem_filter, decide_eq_true_eq] at h1 h2
  obtain ⟨e, ⟨he1, he2⟩, rfl⟩ := h1
  have hle := MTrack.quantize.mintick_le division
    (MTrack.quantize.interval chords startTick endTick)
  obtain ⟨h3, h4⟩ := MTrack.quantize.foldl_min_spec
    (MTrack.quantize.interval chords startTick endTick) division
  have h5 := h3 e ((MTrack.quantize.mem_interval chords startTick endTick hord e).mpr
    ⟨he1, he2⟩)
  unfold MTrack.quantize.mintick at hle ⊢
  rcases h4 with h4 | ⟨x, hx, h4⟩
  · rw [h4] at h5 ⊢
    exact (min_eq_right h5).symm
  · have hx2 := (MTrack.quantize.mem_interval chords startTick endTick hord x).mp hx
    have h6 := h2 x.2.duration ⟨x, ⟨hx2.1, hx2.2⟩, rfl⟩
    rw [h4] at h5 hle ⊢
    have : x.2.duration = e.2.duration := le_antisymm h5 h6
    rw [this] at hle ⊢
    exact (min_eq_left hle).symm

theorem Spec.gridResolution_of_le (division x : Int) (h0 : 0 ≤ division)
    (hx : x ≤ division) :
    Spec.gridResolution division x = MTrack.quantize.div division x := by
  have h16 : Int.tdiv division 16 = division / 16 := Int.tdiv_eq_ediv (by omega) (by omega)
  have h8 : Int.tdiv division 8 = division / 8 := Int.tdiv_eq_ediv (by omega) (by omega)
  have h4 : Int.tdiv division 4 = division / 4 := Int.tdiv_eq_ediv (by omega) (by omega)
  have h2 : Int.tdiv division 2 = division / 2 := Int.tdiv_eq_ediv (by omega) (by omega)
  unfold Spec.gridResolution MTrack.quantize.div Spec.ladder
  rw [h16, h8, h4, h2]
  have c5 : x ≤ division := hx
  have c6 : x ≤ division * 2 := by omega
  have c7 : x ≤ division * 4 := by omega
  have c8 : x ≤ division * 8 := by omega
  by_cases c1 : x ≤ division / 16
  · have c2 : x ≤ division / 8 := by omega
    have c3 : x ≤ division / 4 := by omega
    have c4 : x ≤ division / 2 := by omega
    simp only [List.filter, c1, c2, c3, c4, c5, c6, c7, c8, decide_True, List.min?_cons',
      List.foldl_cons, List.foldl_nil, Option.getD_some, if_true]
    omega
  · by_cases c2 : x ≤ division / 8
    · have c3 : x ≤ division / 4 := by omega
      have c4 : x ≤ division / 2 := by omega
      simp only [List.filter, c1, c2, c3, c4, c5, c6, c7, c8, decide_True, decide_False,
        List.min?_cons', List.foldl_cons, List.foldl_nil, Option.getD_some, if_true, if_false]
      omega
    · by_cases c3 : x ≤ division / 4
      · have c4 : x ≤ division / 2 := by omega
        simp only [List.filter, c1, c2, c3, c4, c5, c6, c7, c8, decide_True, decide_False,
          List.min?_cons', List.foldl_cons, List.foldl_nil, Option.getD_some, if_true,
          if_false]
        omega
      · by_cases c4 : x ≤ division / 2
        · simp only [List.filter, c1, c2, c3, c4, c5, c6, c7, c8, decide_True, decide_False,
            List.min?_cons', List.foldl_cons, List.foldl_nil, Option.getD_some, if_true,
            if_false]
          omega
        · simp only [List.filter, c1, c2, c3, c4, c5, c6, c7, c8, decide_True, decide_False,
            List.min?_cons', List.foldl_cons, List.foldl_nil, Option.getD_some, if_true,
            if_false]
          omega

theorem MTrack.quantize.div_le (division x : Int) (h0 : 0 ≤ division) (hx : x ≤ division) :
    MTrack.quantize.div division x ≤ division := by
  have h16 : Int.tdiv division 16 = division / 16 := Int.tdiv_eq_ediv (by omega) (by omega)
  have h8 : Int.tdiv division 8 = division / 8 := Int.tdiv_eq_ediv (by omega) (by omega)
  have h4 : Int.tdiv division 4 = division / 4 := Int.tdiv_eq_ediv (by omega) (by omega)
  have h2 : Int.tdiv division 2 = division / 2 := Int.tdiv_eq_ediv (by omega) (by omega)
  unfold MTrack.quantize.div
  rw [h16, h8, h4, h2]
  split_ifs <;> omega

/-- C9, refuted as stated: a measure `[0, 1920)` holding one half note (960 ticks) at
`division = 480` has `minDuration = 960`, for which the smallest ladder rung `>= minDuration`
is `2 x division = 960`, but `MTrack::quantize` selects `div = 480`. -/
theorem MTrack.quantize_div_half_note_counterexample :
    ¬ (∀ m, Spec.minDuration exHalfNote 0 1920 = some m →
      MTrack.quantize.divOf 480 exHalfNote 0 1920 = Spec.gridResolution 480 m) := by
  intro h
  have h1 := h 960 (by decide)
  revert h1
  decide

/-- C9, amended: for an interval `[startTick, endTick)` holding at least one chord, with
`minDuration` the minimum chord duration among the chords with key in the interval,
`MTrack::quantize` selects as `div` the smallest ladder rung that is
`>= min(minDuration, division)`; the running minimum starts at `division`, so `div` never
exceeds `division`. -/
theorem MTrack.quantize_div_smallest_rung_capped (division : Int) (chords : ChordMap)
    (startTick endTick m : Int) (h0 : 0 ≤ division) (hord : chords.Ordered)
    (hm : Spec.minDuration chords startTick endTick = some m) :
    MTrack.quantize.divOf division chords startTick endTick =
        Spec.gridResolution division (min m division) ∧
      MTrack.quantize.divOf division chords startTick endTick ≤ division := by
  unfold MTrack.quantize.divOf
  rw [MTrack.quantize.mintick_eq_min division chords startTick endTick m hord hm]
  exact ⟨(Spec.gridResolution_of_le division _ h0 (min_le_right _ _)).symm,
    MTrack.quantize.div_le division _ h0 (min_le_right _ _)⟩

/-- Witness of the amended C9 on the measure of two sixteenth-length notes. -/
theorem MTrack.quantize_div_smallest_rung_capped_witness :
    (0 : Int) ≤ 480 ∧ ChordMap.Ordered exSixteenths ∧
    Spec.minDuration exSixteenths 0 1920 = some 60 ∧
    MTrack.quantize.divOf 480 exSixteenths 0 1920 = Spec.gridResolution 480 (min 60 480) ∧
      MTrack.quantize.divOf 480 exSixteenths 0 1920 ≤ 480 :=
  ⟨by decide, by unfold ChordMap.Ordered; decide, by decide,
    MTrack.quantize_div_smallest_rung_capped 480 exSixteenths 0 1920 60 (by decide)
      (by unfold ChordMap.Ordered; decide) (by decide)⟩

/-! ## `MTrack::cleanup`: the quantized map and the overlap pass -/

theorem ChordMap.insert_ordered (m : ChordMap) (k : Int) (c : MidiChord)
    (h : m.Ordered) : (ChordMap.insert m k c).Ordered := by
  induction m with
  | nil => simp [ChordMap.insert, ChordMap.Ordered]
  | cons hd tl ih =>
    obtain ⟨k1, c1⟩ := hd
    have h1 := List.pairwise_cons.mp h
    unfold ChordMap.insert
    split
    · refine List.pairwise_cons.mpr ⟨?_, h⟩
      intro x hx
      rcases List.mem_cons.mp hx with rfl | hx
      · exact le_of_lt ‹k < k1›
      · have := h1.1 x hx
        show k ≤ x.1
        have h2 : k < k1 := ‹k < k1›
        simp only at this
        omega
    · refine List.pairwise_cons.mpr ⟨?_, ih h1.2⟩
      intro x hx
      rcases (ChordMap.mem_insert tl k c x).mp hx with rfl | hx
      · show k1 ≤ k
        have h2 : ¬ k < k1 := ‹¬ k < k1›
        omega
      · exact h1.1 x hx

theorem ChordMap.foldl_insert_ordered (f : MidiChord → MidiChord) (sel dst : ChordMap)
    (h : dst.Ordered) :
    (sel.foldl (fun d e => ChordMap.insert d (f e.2).onTime (f e.2)) dst).Ordered := by
  induction sel generalizing dst with
  | nil => exact h
  | cons hd tl ih => exact ih _ (ChordMap.insert_ordered _ _ _ h)

theorem ChordMap.foldl_insert_keyed (f : MidiChord → MidiChord) (sel dst : ChordMap)
    (h : dst.Keyed) :
    (sel.foldl (fun d e => ChordMap.insert d (f e.2).onTime (f e.2)) dst).Keyed := by
  intro x hx
  rcases (ChordMap.mem_foldl_insert f sel dst x).mp hx with hx | ⟨e, _, rfl⟩
  · exact h x hx
  · rfl

theorem MTrack.quantize.out_invariant (division : Int) (chords dst out : ChordMap)
    (startTick endTick : Int) (h1 : dst.Ordered) (h2 : dst.Keyed)
    (h : MTrack.quantize division chords startTick endTick dst = some out) :
    out.Ordered ∧ out.Keyed := by
  unfold MTrack.quantize at h
  simp only at h
  split at h
  · exact absurd h (by simp)
  · cases h
    exact ⟨ChordMap.foldl_insert_ordered _ _ _ h1, ChordMap.foldl_insert_keyed _ _ _ h2⟩

theorem MTrack.cleanup.measures_invariant (division : Int) (chords : ChordMap)
    (bar2tick : Nat → Int) (lastTick : Int) (fuel i : Nat) (startTick : Int)
    (dl out : ChordMap) (h1 : dl.Ordered) (h2 : dl.Keyed)
    (h : MTrack.cleanup.measures division chords bar2tick lastTick fuel i startTick dl =
      some out) :
    out.Ordered ∧ out.Keyed := by
  induction fuel generalizing i startTick dl with
  | zero => exact absurd h (by simp [MTrack.cleanup.measures])
  | succ n ih =>
    unfold MTrack.cleanup.measures at h
    split at h
    · exact absurd h (by simp)
    · rename_i dl1 hq
      obtain ⟨h3, h4⟩ := MTrack.quantize.out_invariant _ _ _ _ _ _ h1 h2 hq
      split at h
      · cases h
        exact ⟨h3, h4⟩
      · exact ih _ _ _ h3 h4 h

theorem MTrack.cleanup.measures_some (division : Int) (chords : ChordMap)
    (bar2tick : Nat → Int) (lastTick : Int) (hdiv : 16 ≤ division) (k i : Nat)
    (startTick : Int) (dl : ChordMap) (hk : lastTick < bar2tick (i + k)) :
    ∃ out, MTrack.cleanup.measures division chords bar2tick lastTick (k + 1) i startTick dl =
      some out := by
  induction k generalizing i startTick dl with
  | zero =>
    unfold MTrack.cleanup.measures
    rw [MTrack.quantize.eq_some division chords dl startTick (bar2tick i) hdiv]
    simp only
    rw [if_pos (by simpa using hk)]
    exact ⟨_, rfl⟩
  | succ n ih =>
    unfold MTrack.cleanup.measures
    rw [MTrack.quantize.eq_some division chords dl startTick (bar2tick i) hdiv]
    simp only
    split
    · exact ⟨_, rfl⟩
    · exact ih (i + 1) _ _ (by rw [show i + 1 + n = i + (n + 1) by omega]; exact hk)

theorem MTrack.cleanup.scan_frame (e : MidiChord) (rest : ChordMap) :
    (MTrack.cleanup.scan e rest).onTime = e.onTime ∧
      (MTrack.cleanup.scan e rest).notes = e.notes ∧
      (MTrack.cleanup.scan e rest).voice = e.voice := by
  induction rest with
  | nil => exact ⟨rfl, rfl, rfl⟩
  | cons hd tl ih =>
    obtain ⟨k, ee⟩ := hd
    unfold MTrack.cleanup.scan
    split
    · exact ih
    · split
      · exact ⟨rfl, rfl, rfl⟩
      · exact ⟨rfl, rfl, rfl⟩

theorem MTrack.cleanup.scan_pitch (e : MidiChord) (rest : ChordMap) :
    (MTrack.cleanup.scan e rest).notes0.pitch = e.notes0.pitch := by
  unfold MidiChord.notes0
  rw [(MTrack.cleanup.scan_frame e rest).2.1]

theorem MTrack.cleanup.scan_end_le (e : MidiChord) (rest : ChordMap)
    (hs : rest.Pairwise (fun a b => a.2.onTime ≤ b.2.onTime)) (b : Int × MidiChord)
    (hb : b ∈ rest) (hp : b.2.notes0.pitch = e.notes0.pitch) :
    (MTrack.cleanup.scan e rest).onTime + (MTrack.cleanup.scan e rest).duration ≤
      b.2.onTime := by
  induction rest with
  | nil => exact absurd hb (List.not_mem_nil _)
  | cons hd tl ih =>
    obtain ⟨k, ee⟩ := hd
    have hs1 := List.pairwise_cons.mp hs
    unfold MTrack.cleanup.scan
    split
    · rename_i hne
      rcases List.mem_cons.mp hb with rfl | hb
      · exact absurd hp hne
      · exact ih hs1.2 hb
    · split
      · rename_i hge
        rcases List.mem_cons.mp hb with rfl | hb
        · exact hge
        · have := hs1.1 b hb
          simp only at this
          omega
      · rcases List.mem_cons.mp hb with rfl | hb
        · show e.onTime + (ee.onTime - e.onTime) ≤ ee.onTime
          omega
        · have := hs1.1 b hb
          show e.onTime + (ee.onTime - e.onTime) ≤ b.2.onTime
          simp only at this
          omega

theorem MTrack.cleanup.mem_overlaps (m : ChordMap) (x : Int × MidiChord)
    (hx : x ∈ MTrack.cleanup.overlaps m) :
    ∃ b ∈ m, x.1 = b.1 ∧ x.2.onTime = b.2.onTime ∧ x.2.notes = b.2.notes ∧
      x.2.voice = b.2.voice := by
  induction m with
  | nil => exact absurd hx (List.not_mem_nil _)
  | cons hd tl ih =>
    obtain ⟨k, e⟩ := hd
    unfold MTrack.cleanup.overlaps at hx
    rcases List.mem_cons.mp hx with rfl | hx
    · obtain ⟨h1, h2, h3⟩ := MTrack.cleanup.scan_frame e tl
      exact ⟨(k, e), List.mem_cons_self _ _, rfl, h1, h2, h3⟩
    · obtain ⟨b, hb, h⟩ := ih hx
      exact ⟨b, List.mem_cons_of_mem _ hb, h⟩

theorem MTrack.cleanup.overlaps_noOverlap (m : ChordMap)
    (hs : m.Pairwise (fun a b => a.2.onTime ≤ b.2.onTime)) :
    (MTrack.cleanup.overlaps m).NoOverlap := by
  induction m with
  | nil => exact List.Pairwise.nil
  | cons hd tl ih =>
    obtain ⟨k, e⟩ := hd
    have hs1 := List.pairwise_cons.mp hs
    unfold MTrack.cleanup.overlaps
    refine List.pairwise_cons.mpr ⟨?_, ih hs1.2⟩
    intro x hx hp
    obtain ⟨b, hb, _, h2, h3, _⟩ := MTrack.cleanup.mem_overlaps tl x hx
    have hp2 : b.2.notes0.pitch = e.notes0.pitch := by
      have h4 : x.2.notes0 = b.2.notes0 := by
        unfold MidiChord.notes0
        rw [h3]
      rw [← h4, ← hp]
      exact MTrack.cleanup.scan_pitch e tl
    rw [h2]
    exact MTrack.cleanup.scan_end_le e tl hs1.2 b hb hp2

theorem ChordMap.sorted_onTime (m : ChordMap) (h1 : m.Ordered) (h2 : m.Keyed) :
    m.Pairwise (fun a b => a.2.onTime ≤ b.2.onTime) := by
  unfold ChordMap.Ordered at h1
  induction m with
  | nil => exact List.Pairwise.nil
  | cons hd tl ih =>
    have h3 := List.pairwise_cons.mp h1
    refine List.pairwise_cons.mpr ⟨?_, ih h3.2 (fun x hx => h2 x (List.mem_cons_of_mem _ hx))⟩
    intro x hx
    have h4 := h3.1 x hx
    rw [h2 hd (List.mem_cons_self _ _), h2 x (List.mem_cons_of_mem _ hx)] at h4
    exact h4

/-- C2: when the bars of the time-signature map pass `lastTick` (and `MScore::division` is
at least 16), `MTrack::cleanup` returns, and in the chord map it leaves, whenever a chord
`a` comes before a chord `b` in map order and both have the same `notes[0].pitch`,
`a.onTime + a.duration <= b.onTime`: no two chords of equal pitch overlap. -/
theorem MTrack.cleanup_no_overlap (division : Int) (chords : ChordMap)
    (bar2tick : Nat → Int) (lastTick : Int) (n : Nat) (hdiv : 16 ≤ division)
    (hbar : lastTick < bar2tick (1 + n)) :
    (∃ out, MTrack.cleanup division chords bar2tick lastTick (n + 1) = some out) ∧
      ∀ fuel out, MTrack.cleanup division chords bar2tick lastTick fuel = some out →
        out.NoOverlap := by
  constructor
  · obtain ⟨dl, h⟩ := MTrack.cleanup.measures_some division chords bar2tick lastTick hdiv
      n 1 0 [] hbar
    exact ⟨MTrack.cleanup.overlaps dl, by unfold MTrack.cleanup; rw [h]; rfl⟩
  · intro fuel out h
    unfold MTrack.cleanup at h
    obtain ⟨dl, h1, rfl⟩ := Option.map_eq_some'.mp h
    obtain ⟨h2, h3⟩ := MTrack.cleanup.measures_invariant division chords bar2tick lastTick
      fuel 1 0 [] dl List.Pairwise.nil (fun x hx => absurd hx (List.not_mem_nil _)) h1
    exact MTrack.cleanup.overlaps_noOverlap dl (ChordMap.sorted_onTime dl h2 h3)

/-- Witness of C2: a 4/4 score of one bar and a track with two overlapping notes of pitch
60. -/
theorem MTrack.cleanup_no_overlap_witness :
    MTrack.cleanup 480 exOverlap bar44 1000 1 =
      some [(0, { mkChord 60 0 480 with duration := 240 }), (0, mkChord 64 0 240),
        (240, mkChord 60 240 480)] ∧
    (16 : Int) ≤ 480 ∧ (1000 : Int) < bar44 (1 + 0) ∧
    (∃ out, MTrack.cleanup 480 exOverlap bar44 1000 (0 + 1) = some out) ∧
      ∀ fuel out, MTrack.cleanup 480 exOverlap bar44 1000 fuel = some out →
        out.NoOverlap :=
  ⟨by decide, by decide, by decide,
    MTrack.cleanup_no_overlap 480 exOverlap bar44 1000 0 (by decide) (by decide)⟩

/-! ## `MTrack::findChords` -/

theorem MTrack.findChords.absorb_length (drumset : Option Drumset) (useDrumset : Bool)
    (voice jitter ontime offtime : Int) (rest : ChordMap) :
    (MTrack.findChords.absorb drumset useDrumset voice jitter ontime offtime rest).2.length ≤
      rest.length := by
  induction rest with
  | nil => simp [MTrack.findChords.absorb]
  | cons hd tl ih =>
    obtain ⟨k, ck⟩ := hd
    unfold MTrack.findChords.absorb
    split_ifs <;> simp only [List.length_cons] <;> omega

theorem MTrack.findChords.loop_fuel (drumset : Option Drumset) (n m : Nat) (l : ChordMap)
    (hn : l.length ≤ n) (hm : l.length ≤ m) :
    MTrack.findChords.loop drumset n l = MTrack.findChords.loop drumset m l := by
  induction n generalizing m l with
  | zero =>
    have hl : l = [] := List.length_eq_zero.mp (by omega)
    subst hl
    cases m <;> rfl
  | succ n ih =>
    cases l with
    | nil => cases m <;> rfl
    | cons hd tl =>
      obtain ⟨k, e⟩ := hd
      cases m with
      | zero => simp at hm
      | succ m =>
        simp only [List.length_cons] at hn hm
        have hlen := MTrack.findChords.absorb_length drumset
          (MTrack.findChords.useDrumset drumset e)
          (MTrack.findChords.anchor drumset e).voice 3 k (k + e.duration) tl
        simp only [MTrack.findChords.loop]
        rw [ih m _ (by omega) (by omega)]

theorem qAbs_eq_abs (t : Int) : qAbs t = |t| := by
  unfold qAbs
  split
  · rw [abs_of_nonneg (by omega)]
  · rw [abs_of_neg (by omega)]

theorem MTrack.findChords.absorb_none (k : Int) (e : MidiChord) (rest : ChordMap)
    (hord : ChordMap.Ordered ((k, e) :: rest)) :
    MTrack.findChords.absorb none false e.voice 3 k (k + e.duration) rest =
      ((rest.filter (Spec.mergesInto k e)).map (fun x => x.2.notes0),
        rest.filter (fun x => !(Spec.mergesInto k e x))) := by
  induction rest with
  | nil => rfl
  | cons hd tl ih =>
    obtain ⟨k1, c1⟩ := hd
    have h1 := List.pairwise_cons.mp hord
    have h2 := List.pairwise_cons.mp h1.2
    have hk : k ≤ k1 := h1.1 _ (List.mem_cons_self _ _)
    have hord2 : ChordMap.Ordered ((k, e) :: tl) :=
      List.pairwise_cons.mpr ⟨fun x hx => h1.1 x (List.mem_cons_of_mem _ hx), h2.2⟩
    unfold MTrack.findChords.absorb
    split
    · rename_i hbr
      have hall : ∀ x ∈ (k1, c1) :: tl, Spec.mergesInto k e x = false := by
        intro x hx
        have hx1 : k1 ≤ x.1 := by
          rcases List.mem_cons.mp hx with rfl | hx
          · exact le_refl _
          · exact h2.1 x hx
        unfold Spec.mergesInto
        rw [decide_eq_false_iff_not]
        rintro ⟨h3, _⟩
        rw [abs_of_nonneg (by omega)] at h3
        omega
      have e1 : ((k1, c1) :: tl).filter (Spec.mergesInto k e) = [] :=
        List.filter_eq_nil_iff.mpr (fun x hx => by simp [hall x hx])
      have e2 : ((k1, c1) :: tl).filter (fun x => !(Spec.mergesInto k e x)) =
          (k1, c1) :: tl :=
        List.filter_eq_self.mpr (fun x hx => by simp [hall x hx])
      rw [e1, e2]
      rfl
    · rw [ih hord2]
      split
      · rename_i hfar
        have hm : Spec.mergesInto k e (k1, c1) = false := by
          show decide (|k1 - k| ≤ 3 ∧ |(k1 + c1.duration) - (k + e.duration)| ≤ 3) = false
          rw [decide_eq_false_iff_not]
          rw [qAbs_eq_abs, qAbs_eq_abs] at hfar
          rintro ⟨h3, h4⟩
          rcases hfar with h5 | h5
          · exact absurd h3 (not_le.mpr h5)
          · exact absurd h4 (not_le.mpr h5)
        simp [List.filter_cons, hm]
      · rename_i hfar
        have hm : Spec.mergesInto k e (k1, c1) = true := by
          show decide (|k1 - k| ≤ 3 ∧ |(k1 + c1.duration) - (k + e.duration)| ≤ 3) = true
          rw [decide_eq_true_iff]
          rw [qAbs_eq_abs, qAbs_eq_abs] at hfar
          constructor
          · by_contra h3
            exact hfar (Or.inl (not_le.mp h3))
          · by_contra h3
            exact hfar (Or.inr (not_le.mp h3))
        simp [List.filter_cons, hm, MTrack.findChords.sameVoice]

/-- C8: on a non-drum track (no drum map), when the event `(k, e)` becomes the anchor and
`rest` are the later events still in the map, `MTrack::findChords` appends to the anchor the
first note of exactly those events of `rest` whose key is within 3 ticks of `k` and whose
offset (key plus duration) is within 3 ticks of the anchor's offset `k + e.duration`, erases
exactly those events, and goes on with the remaining events; the test only reads the
anchor's own key and duration, never a member merged earlier. -/
theorem MTrack.findChords_merge_anchor_relative (k : Int) (e : MidiChord) (rest : ChordMap)
    (hord : ChordMap.Ordered ((k, e) :: rest)) :
    MTrack.findChords none ((k, e) :: rest) =
      (k, { e with
            notes := e.notes ++
              (rest.filter (Spec.mergesInto k e)).map (fun x => x.2.notes0) }) ::
        MTrack.findChords none (rest.filter (fun x => !(Spec.mergesInto k e x))) := by
  unfold MTrack.findChords
  simp only [List.length_cons, MTrack.findChords.loop, MTrack.findChords.anchor,
    MTrack.findChords.useDrumset]
  rw [MTrack.findChords.absorb_none k e rest hord]
  simp only
  rw [MTrack.findChords.loop_fuel none rest.length
    (rest.filter (fun x => !(Spec.mergesInto k e x))).length _
    (List.length_filter_le _ _) (le_refl _)]

/-- Witness of C8: the event at tick 2 merges into the anchor at tick 0; the event at tick
5 is within the jitter of the merged event but not of the anchor and stays. -/
theorem MTrack.findChords_merge_anchor_relative_witness :
    MTrack.findChords none exJitter =
      [(0, { mkChord 60 0 100 with
             notes := (mkChord 60 0 100).notes ++ (mkChord 64 2 100).notes }),
        (3, mkChord 67 3 200), (5, mkChord 72 5 98)] ∧
    ChordMap.Ordered exJitter ∧
    MTrack.findChords none exJitter =
      (0, { mkChord 60 0 100 with
            notes := (mkChord 60 0 100).notes ++
              ([(2, mkChord 64 2 100), (3, mkChord 67 3 200), (5, mkChord 72 5 98)].filter
                (Spec.mergesInto 0 (mkChord 60 0 100))).map (fun x => x.2.notes0) }) ::
        MTrack.findChords none
          ([(2, mkChord 64 2 100), (3, mkChord 67 3 200), (5, mkChord 72 5 98)].filter
            (fun x => !(Spec.mergesInto 0 (mkChord 60 0 100) x))) :=
  ⟨by decide, by unfold ChordMap.Ordered; decide,
    MTrack.findChords_merge_anchor_relative 0 (mkChord 60 0 100)
      [(2, mkChord 64 2 100), (3, mkChord 67 3 200), (5, mkChord 72 5 98)]
      (by unfold ChordMap.Ordered; decide)⟩

/-! ## `splitIntoLeftRightHands` -/

theorem ChordMap.insert_perm (m : ChordMap) (k : Int) (c : MidiChord) :
    (ChordMap.insert m k c).Perm ((k, c) :: m) := by
  induction m with
  | nil => exact List.Perm.refl _
  | cons hd tl ih =>
    obtain ⟨k1, c1⟩ := hd
    unfold ChordMap.insert
    split
    · exact List.Perm.refl _
    · exact ((List.Perm.cons _ ih).trans (List.Perm.swap _ _ _))

theorem ChordMap.insertAll_perm (m : ChordMap) (xs : List (Int × MidiChord)) :
    (ChordMap.insertAll m xs).Perm (m ++ xs) := by
  unfold ChordMap.insertAll
  induction xs generalizing m with
  | nil => simp
  | cons hd tl ih =>
    simp only [List.foldl_cons]
    refine (ih _).trans ?_
    refine ((ChordMap.insert_perm m hd.1 hd.2).append_right tl).trans ?_
    simp only [List.cons_append]
    exact (List.perm_middle).symm

theorem splitIntoLeftRightHands.foldl_octave (p : Int × MidiChord → Prop) [DecidablePred p]
    (g : List (Int × MidiChord)) (l r : ChordMap) :
    g.foldl
        (fun hands chordIter =>
          if p chordIter then (ChordMap.insert hands.1 chordIter.1 chordIter.2, hands.2)
          else (hands.1, ChordMap.insert hands.2 chordIter.1 chordIter.2))
        (l, r) =
      (ChordMap.insertAll l (g.filter (fun x => decide (p x))),
        ChordMap.insertAll r (g.filter (fun x => !decide (p x)))) := by
  induction g generalizing l r with
  | nil => rfl
  | cons hd tl ih =>
    simp only [List.foldl_cons]
    by_cases h : p hd
    · rw [if_pos h, ih]
      simp [List.filter_cons, h, ChordMap.insertAll]
    · rw [if_neg h, ih]
      simp [List.filter_cons, h, ChordMap.insertAll]

theorem splitIntoLeftRightHands.assign_eq
    (sort : List (Int × MidiChord) → List (Int × MidiChord))
    (chordGroup : List (Int × MidiChord)) (l r : ChordMap) (hne : sort chordGroup ≠ []) :
    splitIntoLeftRightHands.assign sort chordGroup l r =
      if ((sort chordGroup).getLast hne).2.notes0.pitch -
          ((sort chordGroup).head hne).2.notes0.pitch > 12 then
        (ChordMap.insertAll l ((sort chordGroup).filter (fun x =>
            decide (x.2.notes0.pitch ≤ ((sort chordGroup).head hne).2.notes0.pitch + 12))),
          ChordMap.insertAll r ((sort chordGroup).filter (fun x =>
            !decide (x.2.notes0.pitch ≤ ((sort chordGroup).head hne).2.notes0.pitch + 12))))
      else
        (ChordMap.insertAll l (sort chordGroup).dropLast,
          ChordMap.insertAll r [(sort chordGroup).getLast hne]) := by
  unfold splitIntoLeftRightHands.assign
  rw [List.head?_eq_head hne, List.getLast?_eq_getLast _ hne]
  simp only
  split
  · exact splitIntoLeftRightHands.foldl_octave _ _ _ _
  · rfl

theorem splitIntoLeftRightHands.assign_perm
    (sort : List (Int × MidiChord) → List (Int × MidiChord)) (hs : ∀ l, (sort l).Perm l)
    (chordGroup : List (Int × MidiChord)) (l r : ChordMap) (hne : chordGroup ≠ []) :
    ((splitIntoLeftRightHands.assign sort chordGroup l r).1 ++
      (splitIntoLeftRightHands.assign sort chordGroup l r).2).Perm (l ++ r ++ chordGroup) := by
  have hne2 : sort chordGroup ≠ [] := by
    intro h
    have := hs chordGroup
    rw [h] at this
    exact hne (List.Perm.nil_eq this).symm
  rw [splitIntoLeftRightHands.assign_eq sort chordGroup l r hne2]
  have hg : ((sort chordGroup : List (Int × MidiChord)) : Multiset (Int × MidiChord)) =
      (chordGroup : Multiset (Int × MidiChord)) := Multiset.coe_eq_coe.mpr (hs chordGroup)
  rw [← Multiset.coe_eq_coe]
  split
  · have h1 := Multiset.coe_eq_coe.mpr (ChordMap.insertAll_perm l ((sort chordGroup).filter
      (fun x => decide (x.2.notes0.pitch ≤
        ((sort chordGroup).head hne2).2.notes0.pitch + 12))))
    have h2 := Multiset.coe_eq_coe.mpr (ChordMap.insertAll_perm r ((sort chordGroup).filter
      (fun x => !decide (x.2.notes0.pitch ≤
        ((sort chordGroup).head hne2).2.notes0.pitch + 12))))
    have h3 := Multiset.coe_eq_coe.mpr (List.filter_append_perm
      (fun x => decide (x.2.notes0.pitch ≤
        ((sort chordGroup).head hne2).2.notes0.pitch + 12)) (sort chordGroup))
    simp only [← Multiset.coe_add] at h1 h2 h3 ⊢
    rw [h1, h2, ← hg, ← h3]
    abel
  · have h1 := Multiset.coe_eq_coe.mpr
      (ChordMap.insertAll_perm l (sort chordGroup).dropLast)
    have h2 := Multiset.coe_eq_coe.mpr
      (ChordMap.insertAll_perm r [(sort chordGroup).getLast hne2])
    have h3 : (sort chordGroup).dropLast ++ [(sort chordGroup).getLast hne2] =
      sort chordGroup := List.dropLast_append_getLast hne2
    simp only [← Multiset.coe_add] at h1 h2 ⊢
    rw [h1, h2, ← hg]
    nth_rewrite 3 [← h3]
    simp only [← Multiset.coe_add]
    abel

theorem splitIntoLeftRightHands.walk_cons_cons
    (sort : List (Int × MidiChord) → List (Int × MidiChord)) (durationTol : Int)
    (i next : Int × MidiChord) (rest : ChordMap) (chordGroup : List (Int × MidiChord))
    (currentTime : Int) (l r : ChordMap) :
    splitIntoLeftRightHands.walk sort durationTol (i :: next :: rest) chordGroup currentTime
        l r =
      if next.2.onTime - (if chordGroup.isEmpty then i.2.onTime else currentTime) >
          durationTol then
        splitIntoLeftRightHands.walk sort durationTol (next :: rest) []
          (if chordGroup.isEmpty then i.2.onTime else currentTime)
          (splitIntoLeftRightHands.assign sort (chordGroup ++ [i]) l r).1
          (splitIntoLeftRightHands.assign sort (chordGroup ++ [i]) l r).2
      else
        splitIntoLeftRightHands.walk sort durationTol (next :: rest) (chordGroup ++ [i])
          (if chordGroup.isEmpty then i.2.onTime else currentTime) l r := by
  rw [splitIntoLeftRightHands.walk]

theorem splitIntoLeftRightHands.walk_perm
    (sort : List (Int × MidiChord) → List (Int × MidiChord)) (hs : ∀ l, (sort l).Perm l)
    (durationTol : Int) (chords : ChordMap) (hne : chords ≠ [])
    (chordGroup : List (Int × MidiChord)) (currentTime : Int) (l r : ChordMap) :
    ((splitIntoLeftRightHands.walk sort durationTol chords chordGroup currentTime l r).1 ++
      (splitIntoLeftRightHands.walk sort durationTol chords chordGroup currentTime l r).2).Perm
      (l ++ r ++ (chordGroup ++ chords)) := by
  induction chords generalizing chordGroup currentTime l r with
  | nil => exact absurd rfl hne
  | cons i rest ih =>
    cases rest with
    | nil =>
      simp only [splitIntoLeftRightHands.walk]
      exact splitIntoLeftRightHands.assign_perm sort hs _ l r (by simp)
    | cons next rest2 =>
      rw [splitIntoLeftRightHands.walk_cons_cons]
      generalize (if chordGroup.isEmpty then i.2.onTime else currentTime) = ct
      by_cases h : next.2.onTime - ct > durationTol
      · rw [if_pos h]
        refine (ih (by simp) _ _ _ _).trans ?_
        have h1 := splitIntoLeftRightHands.assign_perm sort hs (chordGroup ++ [i]) l r
          (by simp)
        simp only [List.nil_append]
        refine (h1.append_right (next :: rest2)).trans ?_
        simp
      · rw [if_neg h]
        refine (ih (by simp) _ _ _ _).trans ?_
        simp

/-- C6: for a non-empty source track, `splitIntoLeftRightHands` (with any `std::sort` that
returns a rearrangement of its input) builds a left-hand and a right-hand chord map whose
entries together are exactly the entries of the source map, keys and chords unchanged, each
as often as in the source: every chord goes to exactly one hand, none is lost and none is
duplicated. -/
theorem splitIntoLeftRightHands_partition
    (sort : List (Int × MidiChord) → List (Int × MidiChord)) (chords : ChordMap)
    (hs : ∀ l, (sort l).Perm l) (hne : chords ≠ []) :
    ∃ leftHand rightHand,
      splitIntoLeftRightHands.hands sort chords = some (leftHand, rightHand) ∧
        (leftHand ++ rightHand).Perm chords := by
  cases chords with
  | nil => exact absurd rfl hne
  | cons first rest =>
    refine ⟨_, _, rfl, ?_⟩
    have h := splitIntoLeftRightHands.walk_perm sort hs
      (splitIntoLeftRightHands.durationTol first (first :: rest)) (first :: rest) hne [] 0 [] []
    simpa using h

/-- Witness of C6 on the specification's scenario, with insertion sort for `std::sort`. -/
theorem splitIntoLeftRightHands_partition_witness :
    splitIntoLeftRightHands.hands sortByPitch exHands =
      some ([(0, mkChord 40 0 240), (480, mkChord 40 480 240)],
        [(0, mkChord 64 0 240), (480, mkChord 52 480 240)]) ∧
    (∀ l, (sortByPitch l).Perm l) ∧ exHands ≠ [] ∧
    ∃ leftHand rightHand,
      splitIntoLeftRightHands.hands sortByPitch exHands = some (leftHand, rightHand) ∧
        (leftHand ++ rightHand).Perm exHands :=
  ⟨by decide, fun l => List.perm_insertionSort _ l, by decide,
    splitIntoLeftRightHands_partition sortByPitch exHands
      (fun l => List.perm_insertionSort _ l) (by decide)⟩

theorem Spec.max?_eq_some (l : List Int) (m : Int) :
    l.max? = some m ↔ m ∈ l ∧ ∀ b ∈ l, b ≤ m := by
  haveI : Std.Antisymm (fun (a b : Int) => a ≤ b) := ⟨fun h1 h2 => le_antisymm h1 h2⟩
  exact List.max?_eq_some_iff (fun a => le_refl a) (fun a b => max_choice a b)
    (fun _ _ _ => max_le_iff)

theorem Spec.head_pitch_eq_minPitch
    (sort : List (Int × MidiChord) → List (Int × MidiChord)) (hs : Spec.SortsByPitch sort)
    (cluster : List (Int × MidiChord)) (hne : sort cluster ≠ []) :
    ((sort cluster).head hne).2.notes0.pitch = Spec.minPitch cluster := by
  obtain ⟨hp, hsorted⟩ := hs cluster
  have h : (cluster.map (fun x => x.2.notes0.pitch)).min? =
      some ((sort cluster).head hne).2.notes0.pitch := by
    rw [Spec.min?_eq_some]
    constructor
    · exact List.mem_map.mpr ⟨_, hp.mem_iff.mp (List.head_mem hne), rfl⟩
    · intro b hb
      obtain ⟨x, hx, rfl⟩ := List.mem_map.mp hb
      have hx2 : x ∈ sort cluster := hp.mem_iff.mpr hx
      generalize sort cluster = g at hne hsorted hx2
      cases g with
      | nil => exact absurd rfl hne
      | cons a tl =>
        rcases List.mem_cons.mp hx2 with rfl | hx3
        · exact le_refl _
        · exact (List.pairwise_cons.mp hsorted).1 x hx3
  unfold Spec.minPitch
  rw [h]
  rfl

theorem Spec.last_pitch_eq_maxPitch
    (sort : List (Int × MidiChord) → List (Int × MidiChord)) (hs : Spec.SortsByPitch sort)
    (cluster : List (Int × MidiChord)) (hne : sort cluster ≠ []) :
    ((sort cluster).getLast hne).2.notes0.pitch = Spec.maxPitch cluster := by
  obtain ⟨hp, hsorted⟩ := hs cluster
  have h : (cluster.map (fun x => x.2.notes0.pitch)).max? =
      some ((sort cluster).getLast hne).2.notes0.pitch := by
    rw [Spec.max?_eq_some]
    constructor
    · exact List.mem_map.mpr ⟨_, hp.mem_iff.mp (List.getLast_mem hne), rfl⟩
    · intro b hb
      obtain ⟨x, hx, rfl⟩ := List.mem_map.mp hb
      have hx2 : x ∈ sort cluster := hp.mem_iff.mpr hx
      rw [← List.dropLast_append_getLast hne] at hsorted hx2
      rcases List.mem_append.mp hx2 with hx3 | hx3
      · exact (List.pairwise_append.mp hsorted).2.2 x hx3 _ (List.mem_singleton_self _)
      · rw [List.mem_singleton.mp hx3]
  unfold Spec.maxPitch
  rw [h]
  rfl

theorem sortByPitch_sorts : Spec.SortsByPitch sortByPitch := by
  intro l
  haveI : IsTotal (Int × MidiChord) (fun a b => a.2.notes0.pitch ≤ b.2.notes0.pitch) :=
    ⟨fun a b => le_total _ _⟩
  haveI : IsTrans (Int × MidiChord) (fun a b => a.2.notes0.pitch ≤ b.2.notes0.pitch) :=
    ⟨fun a b c h1 h2 => le_trans h1 h2⟩
  exact ⟨List.perm_insertionSort _ l, List.sorted_insertionSort _ l⟩

/-- C7: for a cluster (`chordGroup` when the block "process current group" runs), with `min`
and `max` the lowest and highest `notes[0].pitch` among its chords and the chords taken in
ascending pitch order: if `max - min > 12`, exactly the chords with pitch `<= min + 12` are
inserted into the left hand and all others into the right hand, and every chord sent right
is strictly higher than every chord sent left; otherwise (a span of 12 or less, a one-chord
cluster included) only the last chord in ascending pitch order is inserted into the right
hand and all the chords before it into the left hand. -/
theorem splitIntoLeftRightHands_cluster_rule
    (sort : List (Int × MidiChord) → List (Int × MidiChord))
    (chordGroup : List (Int × MidiChord)) (leftHand rightHand : ChordMap)
    (hs : Spec.SortsByPitch sort) (hne : chordGroup ≠ []) :
    (Spec.maxPitch chordGroup - Spec.minPitch chordGroup > 12 →
      splitIntoLeftRightHands.assign sort chordGroup leftHand rightHand =
        (ChordMap.insertAll leftHand ((sort chordGroup).filter (fun x =>
            decide (x.2.notes0.pitch ≤ Spec.minPitch chordGroup + 12))),
          ChordMap.insertAll rightHand ((sort chordGroup).filter (fun x =>
            !decide (x.2.notes0.pitch ≤ Spec.minPitch chordGroup + 12)))) ∧
      ∀ a ∈ (sort chordGroup).filter (fun x =>
            decide (x.2.notes0.pitch ≤ Spec.minPitch chordGroup + 12)),
        ∀ b ∈ (sort chordGroup).filter (fun x =>
            !decide (x.2.notes0.pitch ≤ Spec.minPitch chordGroup + 12)),
          a.2.notes0.pitch < b.2.notes0.pitch) ∧
    (¬ Spec.maxPitch chordGroup - Spec.minPitch chordGroup > 12 →
      splitIntoLeftRightHands.assign sort chordGroup leftHand rightHand =
        (ChordMap.insertAll leftHand (sort chordGroup).dropLast,
          ChordMap.insertAll rightHand (sort chordGroup).getLast?.toList)) := by
  have hne2 : sort chordGroup ≠ [] := by
    intro h
    have := (hs chordGroup).1
    rw [h] at this
    exact hne (List.Perm.nil_eq this).symm
  have hmin := Spec.head_pitch_eq_minPitch sort hs chordGroup hne2
  have hmax := Spec.last_pitch_eq_maxPitch sort hs chordGroup hne2
  rw [splitIntoLeftRightHands.assign_eq sort chordGroup leftHand rightHand hne2, hmin, hmax]
  constructor
  · intro h
    rw [if_pos h]
    refine ⟨rfl, ?_⟩
    intro a ha b hb
    have h1 := (List.mem_filter.mp ha).2
    have h2 := (List.mem_filter.mp hb).2
    simp only [decide_eq_true_eq, Bool.not_eq_true', decide_eq_false_iff_not] at h1 h2
    omega
  · intro h
    rw [if_neg h, List.getLast?_eq_getLast _ hne2]
    rfl

/-- Witness of C7: the cluster `{40, 64}` (span 24) sends 40 to the left and 64 to the right
by the octave rule; the cluster `{40, 52}` (span exactly 12) takes the top-note rule. -/
theorem splitIntoLeftRightHands_cluster_rule_witness :
    (Spec.maxPitch [(0, mkChord 64 0 240), (0, mkChord 40 0 240)] -
        Spec.minPitch [(0, mkChord 64 0 240), (0, mkChord 40 0 240)] > 12 ∧
      splitIntoLeftRightHands.assign sortByPitch
        [(0, mkChord 64 0 240), (0, mkChord 40 0 240)] [] [] =
        ([(0, mkChord 40 0 240)], [(0, mkChord 64 0 240)])) ∧
    (¬ Spec.maxPitch [(0, mkChord 52 0 240), (0, mkChord 40 0 240)] -
        Spec.minPitch [(0, mkChord 52 0 240), (0, mkChord 40 0 240)] > 12 ∧
      splitIntoLeftRightHands.assign sortByPitch
        [(0, mkChord 52 0 240), (0, mkChord 40 0 240)] [] [] =
        ([(0, mkChord 40 0 240)], [(0, mkChord 52 0 240)])) ∧
    Spec.SortsByPitch sortByPitch ∧
    ([(0, mkChord 52 0 240), (0, mkChord 40 0 240)] : List (Int × MidiChord)) ≠ [] ∧
    (¬ Spec.maxPitch [(0, mkChord 52 0 240), (0, mkChord 40 0 240)] -
        Spec.minPitch [(0, mkChord 52 0 240), (0, mkChord 40 0 240)] > 12 →
      splitIntoLeftRightHands.assign sortByPitch
          [(0, mkChord 52 0 240), (0, mkChord 40 0 240)] [] [] =
        (ChordMap.insertAll []
            (sortByPitch [(0, mkChord 52 0 240), (0, mkChord 40 0 240)]).dropLast,
          ChordMap.insertAll []
            (sortByPitch [(0, mkChord 52 0 240), (0, mkChord 40 0 240)]).getLast?.toList)) :=
  ⟨by decide, by decide, sortByPitch_sorts, by decide,
    (splitIntoLeftRightHands_cluster_rule sortByPitch
      [(0, mkChord 52 0 240), (0, mkChord 40 0 240)] [] [] sortByPitch_sorts
      (by decide)).2⟩

/-! ## `MTrack::processPendingNotes`: the pending list -/

theorem MTrack.processPendingNotes.openTies_untied (chord : Chord) (nl : List MidiNote)
    (score : Score) :
    (MTrack.processPendingNotes.openTies chord nl score).1.map MidiNote.untied =
      nl.map MidiNote.untied := by
  induction nl generalizing score with
  | nil => rfl
  | cons mn tl ih =>
    rw [MTrack.processPendingNotes.openTies]
    simp only [List.map_cons, ih]
    rfl

theorem MTrack.processPendingNotes.chords_cons (env : Env) (tick len : Int) (n : MidiChord)
    (rest : List MidiChord) (chord : Chord) (score : Score) :
    (MTrack.processPendingNotes.chords env tick len (n :: rest) chord score).1 =
      if n.duration ≤ len then
        (MTrack.processPendingNotes.chords env tick len rest
          (MTrack.processPendingNotes.addNotes env tick len n.notes chord score).1
          (MTrack.processPendingNotes.addNotes env tick len n.notes chord score).2).1
      else
        { n with
          notes := (MTrack.processPendingNotes.openTies
            (MTrack.processPendingNotes.addNotes env tick len n.notes chord score).1 n.notes
            (MTrack.processPendingNotes.addNotes env tick len n.notes chord score).2).1
          onTime := n.onTime + len
          duration := n.duration - len } ::
        (MTrack.processPendingNotes.chords env tick len rest
          (MTrack.processPendingNotes.addNotes env tick len n.notes chord score).1
          (MTrack.processPendingNotes.openTies
            (MTrack.processPendingNotes.addNotes env tick len n.notes chord score).1 n.notes
            (MTrack.processPendingNotes.addNotes env tick len n.notes chord score).2).2).1 := by
  rw [MTrack.processPendingNotes.chords]
  split <;> rfl

theorem MTrack.processPendingNotes.chords_carry (env : Env) (tick len : Int)
    (notes : List MidiChord) (chord : Chord) (score : Score) :
    (MTrack.processPendingNotes.chords env tick len notes chord score).1.map
        (fun n => { n with notes := n.notes.map MidiNote.untied }) =
      (notes.filter (fun n => decide (len < n.duration))).map (Spec.carry len) := by
  induction notes generalizing chord score with
  | nil => rfl
  | cons n rest ih =>
    rw [MTrack.processPendingNotes.chords_cons]
    by_cases h : n.duration ≤ len
    · rw [if_pos h, ih, List.filter_cons_of_neg (by simpa using h)]
    · rw [if_neg h, List.filter_cons_of_pos (by simpa using h)]
      simp only [List.map_cons, ih, MTrack.processPendingNotes.openTies_untied]
      rfl

theorem MTrack.processPendingNotes.minLen_le (notes : List MidiChord) (len : Int) :
    MTrack.processPendingNotes.minLen notes len ≤ len := by
  unfold MTrack.processPendingNotes.minLen
  induction notes generalizing len with
  | nil => exact le_refl _
  | cons c tl ih =>
    simp only [List.foldl_cons]
    refine le_trans (ih _) ?_
    split <;> omega

theorem MTrack.processPendingNotes.minLen_le_duration (notes : List MidiChord) (len : Int)
    (n : MidiChord) (hn : n ∈ notes) (h0 : n.duration ≠ 0) :
    MTrack.processPendingNotes.minLen notes len ≤ n.duration := by
  unfold MTrack.processPendingNotes.minLen
  induction notes generalizing len with
  | nil => exact absurd hn (List.not_mem_nil _)
  | cons c tl ih =>
    simp only [List.foldl_cons]
    rcases List.mem_cons.mp hn with rfl | hn
    · refine le_trans (MTrack.processPendingNotes.minLen_le tl _) ?_
      split <;> omega
    · exact ih _ hn

theorem MTrack.processPendingNotes.minLen_pos (notes : List MidiChord) (len : Int)
    (hlen : 0 < len) (hd : ∀ n ∈ notes, 0 ≤ n.duration) :
    0 < MTrack.processPendingNotes.minLen notes len := by
  unfold MTrack.processPendingNotes.minLen
  induction notes generalizing len with
  | nil => exact hlen
  | cons c tl ih =>
    simp only [List.foldl_cons]
    have hc := hd c (List.mem_cons_self _ _)
    refine ih _ ?_ (fun n hn => hd n (List.mem_cons_of_mem _ hn))
    split <;> omega

theorem MTrack.processPendingNotes.clipLen_le (notes : List MidiChord) (measure : Measure)
    (tick t : Int) :
    MTrack.processPendingNotes.clipLen notes measure tick t ≤
        MTrack.processPendingNotes.minLen notes (t - tick) ∧
      tick + MTrack.processPendingNotes.clipLen notes measure tick t ≤
        measure.tick + measure.ticks := by
  unfold MTrack.processPendingNotes.clipLen
  split <;> constructor <;> omega

theorem MTrack.processPendingNotes.clipLen_pos (notes : List MidiChord) (measure : Measure)
    (tick t : Int) (hm : tick < measure.tick + measure.ticks)
    (h : 0 < MTrack.processPendingNotes.minLen notes (t - tick)) :
    0 < MTrack.processPendingNotes.clipLen notes measure tick t := by
  unfold MTrack.processPendingNotes.clipLen
  split <;> omega

theorem Score.update_length {α : Type} (l : List α) (i : Nat) (f : α → α) :
    (Score.update l i f).length = l.length := by
  unfold Score.update
  split <;> simp

theorem MTrack.processPendingNotes.addNotes_frame (env : Env) (tick actualTicks : Int)
    (nl : List MidiNote) (chord : Chord) (score : Score) :
    (MTrack.processPendingNotes.addNotes env tick actualTicks nl chord score).2.ties.length =
        score.ties.length ∧
      (MTrack.processPendingNotes.addNotes env tick actualTicks nl chord score).2.chords =
        score.chords ∧
      (MTrack.processPendingNotes.addNotes env tick actualTicks nl chord score).1.track =
        chord.track ∧
      (MTrack.processPendingNotes.addNotes env tick actualTicks nl chord score).1.tick =
        chord.tick ∧
      (MTrack.processPendingNotes.addNotes env tick actualTicks nl chord score).1.ticks =
        chord.ticks := by
  induction nl generalizing chord score with
  | nil => exact ⟨rfl, rfl, rfl, rfl, rfl⟩
  | cons mn tl ih =>
    rw [MTrack.processPendingNotes.addNotes]
    obtain ⟨h1, h2, h3, h4, h5⟩ := ih
      { chord with
        notes := chord.notes ++ [score.notes.length]
        stemDirection :=
          match env.drumset with
          | some d =>
            if d.isValid mn.pitch then some (d.stemDirection mn.pitch)
            else chord.stemDirection
          | none => chord.stemDirection }
      { score with
        notes := score.notes ++
          [{ pitch := mn.pitch, veloOffset := mn.velo,
             ron := Int.tdiv ((mn.onTime - tick) * 1000) actualTicks,
             rlen := Int.tdiv (mn.len * 1000) actualTicks,
             tieBack := mn.tie }]
        ties :=
          match mn.tie with
          | some tie =>
            Score.update score.ties tie
              (fun x => { x with endNote := some score.notes.length,
                                 track := some chord.track })
          | none => score.ties }
    refine ⟨?_, h2, h3, h4, h5⟩
    rw [h1]
    cases mn.tie with
    | none => rfl
    | some tie => exact Score.update_length _ _ _

theorem MTrack.processPendingNotes.openTies_frame (chord : Chord) (nl : List MidiNote)
    (score : Score) :
    (MTrack.processPendingNotes.openTies chord nl score).2.ties.length =
        score.ties.length + nl.length ∧
      (MTrack.processPendingNotes.openTies chord nl score).2.chords = score.chords ∧
      ∀ mn ∈ (MTrack.processPendingNotes.openTies chord nl score).1,
        ∃ tie, mn.tie = some tie ∧ score.ties.length ≤ tie ∧
          tie < score.ties.length + nl.length := by
  induction nl generalizing score with
  | nil => exact ⟨rfl, rfl, fun mn hmn => absurd hmn (List.not_mem_nil _)⟩
  | cons mn tl ih =>
    rw [MTrack.processPendingNotes.openTies]
    obtain ⟨h1, h2, h3⟩ := ih
      { score with
        ties := score.ties ++ [{ startNote := Chord.findNote score chord mn.pitch }]
        notes :=
          match Chord.findNote score chord mn.pitch with
          | some note =>
            Score.update score.notes note
              (fun x => { x with tieFor := some score.ties.length })
          | none => score.notes }
    simp only [List.length_append, List.length_singleton, List.length_cons,
      List.length_nil] at h1 h3 ⊢
    refine ⟨by rw [h1]; omega, h2, ?_⟩
    intro x hx
    rcases List.mem_cons.mp hx with rfl | hx
    · exact ⟨score.ties.length, rfl, le_refl _, by omega⟩
    · obtain ⟨tie, e1, e2, e3⟩ := h3 x hx
      exact ⟨tie, e1, by omega, by omega⟩

theorem MTrack.processPendingNotes.chords_frame (env : Env) (tick len : Int)
    (notes : List MidiChord) (chord : Chord) (score : Score) :
    score.ties.length ≤
        (MTrack.processPendingNotes.chords env tick len notes chord score).2.2.ties.length ∧
      (MTrack.processPendingNotes.chords env tick len notes chord score).2.2.chords =
        score.chords ∧
      (MTrack.processPendingNotes.chords env tick len notes chord score).2.1.track =
        chord.track ∧
      (MTrack.processPendingNotes.chords env tick len notes chord score).2.1.tick =
        chord.tick ∧
      (MTrack.processPendingNotes.chords env tick len notes chord score).2.1.ticks =
        chord.ticks ∧
      ∀ n ∈ (MTrack.processPendingNotes.chords env tick len notes chord score).1,
        ∀ mn ∈ n.notes, ∃ tie, mn.tie = some tie ∧ score.ties.length ≤ tie ∧
          tie < (MTrack.processPendingNotes.chords env tick len notes chord
            score).2.2.ties.length := by
  induction notes generalizing chord score with
  | nil =>
    exact ⟨le_refl _, rfl, rfl, rfl, rfl, fun n hn => absurd hn (List.not_mem_nil _)⟩
  | cons n rest ih =>
    obtain ⟨a1, a2, a3, a4, a5⟩ :=
      MTrack.processPendingNotes.addNotes_frame env tick len n.notes chord score
    rw [MTrack.processPendingNotes.chords]
    by_cases h : n.duration ≤ len
    · rw [if_pos h]
      obtain ⟨h1, h2, h3, h4, h5, h6⟩ := ih
        (MTrack.processPendingNotes.addNotes env tick len n.notes chord score).1
        (MTrack.processPendingNotes.addNotes env tick len n.notes chord score).2
      refine ⟨by omega, h2.trans a2, h3.trans a3, h4.trans a4, h5.trans a5, ?_⟩
      intro x hx mn hmn
      obtain ⟨tie, e1, e2, e3⟩ := h6 x hx mn hmn
      exact ⟨tie, e1, by omega, e3⟩
    · rw [if_neg h]
      dsimp only
      obtain ⟨o1, o2, o3⟩ := MTrack.processPendingNotes.openTies_frame
        (MTrack.processPendingNotes.addNotes env tick len n.notes chord score).1 n.notes
        (MTrack.processPendingNotes.addNotes env tick len n.notes chord score).2
      obtain ⟨h1, h2, h3, h4, h5, h6⟩ := ih
        (MTrack.processPendingNotes.addNotes env tick len n.notes chord score).1
        (MTrack.processPendingNotes.openTies
          (MTrack.processPendingNotes.addNotes env tick len n.notes chord score).1 n.notes
          (MTrack.processPendingNotes.addNotes env tick len n.notes chord score).2).2
      refine ⟨by omega, h2.trans (o2.trans a2), h3.trans a3, h4.trans a4, h5.trans a5, ?_⟩
      intro x hx mn hmn
      rcases List.mem_cons.mp hx with rfl | hx
      · obtain ⟨tie, e1, e2, e3⟩ := o3 mn hmn
        exact ⟨tie, e1, by omega, by omega⟩
      · obtain ⟨tie, e1, e2, e3⟩ := h6 x hx mn hmn
        exact ⟨tie, e1, by omega, e3⟩

theorem MTrack.processPendingNotes.segment_some (env : Env) (notes : List MidiChord)
    (t tick len : Int)
    (hseg : MTrack.processPendingNotes.segment env notes t = some (some (tick, len))) :
    ∃ first rest measure dl, notes = first :: rest ∧ tick = first.onTime ∧ 0 < t - tick ∧
      env.tick2measure tick = some measure ∧
      env.toDurationList (MTrack.processPendingNotes.clipLen notes measure tick t) =
        len :: dl := by
  unfold MTrack.processPendingNotes.segment at hseg
  cases notes with
  | nil => simp at hseg
  | cons first rest =>
    simp only at hseg
    split at hseg
    · simp at hseg
    · rename_i hpos
      split at hseg
      · simp at hseg
      · rename_i measure hm
        split at hseg
        · simp at hseg
        · rename_i d dl hd
          simp only [Option.some.injEq, Prod.mk.injEq] at hseg
          obtain ⟨rfl, rfl⟩ := hseg
          exact ⟨first, rest, measure, dl, rfl, rfl, by omega, hm, hd⟩

/-- C4: with the duration list's first element at most the requested length, a segment that
`processPendingNotes` emits at `tick` ends at or before the end of the measure
`tick2measure(tick)`: `len <= measure.tick + measure.ticks - tick`.  The pending chords
after the iteration are exactly the chords whose `duration` exceeds `len`, in their order,
each with `onTime` advanced and `duration` reduced by `len` and a new `Tie` stored in each
of its notes; every pending chord reaching past the barline is among them. -/
theorem MTrack.processPendingNotes_split_at_barline (env : Env) (voice t tick len : Int)
    (notes : List MidiChord) (score : Score)
    (hdl : ∀ l d dl, env.toDurationList l = d :: dl → d ≤ l)
    (hseg : MTrack.processPendingNotes.segment env notes t = some (some (tick, len))) :
    ∃ measure, env.tick2measure tick = some measure ∧
      len ≤ measure.tick + measure.ticks - tick ∧
      (∀ n ∈ notes, tick + n.duration > measure.tick + measure.ticks → len < n.duration) ∧
      (MTrack.processPendingNotes.emit env voice tick len notes score).1.map
          (fun n => { n with notes := n.notes.map MidiNote.untied }) =
        (notes.filter (fun n => decide (len < n.duration))).map (Spec.carry len) ∧
      (∀ n ∈ (MTrack.processPendingNotes.emit env voice tick len notes score).1,
        ∀ mn ∈ n.notes, ∃ tie, mn.tie = some tie ∧ score.ties.length ≤ tie ∧
          tie < (MTrack.processPendingNotes.emit env voice tick len notes score).2.ties.length) ∧
      (MTrack.processPendingNotes.emit env voice tick len notes score).2.chords.map
          (fun c => (c.track, c.tick, c.ticks)) =
        score.chords.map (fun c => (c.track, c.tick, c.ticks)) ++
          [(env.staffIdx * env.VOICES + voice, tick, len)] := by
  obtain ⟨first, rest, measure, dl, hn, ht, hpos, hm, hd⟩ :=
    MTrack.processPendingNotes.segment_some env notes t tick len hseg
  obtain ⟨c1, c2⟩ := MTrack.processPendingNotes.clipLen_le notes measure tick t
  have hle := hdl _ _ _ hd
  obtain ⟨f1, f2, f3, f4, f5, f6⟩ := MTrack.processPendingNotes.chords_frame env tick len
    notes { track := env.staffIdx * env.VOICES + voice, tick := tick, ticks := len } score
  refine ⟨measure, hm, by omega, ?_, ?_, ?_, ?_⟩
  · intro n hn2 hover
    by_contra hcon
    have h0 : n.duration ≠ 0 := by omega
    have := MTrack.processPendingNotes.minLen_le_duration notes (t - tick) n hn2 h0
    unfold MTrack.processPendingNotes.clipLen at hle
    split at hle <;> omega
  · exact MTrack.processPendingNotes.chords_carry env tick len notes _ score
  · intro n hn2 mn hmn
    exact f6 n hn2 mn hmn
  · show (_ ++ [_]).map _ = _
    rw [List.map_append, f2]
    simp only [List.map_cons, List.map_nil, f3, f4, f5]

theorem exDurations_head_le (vs : List Int) (len d : Int) (dl : List Int)
    (h : exDurations vs len = d :: dl) : d ≤ len := by
  induction vs generalizing len with
  | nil => simp [exDurations] at h
  | cons v tl ih =>
    unfold exDurations at h
    split at h
    · simp only [List.cons.injEq] at h
      omega
    · exact ih len h

/-- Witness of C4: a chord of 720 ticks pending at tick 1680 of a 4/4 score is emitted as a
segment of 240 ticks up to the barline at 1920 and stays pending. -/
theorem MTrack.processPendingNotes_split_at_barline_witness :
    (∀ l d dl, (env44 2).toDurationList l = d :: dl → d ≤ l) ∧
    MTrack.processPendingNotes.segment (env44 2) [mkChord 60 1680 720] 3840 =
      some (some (1680, 240)) ∧
    ∃ measure, (env44 2).tick2measure 1680 = some measure ∧
      240 ≤ measure.tick + measure.ticks - 1680 ∧
      (∀ n ∈ [mkChord 60 1680 720],
        1680 + n.duration > measure.tick + measure.ticks → 240 < n.duration) ∧
      (MTrack.processPendingNotes.emit (env44 2) 0 1680 240 [mkChord 60 1680 720] {}).1.map
          (fun n => { n with notes := n.notes.map MidiNote.untied }) =
        ([mkChord 60 1680 720].filter (fun n => decide (240 < n.duration))).map
          (Spec.carry 240) ∧
      (∀ n ∈ (MTrack.processPendingNotes.emit (env44 2) 0 1680 240
            [mkChord 60 1680 720] {}).1,
        ∀ mn ∈ n.notes, ∃ tie, mn.tie = some tie ∧ ({} : Score).ties.length ≤ tie ∧
          tie < (MTrack.processPendingNotes.emit (env44 2) 0 1680 240
            [mkChord 60 1680 720] {}).2.ties.length) ∧
      (MTrack.processPendingNotes.emit (env44 2) 0 1680 240
            [mkChord 60 1680 720] {}).2.chords.map
          (fun c => (c.track, c.tick, c.ticks)) =
        ({} : Score).chords.map (fun c => (c.track, c.tick, c.ticks)) ++
          [((env44 2).staffIdx * (env44 2).VOICES + 0, 1680, 240)] :=
  ⟨fun l d dl h => exDurations_head_le _ l d dl h, by decide,
    MTrack.processPendingNotes_split_at_barline (env44 2) 0 3840 1680 240
      [mkChord 60 1680 720] {} (fun l d dl h => exDurations_head_le _ l d dl h)
      (by decide)⟩

/-! ## `MTrack::processPendingNotes`: the duration of a chord is conserved -/

theorem MidiNote.map_untied_untied (l : List MidiNote) :
    (l.map MidiNote.untied).map MidiNote.untied = l.map MidiNote.untied := by
  rw [List.map_map]
  rfl

theorem Spec.selected_strip (P : List MidiNote → Bool) (l : List MidiChord) :
    ((Spec.selected P (l.map (fun n => { n with notes := n.notes.map MidiNote.untied }))).map
        (fun n => n.duration) =
      (Spec.selected P l).map (fun n => n.duration)) := by
  unfold Spec.selected
  induction l with
  | nil => rfl
  | cons n tl ih =>
    simp only [List.map_cons, List.filter_cons, MidiNote.map_untied_untied]
    split
    · simp only [List.map_cons, ih]
    · exact ih

theorem Spec.totalDuration_strip (P : List MidiNote → Bool) (l : List MidiChord) :
    Spec.totalDuration P (l.map (fun n => { n with notes := n.notes.map MidiNote.untied })) =
      Spec.totalDuration P l := by
  unfold Spec.totalDuration
  rw [Spec.selected_strip]

theorem Spec.carry_accounting (P : List MidiNote → Bool) (len : Int)
    (notes : List MidiChord) (h0 : 0 ≤ len)
    (hle : ∀ n ∈ notes, 0 < n.duration → len ≤ n.duration) :
    Spec.totalDuration P ((notes.filter (fun n => decide (len < n.duration))).map
        (Spec.carry len)) + len * ((Spec.selected P notes).length : Int) =
      Spec.totalDuration P notes := by
  induction notes with
  | nil => simp [Spec.totalDuration, Spec.selected]
  | cons n tl ih =>
    have ih1 := ih (fun x hx => hle x (List.mem_cons_of_mem _ hx))
    have hn := hle n (List.mem_cons_self _ _)
    unfold Spec.totalDuration Spec.selected at ih1 ⊢
    by_cases hP : P (n.notes.map MidiNote.untied) = true
    · by_cases h1 : len < n.duration
      · have h2 : 0 < n.duration := by omega
        have h3 : 0 < n.duration - len := by omega
        simp only [List.filter_cons, h1, decide_True, if_true, List.map_cons, Spec.carry,
          MidiNote.map_untied_untied, hP, h2, h3, Bool.and_self, List.sum_cons,
          List.length_cons, Nat.cast_add, Nat.cast_one] at ih1 ⊢
        linarith
      · by_cases h2 : 0 < n.duration
        · have h3 : n.duration = len := le_antisymm (by omega) (hn h2)
          simp only [List.filter_cons, h1, decide_False, if_false, List.map_cons, hP, h2,
            decide_True, Bool.and_self, if_true, List.sum_cons, List.length_cons,
            Nat.cast_add, Nat.cast_one, Bool.false_eq_true] at ih1 ⊢
          linarith
        · simp only [List.filter_cons, h1, decide_False, if_false, hP, h2, Bool.and_false,
            Bool.false_eq_true] at ih1 ⊢
          exact ih1
    · by_cases h1 : len < n.duration
      · simp only [List.filter_cons, h1, decide_True, if_true, List.map_cons, Spec.carry,
          MidiNote.map_untied_untied, hP, Bool.false_and, Bool.false_eq_true,
          if_false] at ih1 ⊢
        exact ih1
      · simp only [List.filter_cons, h1, decide_False, if_false, hP, Bool.false_and,
          Bool.false_eq_true] at ih1 ⊢
        exact ih1

theorem MTrack.processPendingNotes.minLen_dvd (g : Int) (notes : List MidiChord)
    (len : Int) (hlen : g ∣ len) (hd : ∀ n ∈ notes, g ∣ n.duration) :
    g ∣ MTrack.processPendingNotes.minLen notes len := by
  unfold MTrack.processPendingNotes.minLen
  induction notes generalizing len with
  | nil => exact hlen
  | cons c tl ih =>
    simp only [List.foldl_cons]
    refine ih _ ?_ (fun n hn => hd n (List.mem_cons_of_mem _ hn))
    split
    · exact hd c (List.mem_cons_self _ _)
    · exact hlen

theorem MTrack.processPendingNotes.clipLen_dvd (g : Int) (notes : List MidiChord)
    (measure : Measure) (tick t : Int) (h1 : g ∣ measure.tick) (h2 : g ∣ measure.ticks)
    (h3 : g ∣ tick) (h4 : g ∣ MTrack.processPendingNotes.minLen notes (t - tick)) :
    g ∣ MTrack.processPendingNotes.clipLen notes measure tick t := by
  unfold MTrack.processPendingNotes.clipLen
  split
  · exact Dvd.dvd.sub (Dvd.dvd.add h1 h2) h3
  · exact h4

theorem MTrack.processPendingNotes.segment_regular (env : Env) (P : List MidiNote → Bool)
    (lastTick g t T : Int) (first : MidiChord) (rest : List MidiChord)
    (hreg : Spec.Regular env lastTick g)
    (hp : Spec.PendingAt P lastTick g T (first :: rest))
    (h0 : 0 ≤ T) (hT : T < t) (ht : t ≤ lastTick) (hgT : g ∣ T) (hgt : g ∣ t) :
    ∃ d, MTrack.processPendingNotes.segment env (first :: rest) t = some (some (T, d)) ∧
      0 < d ∧ g ∣ d ∧ d ≤ t - T ∧ ∀ n ∈ first :: rest, 0 < n.duration → d ≤ n.duration := by
  have hf : first.onTime = T := (hp first (List.mem_cons_self _ _)).1
  obtain ⟨m, hm1, hm2, hm3, hm4, hm5⟩ := hreg.measure T h0 (by omega) hgT
  have hmin := MTrack.processPendingNotes.minLen_pos (first :: rest) (t - T) (by omega)
    (fun n hn => (hp n hn).2.1)
  have hmind := MTrack.processPendingNotes.minLen_dvd g (first :: rest) (t - T)
    (Dvd.dvd.sub hgt hgT) (fun n hn => (hp n hn).2.2.1)
  have hclip := MTrack.processPendingNotes.clipLen_pos (first :: rest) m T t hm3 hmin
  have hclipd := MTrack.processPendingNotes.clipLen_dvd g (first :: rest) m T t hm4 hm5 hgT
    hmind
  obtain ⟨c1, c2⟩ := MTrack.processPendingNotes.clipLen_le (first :: rest) m T t
  obtain ⟨d, dl, hd1, hd2, hd3⟩ := hreg.durations _ hclip hclipd
  obtain ⟨hdpos, hdg⟩ := hd3 d (List.mem_cons_self _ _)
  refine ⟨d, ?_, hdpos, hdg, ?_, ?_⟩
  · unfold MTrack.processPendingNotes.segment
    simp only [hf]
    rw [if_neg (by omega), hm1]
    simp only [hd1]
  · have := MTrack.processPendingNotes.minLen_le (first :: rest) (t - T)
    omega
  · intro n hn hpos
    have := MTrack.processPendingNotes.minLen_le_duration (first :: rest) (t - T) n hn
      (by omega)
    omega

theorem MTrack.processPendingNotes.emit_pendingAt (env : Env) (P : List MidiNote → Bool)
    (lastTick g voice T d : Int) (notes : List MidiChord) (score : Score)
    (hp : Spec.PendingAt P lastTick g T notes) (hd : 0 ≤ d) (hg : g ∣ d) :
    Spec.PendingAt P lastTick g (T + d)
      (MTrack.processPendingNotes.emit env voice T d notes score).1 := by
  intro n1 hn1
  have hc := MTrack.processPendingNotes.chords_carry env T d notes
    { track := env.staffIdx * env.VOICES + voice, tick := T, ticks := d } score
  have hmem : ({ n1 with notes := n1.notes.map MidiNote.untied } : MidiChord) ∈
      (notes.filter (fun n => decide (d < n.duration))).map (Spec.carry d) := by
    rw [← hc]
    exact List.mem_map.mpr ⟨n1, hn1, rfl⟩
  obtain ⟨n, hn, he⟩ := List.mem_map.mp hmem
  obtain ⟨hn2, hlt⟩ := List.mem_filter.mp hn
  simp only [decide_eq_true_eq] at hlt
  obtain ⟨p1, p2, p3, p4⟩ := hp n hn2
  have e1 : n1.onTime = n.onTime + d := by
    have := congrArg MidiChord.onTime he
    exact this.symm
  have e2 : n1.duration = n.duration - d := by
    have := congrArg MidiChord.duration he
    exact this.symm
  have e3 : n1.notes.map MidiNote.untied = n.notes.map MidiNote.untied := by
    have := congrArg MidiChord.notes he
    simp only [Spec.carry] at this
    exact this.symm
  refine ⟨by omega, by omega, by rw [e2]; exact Dvd.dvd.sub p3 hg, ?_⟩
  intro hP _
  rw [e3] at hP
  have := p4 hP (by omega)
  omega

theorem Spec.notated_append (P : List MidiNote → Bool) (log : List Segment) (s : Segment) :
    Spec.notated P (log ++ [s]) =
      Spec.notated P log + s.len * ((Spec.selected P s.pending).length : Int) := by
  simp [Spec.notated]

theorem MTrack.processPendingNotes.loop_regular (env : Env) (P : List MidiNote → Bool)
    (lastTick g voice t : Int) (hreg : Spec.Regular env lastTick g) (ht : t ≤ lastTick)
    (hgt : g ∣ t) (fuel : Nat) (notes : List MidiChord) (ctick : Int) (score : Score)
    (log : List Segment) (T : Int) (hp : Spec.PendingAt P lastTick g T notes) (h0 : 0 ≤ T)
    (hT : T ≤ t) (hgT : g ∣ T) (hgc : g ∣ ctick) (hfuel : (t - T).toNat < fuel) :
    ∃ notes1 ctick1 score1 log1,
      MTrack.processPendingNotes.loop env voice t fuel notes ctick score log =
        some (notes1, ctick1, score1, log1) ∧
      Spec.PendingAt P lastTick g t notes1 ∧ ctick ≤ ctick1 ∧ g ∣ ctick1 ∧
      Spec.notated P log1 + Spec.totalDuration P notes1 =
        Spec.notated P log + Spec.totalDuration P notes := by
  induction fuel generalizing notes ctick score log T with
  | zero => exact absurd hfuel (Nat.not_lt_zero _)
  | succ k ih =>
    cases notes with
    | nil =>
      refine ⟨[], ctick, score, log, ?_, fun n hn => absurd hn (List.not_mem_nil _),
        le_refl _, hgc, rfl⟩
      simp [MTrack.processPendingNotes.loop, MTrack.processPendingNotes.segment]
    | cons first rest =>
      have hf : first.onTime = T := (hp first (List.mem_cons_self _ _)).1
      by_cases hlt : T < t
      · obtain ⟨d, hseg, hd1, hdg, hd2, hd3⟩ := MTrack.processPendingNotes.segment_regular
          env P lastTick g t T first rest hreg hp h0 hlt ht hgT hgt
        have hp1 := MTrack.processPendingNotes.emit_pendingAt env P lastTick g voice T d
          (first :: rest) score hp (le_of_lt hd1) hdg
        obtain ⟨notes1, ctick1, score1, log1, e1, e2, e3, e5, e4⟩ := ih
          (MTrack.processPendingNotes.emit env voice T d (first :: rest) score).1 (ctick + d)
          (MTrack.processPendingNotes.emit env voice T d (first :: rest) score).2
          (log ++ [{ tick := T, len := d, pending := first :: rest }]) (T + d) hp1
          (by omega) (by omega) (Dvd.dvd.add hgT hdg) (Dvd.dvd.add hgc hdg) (by omega)
        refine ⟨notes1, ctick1, score1, log1, ?_, e2, by omega, e5, ?_⟩
        · rw [MTrack.processPendingNotes.loop, hseg]
          exact e1
        · rw [e4, Spec.notated_append]
          have hacc := Spec.carry_accounting P d (first :: rest) (le_of_lt hd1) hd3
          have hstrip := Spec.totalDuration_strip P
            (MTrack.processPendingNotes.emit env voice T d (first :: rest) score).1
          have hc := MTrack.processPendingNotes.chords_carry env T d (first :: rest)
            { track := env.staffIdx * env.VOICES + voice, tick := T, ticks := d } score
          have hc2 : (MTrack.processPendingNotes.emit env voice T d (first :: rest)
              score).1.map (fun n => { n with notes := n.notes.map MidiNote.untied }) =
              ((first :: rest).filter (fun n => decide (d < n.duration))).map
                (Spec.carry d) := hc
          rw [hc2] at hstrip
          simp only at hacc hstrip ⊢
          linarith
      · have hTt : T = t := by omega
        subst hTt
        refine ⟨first :: rest, ctick, score, log, ?_, hp, le_refl _, hgc, rfl⟩
        rw [MTrack.processPendingNotes.loop]
        simp [MTrack.processPendingNotes.segment, hf]

theorem MTrack.processPendingNotes.emit_logged (env : Env) (voice tick len : Int)
    (notes : List MidiChord) (score : Score) (log : List Segment)
    (h : Spec.Logged score log) :
    Spec.Logged (MTrack.processPendingNotes.emit env voice tick len notes score).2
      (log ++ [{ tick := tick, len := len, pending := notes }]) := by
  obtain ⟨_, f2, _, f4, f5, _⟩ := MTrack.processPendingNotes.chords_frame env tick len
    notes { track := env.staffIdx * env.VOICES + voice, tick := tick, ticks := len } score
  unfold Spec.Logged at h ⊢
  show (_ ++ [_]).map _ = _
  rw [List.map_append, List.map_append, f2, h]
  simp only [List.map_cons, List.map_nil, f4, f5]

theorem MTrack.processPendingNotes.loop_logged (env : Env) (voice t : Int) (fuel : Nat)
    (notes : List MidiChord) (ctick : Int) (score : Score) (log : List Segment)
    (r : List MidiChord × Int × Score × List Segment) (h : Spec.Logged score log)
    (hr : MTrack.processPendingNotes.loop env voice t fuel notes ctick score log = some r) :
    Spec.Logged r.2.2.1 r.2.2.2 := by
  induction fuel generalizing notes ctick score log with
  | zero => simp [MTrack.processPendingNotes.loop] at hr
  | succ k ih =>
    rw [MTrack.processPendingNotes.loop] at hr
    split at hr
    · simp at hr
    · simp only [Option.some.injEq] at hr
      subst hr
      exact h
    · exact ih _ _ _ _ (MTrack.processPendingNotes.emit_logged env voice _ _ notes score log h)
        hr

theorem MTrack.processPendingNotes.rests_chords (env : Env) (track : Int) (fuel : Nat)
    (restLen ctick : Int) (score s : Score)
    (h : MTrack.processPendingNotes.rests env track fuel restLen ctick score = some s) :
    s.chords = score.chords := by
  induction fuel generalizing restLen ctick score with
  | zero => simp [MTrack.processPendingNotes.rests] at h
  | succ k ih =>
    rw [MTrack.processPendingNotes.rests] at h
    by_cases hr : restLen > 0
    · rw [if_pos hr] at h
      cases hm : env.tick2measure ctick with
      | none => simp [hm] at h
      | some m =>
        rw [hm] at h
        simp only at h
        by_cases h1 : ctick ≥ m.tick + m.ticks
        · rw [if_pos h1] at h
          simp only [Option.some.injEq] at h
          rw [← h]
        · rw [if_neg h1] at h
          by_cases h2 : MTrack.processPendingNotes.restClip m ctick restLen ≥ m.ticks
          · rw [if_pos h2] at h
            have h3 := ih _ _ _ h
            exact h3
          · rw [if_neg h2] at h
            cases hd : env.toDurationList
                (MTrack.processPendingNotes.restClip m ctick restLen) with
            | nil =>
              rw [hd] at h
              simp only [Option.some.injEq] at h
              rw [← h]
            | cons d dl =>
              rw [hd] at h
              have h3 := ih _ _ _ h
              exact h3
    · rw [if_neg hr] at h
      simp only [Option.some.injEq] at h
      rw [← h]

theorem Spec.sum_pos_of_pos (l : List Int) (hne : l ≠ []) (h : ∀ d ∈ l, 0 < d) :
    0 < l.sum := by
  induction l with
  | nil => exact absurd rfl hne
  | cons a tl ih =>
    rw [List.sum_cons]
    have ha := h a (List.mem_cons_self _ _)
    cases tl with
    | nil => simpa using ha
    | cons b tl2 =>
      have := ih (by simp) (fun d hd => h d (List.mem_cons_of_mem _ hd))
      omega

theorem Spec.sum_dvd (g : Int) (l : List Int) (h : ∀ d ∈ l, g ∣ d) : g ∣ l.sum := by
  induction l with
  | nil => exact dvd_zero g
  | cons a tl ih =>
    rw [List.sum_cons]
    exact Dvd.dvd.add (h a (List.mem_cons_self _ _))
      (ih (fun d hd => h d (List.mem_cons_of_mem _ hd)))

theorem MTrack.processPendingNotes.restClip_spec (g : Int) (m : Measure)
    (ctick restLen : Int) (h1 : g ∣ m.tick) (h2 : g ∣ m.ticks) (h3 : g ∣ ctick)
    (h4 : g ∣ restLen) (h5 : 0 < restLen) (h6 : ctick < m.tick + m.ticks) :
    0 < MTrack.processPendingNotes.restClip m ctick restLen ∧
      g ∣ MTrack.processPendingNotes.restClip m ctick restLen := by
  unfold MTrack.processPendingNotes.restClip
  split
  · exact ⟨by omega, Dvd.dvd.sub (Dvd.dvd.add h1 h2) h3⟩
  · exact ⟨h5, h4⟩

theorem MTrack.processPendingNotes.rests_regular (env : Env) (lastTick g track : Int)
    (hreg : Spec.Regular env lastTick g) (fuel : Nat) (restLen ctick : Int) (score : Score)
    (h0 : 0 ≤ ctick) (hsum : ctick + restLen ≤ lastTick) (hgc : g ∣ ctick)
    (hgr : g ∣ restLen) (hfuel : restLen.toNat < fuel) :
    ∃ s, MTrack.processPendingNotes.rests env track fuel restLen ctick score = some s := by
  induction fuel generalizing restLen ctick score with
  | zero => exact absurd hfuel (Nat.not_lt_zero _)
  | succ k ih =>
    rw [MTrack.processPendingNotes.rests]
    by_cases hr : restLen > 0
    · rw [if_pos hr]
      obtain ⟨m, hm1, hm2, hm3, hm4, hm5⟩ := hreg.measure ctick h0 (by omega) hgc
      rw [hm1]
      simp only
      rw [if_neg (by omega)]
      by_cases h2 : MTrack.processPendingNotes.restClip m ctick restLen ≥ m.ticks
      · rw [if_pos h2]
        exact ih _ _ _ (by omega) (by omega) (Dvd.dvd.add hgc hm5) (Dvd.dvd.sub hgr hm5)
          (by omega)
      · rw [if_neg h2]
        obtain ⟨c1, c2⟩ := MTrack.processPendingNotes.restClip_spec g m ctick restLen hm4 hm5
          hgc hgr hr hm3
        obtain ⟨d, dl, hd1, _, hd3⟩ := hreg.durations _ c1 c2
        rw [hd1]
        have hpos : 0 < (d :: dl).sum := Spec.sum_pos_of_pos _ (by simp)
          (fun x hx => (hd3 x hx).1)
        have hdvd : g ∣ (d :: dl).sum := Spec.sum_dvd g _ (fun x hx => (hd3 x hx).2)
        simp only
        exact ih _ _ _ (by omega) (by omega) (Dvd.dvd.add hgc hdvd) (Dvd.dvd.sub hgr hdvd)
          (by omega)
    · rw [if_neg hr]
      exact ⟨_, rfl⟩

theorem MTrack.processPendingNotes_regular (env : Env) (P : List MidiNote → Bool)
    (lastTick g t : Int) (hreg : Spec.Regular env lastTick g) (ht : t ≤ lastTick)
    (hgt : g ∣ t) (fuel : Nat) (notes : List MidiChord) (ctick : Int) (score : Score)
    (log : List Segment) (T : Int) (hp : Spec.PendingAt P lastTick g T notes) (h0 : 0 ≤ T)
    (hT : T ≤ t) (hgT : g ∣ T) (hc : 0 ≤ ctick) (hgc : g ∣ ctick)
    (hlog : Spec.Logged score log) (hfuel : lastTick.toNat < fuel) :
    ∃ notes1 score1 log1,
      MTrack.processPendingNotes env fuel notes 0 ctick t score log =
        some (notes1, score1, log1) ∧
      Spec.PendingAt P lastTick g t notes1 ∧ Spec.Logged score1 log1 ∧
      Spec.notated P log1 + Spec.totalDuration P notes1 =
        Spec.notated P log + Spec.totalDuration P notes := by
  obtain ⟨notes1, ctick1, score1, log1, e1, e2, e3, e5, e4⟩ :=
    MTrack.processPendingNotes.loop_regular env P lastTick g 0 t hreg ht hgt fuel notes ctick
      score log T hp h0 hT hgT hgc (by omega)
  have hl := MTrack.processPendingNotes.loop_logged env 0 t fuel notes ctick score log _ hlog
    e1
  obtain ⟨s, hs⟩ := MTrack.processPendingNotes.rests_regular env lastTick g
    (env.staffIdx * env.VOICES + 0) hreg fuel (t - ctick1) ctick1 score1 (by omega)
    (by omega) e5 (Dvd.dvd.sub hgt e5) (by omega)
  refine ⟨notes1, s, log1, ?_, e2, ?_, e4⟩
  · unfold MTrack.processPendingNotes
    rw [e1]
    simp only [if_true, hs, Option.map_some']
  · unfold Spec.Logged
    rw [MTrack.processPendingNotes.rests_chords _ _ _ _ _ _ _ hs]
    exact hl

theorem Spec.totalDuration_append (P : List MidiNote → Bool) (l1 l2 : List MidiChord) :
    Spec.totalDuration P (l1 ++ l2) = Spec.totalDuration P l1 + Spec.totalDuration P l2 := by
  simp [Spec.totalDuration, Spec.selected]

theorem Spec.pendingAt_snoc (P : List MidiNote → Bool) (lastTick g T : Int)
    (notes : List MidiChord) (c : MidiChord) (hp : Spec.PendingAt P lastTick g T notes)
    (h1 : c.onTime = T) (h2 : 0 ≤ c.duration) (h4 : g ∣ c.duration)
    (h3 : P (c.notes.map MidiNote.untied) = true → c.onTime + c.duration ≤ lastTick) :
    Spec.PendingAt P lastTick g T (notes ++ [c]) := by
  intro n hn
  rcases List.mem_append.mp hn with hn | hn
  · exact hp n hn
  · rw [List.mem_singleton.mp hn]
    exact ⟨h1, h2, h4, fun hP _ => by have := h3 hP; omega⟩

theorem MTrack.convertTrack.walk_regular (env : Env) (P : List MidiNote → Bool)
    (lastTick g : Int) (hreg : Spec.Regular env lastTick g) (fuel : Nat)
    (hfuel : lastTick.toNat < fuel) (entries : ChordMap) (collecting : Bool)
    (notes : List MidiChord) (ctick : Int) (score : Score) (log : List Segment)
    (hord : entries.Ordered)
    (hent : ∀ e ∈ entries, e.1 = e.2.onTime ∧ 0 ≤ e.2.duration ∧ ctick ≤ e.1 ∧
      e.1 ≤ lastTick ∧ g ∣ e.1 ∧ g ∣ e.2.duration ∧
      (P (e.2.notes.map MidiNote.untied) = true → e.2.onTime + e.2.duration ≤ lastTick))
    (hp : Spec.PendingAt P lastTick g ctick notes) (h0 : 0 ≤ ctick) (hl : ctick ≤ lastTick)
    (hgc : g ∣ ctick) (hcol : collecting = true → notes ≠ [])
    (hlog : Spec.Logged score log) :
    ∃ notes1 ctick1 score1 log1,
      MTrack.convertTrack.walk env fuel 0 entries collecting notes ctick score log =
        some (notes1, ctick1, score1, log1) ∧
      Spec.PendingAt P lastTick g ctick1 notes1 ∧ 0 ≤ ctick1 ∧ ctick1 ≤ lastTick ∧
      g ∣ ctick1 ∧ Spec.Logged score1 log1 ∧
      Spec.notated P log1 + Spec.totalDuration P notes1 =
        Spec.notated P log + Spec.totalDuration P notes +
          Spec.totalDuration P (Spec.fed 0 entries) := by
  induction entries generalizing collecting notes ctick score log with
  | nil =>
    refine ⟨notes, ctick, score, log, rfl, hp, h0, hl, hgc, hlog, ?_⟩
    simp [Spec.fed, Spec.totalDuration, Spec.selected]
  | cons i rest ih =>
    have hord1 := List.pairwise_cons.mp hord
    obtain ⟨i1, i2, i3, i4, i6, i7, i5⟩ := hent i (List.mem_cons_self _ _)
    have hent1 : ∀ e ∈ rest, e.1 = e.2.onTime ∧ 0 ≤ e.2.duration ∧ ctick ≤ e.1 ∧
        e.1 ≤ lastTick ∧ g ∣ e.1 ∧ g ∣ e.2.duration ∧
        (P (e.2.notes.map MidiNote.untied) = true → e.2.onTime + e.2.duration ≤ lastTick) :=
      fun e he => hent e (List.mem_cons_of_mem _ he)
    have hent2 : ∀ e ∈ rest, e.1 = e.2.onTime ∧ 0 ≤ e.2.duration ∧ i.1 ≤ e.1 ∧
        e.1 ≤ lastTick ∧ g ∣ e.1 ∧ g ∣ e.2.duration ∧
        (P (e.2.notes.map MidiNote.untied) = true → e.2.onTime + e.2.duration ≤ lastTick) :=
      fun e he => ⟨(hent1 e he).1, (hent1 e he).2.1, hord1.1 e he, (hent1 e he).2.2.2.1,
        (hent1 e he).2.2.2.2⟩
    rw [MTrack.convertTrack.walk]
    by_cases hA : collecting = true ∧ i.1 = ctick
    · rw [if_pos hA]
      by_cases hv : i.2.voice ≠ 0
      · rw [if_pos hv]
        obtain ⟨n1, c1, s1, l1, e1, e2, e3, e4, e7, e5, e6⟩ := ih true notes ctick score log
          hord1.2 hent1 hp h0 hl hgc (fun _ => hcol hA.1) hlog
        refine ⟨n1, c1, s1, l1, e1, e2, e3, e4, e7, e5, ?_⟩
        rw [e6]
        simp [Spec.fed, List.filter_cons, hv]
      · rw [if_neg hv]
        have hv0 : i.2.voice = 0 := by
          by_contra hne
          exact hv hne
        obtain ⟨n1, c1, s1, l1, e1, e2, e3, e4, e7, e5, e6⟩ := ih true (notes ++ [i.2])
          ctick score log hord1.2 hent1
          (Spec.pendingAt_snoc P lastTick g ctick notes i.2 hp (by omega) i2 i7 i5) h0 hl hgc
          (fun _ => by simp) hlog
        refine ⟨n1, c1, s1, l1, e1, e2, e3, e4, e7, e5, ?_⟩
        rw [e6, Spec.totalDuration_append]
        have : Spec.fed 0 (i :: rest) = i.2 :: Spec.fed 0 rest := by
          simp [Spec.fed, List.filter_cons, hv0]
        rw [this, show i.2 :: Spec.fed 0 rest = [i.2] ++ Spec.fed 0 rest from rfl,
          Spec.totalDuration_append]
        ring
    · rw [if_neg hA]
      by_cases hB : collecting = true ∧ notes = []
      · exact absurd hB.2 (hcol hB.1)
      · rw [if_neg hB]
        by_cases hv : i.2.voice ≠ 0
        · rw [if_pos hv]
          obtain ⟨n1, c1, s1, l1, e1, e2, e3, e4, e7, e5, e6⟩ := ih false notes ctick score
            log hord1.2 hent1 hp h0 hl hgc (fun h => absurd h (by simp)) hlog
          refine ⟨n1, c1, s1, l1, e1, e2, e3, e4, e7, e5, ?_⟩
          rw [e6]
          simp [Spec.fed, List.filter_cons, hv]
        · rw [if_neg hv]
          have hv0 : i.2.voice = 0 := by
            by_contra hne
            exact hv hne
          obtain ⟨n0, s0, l0, p1, p2, p3, p4⟩ := MTrack.processPendingNotes_regular env P
            lastTick g i.1 hreg i4 i6 fuel notes ctick score log ctick hp h0 i3 hgc h0 hgc
            hlog hfuel
          rw [p1]
          simp only
          obtain ⟨n1, c1, s1, l1, e1, e2, e3, e4, e7, e5, e6⟩ := ih true (n0 ++ [i.2]) i.1 s0
            l0 hord1.2 hent2
            (Spec.pendingAt_snoc P lastTick g i.1 n0 i.2 p2 i1.symm i2 i7 i5) (by omega) i4
            i6 (fun _ => by simp) p3
          refine ⟨n1, c1, s1, l1, e1, e2, e3, e4, e7, e5, ?_⟩
          rw [e6, Spec.totalDuration_append]
          have : Spec.fed 0 (i :: rest) = i.2 :: Spec.fed 0 rest := by
            simp [Spec.fed, List.filter_cons, hv0]
          rw [this, show i.2 :: Spec.fed 0 rest = [i.2] ++ Spec.fed 0 rest from rfl,
            Spec.totalDuration_append]
          linarith

/-- C3: let `toDurationList` return, for a positive length on a grid of `g` ticks, legal
durations on the grid, at least one, the first at most the requested length; let every
grid tick from 0 up to `lastTick` lie inside the score's measures; and let the track be
ordered and keyed by `onTime`, with keys from 0 to `lastTick` and durations that are not
negative, all on the grid (the state the quantizer leaves).  Then `convertTrack`, given
enough iterations, returns; the chords it has created are the recorded segments; and for
every set `P` of note events whose chords end at or before `lastTick`, the chords of `P`
with positive duration are notated in full: none of them is left pending, and the lengths
of the segments they are notated in, each counted once per such chord pending in it, sum
exactly to the sum of their durations.  For `P` singling out one chord of the track these
are the lengths of the segments emitted for that chord and its duration before
decomposition. -/
theorem MTrack.convertTrack_duration_preserved (env : Env) (P : List MidiNote → Bool)
    (chords : ChordMap) (lastTick g : Int) (fuel : Nat)
    (hreg : Spec.Regular env lastTick g) (hord : chords.Ordered) (hkey : chords.Keyed)
    (hch : ∀ e ∈ chords, 0 ≤ e.1 ∧ e.1 ≤ lastTick ∧ 0 ≤ e.2.duration ∧ g ∣ e.1 ∧
      g ∣ e.2.duration)
    (hend : ∀ e ∈ chords, P (e.2.notes.map MidiNote.untied) = true →
      e.2.onTime + e.2.duration ≤ lastTick)
    (hlast : 0 ≤ lastTick) (hfuel : lastTick.toNat < fuel) :
    ∃ notes score log,
      MTrack.convertTrack.voices env fuel chords lastTick {} = some (notes, score, log) ∧
      Spec.Logged score log ∧ Spec.selected P notes = [] ∧
      Spec.notated P log = Spec.totalDuration P (Spec.fed 0 chords) := by
  obtain ⟨n1, c1, s1, l1, e1, e2, e3, e4, e7, e5, e6⟩ := MTrack.convertTrack.walk_regular
    env P lastTick g hreg fuel hfuel chords false [] 0 {} [] hord
    (fun e he => ⟨hkey e he, (hch e he).2.2.1, (hch e he).1, (hch e he).2.1,
      (hch e he).2.2.2.1, (hch e he).2.2.2.2, hend e he⟩)
    (fun n hn => absurd hn (List.not_mem_nil _)) (le_refl _) hlast (dvd_zero g)
    (fun h => absurd h (by simp)) rfl
  obtain ⟨n2, s2, l2, p1, p2, p3, p4⟩ := MTrack.processPendingNotes_regular env P lastTick g
    lastTick hreg (le_refl _) hreg.lastTick_grid fuel n1 c1 s1 l1 c1 e2 e3 e4 e7 e3 e7 e5
    hfuel
  have hsel : Spec.selected P n2 = [] := by
    unfold Spec.selected
    rw [List.filter_eq_nil_iff]
    intro n hn
    obtain ⟨_, q2, _, q3⟩ := p2 n hn
    intro hc
    simp only [Bool.and_eq_true, decide_eq_true_eq] at hc
    have := q3 hc.1 hc.2
    omega
  refine ⟨n2, s2, l2, ?_, p3, hsel, ?_⟩
  · unfold MTrack.convertTrack.voices MTrack.convertTrack.voice
    rw [e1]
    exact p1
  · have h0 : Spec.totalDuration P n2 = 0 := by
      unfold Spec.totalDuration
      rw [hsel]
      rfl
    have h1 : Spec.notated P ([] : List Segment) = 0 := rfl
    have h2 : Spec.totalDuration P ([] : List MidiChord) = 0 := rfl
    linarith

theorem exDurations_subset (vs : List Int) (len x : Int) (h : x ∈ exDurations vs len) :
    x ∈ vs := by
  induction vs generalizing len with
  | nil => simp [exDurations] at h
  | cons v tl ih =>
    unfold exDurations at h
    split at h
    · rcases List.mem_cons.mp h with rfl | h
      · exact List.mem_cons_self _ _
      · exact List.mem_cons_of_mem _ (ih _ h)
    · exact List.mem_cons_of_mem _ (ih _ h)

theorem exDurations_ne_nil (vs : List Int) (len : Int) (h : ∃ v ∈ vs, v ≤ len) :
    exDurations vs len ≠ [] := by
  induction vs with
  | nil =>
    obtain ⟨v, hv, _⟩ := h
    exact absurd hv (List.not_mem_nil _)
  | cons v tl ih =>
    unfold exDurations
    split
    · simp
    · rename_i hlt
      obtain ⟨w, hw, hle⟩ := h
      rcases List.mem_cons.mp hw with rfl | hw
      · exact absurd hle hlt
      · exact ih ⟨w, hw, hle⟩

theorem env44_regular : Spec.Regular (env44 1) 1920 30 where
  grid_pos := by decide
  lastTick_grid := by decide
  durations := by
    intro l hl hg
    have hne : exDurations [7680, 3840, 1920, 960, 480, 240, 120, 60, 30] l ≠ [] :=
      exDurations_ne_nil _ l ⟨30, by simp, by omega⟩
    obtain ⟨d, dl, hd⟩ := List.exists_cons_of_ne_nil hne
    refine ⟨d, dl, hd, exDurations_head_le _ l d dl hd, ?_⟩
    intro x hx
    have hx2 : x ∈ [7680, 3840, 1920, 960, 480, 240, 120, 60, 30] :=
      exDurations_subset _ l x (by rw [hd]; exact hx)
    simp only [List.mem_cons, List.mem_singleton, List.not_mem_nil, or_false] at hx2
    rcases hx2 with h | h | h | h | h | h | h | h | h <;> subst h <;> decide
  measure := by
    intro tick h0 h1 _
    have hm : (env44 1).tick2measure tick =
        some { tick := 1920 * (tick / 1920), ticks := 1920 } := by
      show (if tick < 0 ∨ 1920 * 1 < tick ∨ (1 : Int) ≤ 0 then none
        else if tick = 1920 * 1 then some ({ tick := 1920 * (1 - 1), ticks := 1920 } : Measure)
        else some { tick := 1920 * (tick / 1920), ticks := 1920 }) = _
      rw [if_neg (by omega), if_neg (by omega)]
    refine ⟨_, hm, ?_, ?_, ?_, ?_⟩
    · show (0 : Int) < 1920
      decide
    · show tick < 1920 * (tick / 1920) + 1920
      omega
    · show (30 : Int) ∣ 1920 * (tick / 1920)
      exact Dvd.dvd.mul_right (by decide) _
    · show (30 : Int) ∣ 1920
      decide

/-- Witness of C3: the chord of 720 ticks at tick 0 of `exTwoChords` is notated as a segment
of 480 ticks and a tied segment of 240 ticks. -/
theorem MTrack.convertTrack_duration_preserved_witness :
    Spec.totalDuration exFirstChord (Spec.fed 0 exTwoChords) = 720 ∧
    Spec.Regular (env44 1) 1920 30 ∧ exTwoChords.Ordered ∧ exTwoChords.Keyed ∧
    (∀ e ∈ exTwoChords, 0 ≤ e.1 ∧ e.1 ≤ 1920 ∧ 0 ≤ e.2.duration ∧ (30 : Int) ∣ e.1 ∧
      (30 : Int) ∣ e.2.duration) ∧
    (∀ e ∈ exTwoChords, exFirstChord (e.2.notes.map MidiNote.untied) = true →
      e.2.onTime + e.2.duration ≤ 1920) ∧
    (0 : Int) ≤ 1920 ∧ (1920 : Int).toNat < 1921 ∧
    ∃ notes score log,
      MTrack.convertTrack.voices (env44 1) 1921 exTwoChords 1920 {} =
        some (notes, score, log) ∧
      Spec.Logged score log ∧ Spec.selected exFirstChord notes = [] ∧
      Spec.notated exFirstChord log =
        Spec.totalDuration exFirstChord (Spec.fed 0 exTwoChords) :=
  ⟨by decide, env44_regular, by unfold ChordMap.Ordered; decide,
    by unfold ChordMap.Keyed; decide, by decide, by decide, by decide, by decide,
    MTrack.convertTrack_duration_preserved (env44 1) exFirstChord exTwoChords 1920 30 1921
      env44_regular (by unfold ChordMap.Ordered; decide) (by unfold ChordMap.Keyed; decide)
      (by decide) (by decide) (by decide) (by decide)⟩

/-! ## Ties at the end of the score -/

/-- C5, evaluated on a failing input: the note events `exRawPastEnd` of a one-measure score
(`lastTick = 1920`) are quantized by `cleanup` to a chord at 0 and a chord at 1860 of 120
ticks, which `findChords` leaves as they are; `convertTrack` then emits for the second
chord one segment of 60 ticks at 1860 whose note 1 has the forward tie 0, with start note
1, and stops at `lastTick` with the chord still pending: tie 0 has no end note and no note
has it as tie-back. -/
theorem MTrack.convertTrack_dangling_tie :
    MTrack.cleanup 480 exRawPastEnd bar44 1920 2 =
      some [(0, mkChord 62 0 60),
        (1860, { mkChord 60 1830 90 with onTime := 1860, duration := 120 })] ∧
    MTrack.findChords none [(0, mkChord 62 0 60),
        (1860, { mkChord 60 1830 90 with onTime := 1860, duration := 120 })] =
      [(0, mkChord 62 0 60),
        (1860, { mkChord 60 1830 90 with onTime := 1860, duration := 120 })] ∧
    (MTrack.convertTrack.voices (env44 1) 1921 [(0, mkChord 62 0 60),
        (1860, { mkChord 60 1830 90 with onTime := 1860, duration := 120 })] 1920 {}).map
      (fun r => (r.1.map (fun n => (n.onTime, n.duration)),
        r.2.1.chords.map (fun c => (c.tick, c.ticks, c.notes)),
        r.2.1.notes.map (fun n => (n.pitch, n.tieFor, n.tieBack)),
        r.2.1.ties)) =
      some ([(1920, 60)], [(0, 60, [0]), (1860, 60, [1])],
        [(62, none, none), (60, some 0, none)],
        [{ startNote := some 1, endNote := none, track := none }]) := by
  refine ⟨by decide, by decide, by rfl⟩

/-! ## `MTrack::quantize`: the written duration -/

theorem quantizeLen_eq (len raster : Int) (hr : 0 < raster) :
    quantizeLen len raster = max raster ((2 * len + raster) / (2 * raster) * raster) := by
  unfold quantizeLen
  rw [Int.fdiv_eq_ediv _ (by omega)]

theorem quantizeLen_nearest (len raster : Int) (hr : 0 < raster) :
    raster ≤ quantizeLen len raster ∧
    (∀ m, raster ∣ m → raster ≤ m → |quantizeLen len raster - len| ≤ |m - len|) ∧
    (raster ≤ 2 * len → ∀ m, raster ∣ m → |quantizeLen len raster - len| ≤ |m - len|) := by
  rw [quantizeLen_eq len raster hr]
  obtain ⟨b1, b2⟩ := MTrack.quantize.nearest_bounds len raster hr
  have hn := fun m hm => (MTrack.quantize.nearest_multiple len raster m hr hm).1
  generalize hq : (2 * len + raster) / (2 * raster) = q at b1 b2 hn
  by_cases hge : raster ≤ q * raster
  · rw [max_eq_right hge]
    exact ⟨hge, fun m hm _ => hn m hm, fun _ m hm => hn m hm⟩
  · have hq0 : q ≤ 0 := by
      by_contra hc
      have h1 : 1 ≤ q := by omega
      have h2 : 1 * raster ≤ q * raster := mul_le_mul_of_nonneg_right h1 (by omega)
      omega
    have hq1 : q * raster ≤ 0 := mul_nonpos_of_nonpos_of_nonneg hq0 (by omega)
    rw [max_eq_left (by omega)]
    refine ⟨le_refl _, ?_, ?_⟩
    · intro m _ hm2
      rw [abs_of_nonneg (by omega), abs_of_nonneg (by omega)]
      omega
    · intro h2
      omega

/-- C11: for every chord of the interval, the duration `MTrack::quantize` writes (the call
is defined and `dst` receives the rewritten chord) is `quantizeLen` of the original
duration: a multiple of the raster that is at least one raster unit, hence never zero,
whatever the original duration; no multiple of at least one raster unit is nearer to the
original duration, and when the original duration is at least half a raster no multiple
of the raster at all is nearer. -/
theorem MTrack.quantize_duration_at_least_raster (division : Int) (chords dst : ChordMap)
    (startTick endTick : Int) (e : Int × MidiChord) (hdiv : 16 ≤ division)
    (hord : chords.Ordered) (he : e ∈ chords) (hs : startTick ≤ e.1) (ht : e.1 < endTick) :
    (∃ out, MTrack.quantize division chords startTick endTick dst = some out ∧
      ((MTrack.quantize.snap
          (MTrack.quantize.raster division chords startTick endTick) e.2).onTime,
        MTrack.quantize.snap
          (MTrack.quantize.raster division chords startTick endTick) e.2) ∈ out) ∧
    (MTrack.quantize.snap
        (MTrack.quantize.raster division chords startTick endTick) e.2).duration =
      quantizeLen e.2.duration (MTrack.quantize.raster division chords startTick endTick) ∧
    MTrack.quantize.raster division chords startTick endTick ∣
      (MTrack.quantize.snap
        (MTrack.quantize.raster division chords startTick endTick) e.2).duration ∧
    MTrack.quantize.raster division chords startTick endTick ≤
      (MTrack.quantize.snap
        (MTrack.quantize.raster division chords startTick endTick) e.2).duration ∧
    0 < (MTrack.quantize.snap
        (MTrack.quantize.raster division chords startTick endTick) e.2).duration ∧
    (∀ m, MTrack.quantize.raster division chords startTick endTick ∣ m →
      MTrack.quantize.raster division chords startTick endTick ≤ m →
      |(MTrack.quantize.snap
        (MTrack.quantize.raster division chords startTick endTick) e.2).duration
          - e.2.duration| ≤ |m - e.2.duration|) ∧
    (MTrack.quantize.raster division chords startTick endTick ≤ 2 * e.2.duration →
      ∀ m, MTrack.quantize.raster division chords startTick endTick ∣ m →
      |(MTrack.quantize.snap
        (MTrack.quantize.raster division chords startTick endTick) e.2).duration
          - e.2.duration| ≤ |m - e.2.duration|) := by
  have hpos := MTrack.quantize.raster_pos division chords startTick endTick hdiv
  obtain ⟨out, h1, h2⟩ :=
    MTrack.quantize.mem_out division chords dst startTick endTick hdiv hord
  generalize MTrack.quantize.raster division chords startTick endTick = r at hpos h2 ⊢
  have hq : (MTrack.quantize.snap r e.2).duration = quantizeLen e.2.duration r := rfl
  obtain ⟨n1, n2, n3⟩ := quantizeLen_nearest e.2.duration r hpos
  rw [hq]
  exact ⟨⟨out, h1, (h2 _).mpr (Or.inr ⟨e, he, hs, ht, rfl⟩)⟩, rfl, quantizeLen_dvd _ _, n1,
    by omega, n2, n3⟩

/-- Witness of C11: in a measure at 480 ticks per quarter whose only chord lasts 10 ticks
the raster is 30 and the chord is written with 30 ticks, one raster unit; the two chords of
60 ticks of the specification's measure keep 60 ticks. -/
theorem MTrack.quantize_duration_at_least_raster_witness :
    MTrack.quantize.raster 480 exShortNote 0 1920 = 30 ∧
    MTrack.quantize 480 exShortNote 0 1920 [] =
      some [(0, { mkChord 60 0 10 with duration := 30 })] ∧
    (MTrack.quantize.snap (MTrack.quantize.raster 480 exSixteenths 0 1920)
        (mkChord 60 59 60)).duration = 60 ∧
    MTrack.quantize.raster 480 exShortNote 0 1920 ≤
      (MTrack.quantize.snap (MTrack.quantize.raster 480 exShortNote 0 1920)
        (mkChord 60 0 10)).duration :=
  ⟨by decide, by decide, by decide,
    (MTrack.quantize_duration_at_least_raster 480 exShortNote [] 0 1920 (0, mkChord 60 0 10)
      (by decide) (by unfold ChordMap.Ordered; decide) (by decide) (by decide)
      (by decide)).2.2.2.1⟩

/-! ## `MTrack::quantize`: the raster of the specification's measure -/

/-- C13, counterexample: for the measure [0, 1920) with two notes of 60 ticks at 480 ticks
per quarter, `div` is 60 and the raster of `MTrack::quantize` is 60 ticks, not 30. -/
theorem MTrack.quantize_raster_sixteenths_counterexample :
    MTrack.quantize.divOf 480 exSixteenths 0 1920 = 60 ∧
    MTrack.quantize.raster 480 exSixteenths 0 1920 = 60 ∧
    ¬ MTrack.quantize.raster 480 exSixteenths 0 1920 = 30 := by
  decide

/-- C13, amended: with `MScore::division` = 480, a measure [0, 1920) whose only chords are
two notes of duration 60 ticks has `div` = 60 (the rung `division/8`) and is quantized with
raster = `quantizeLen(60, 30)` = 60 ticks. -/
theorem MTrack.quantize_raster_two_sixteenths (chords : ChordMap)
    (h : (MTrack.quantize.interval chords 0 1920).map (fun e => e.2.duration) = [60, 60]) :
    MTrack.quantize.divOf 480 chords 0 1920 = 60 ∧
    MTrack.quantize.raster 480 chords 0 1920 = quantizeLen 60 30 ∧
    MTrack.quantize.raster 480 chords 0 1920 = 60 := by
  unfold MTrack.quantize.divOf MTrack.quantize.raster
  generalize MTrack.quantize.interval chords 0 1920 = sel at h
  rcases sel with _ | ⟨a, _ | ⟨b, _ | ⟨c, l⟩⟩⟩
  · simp at h
  · simp at h
  · simp only [List.map_cons, List.map_nil, List.cons.injEq, and_true] at h
    obtain ⟨h1, h2⟩ := h
    have hm : MTrack.quantize.mintick 480 [a, b] = 60 := by
      simp only [MTrack.quantize.mintick, List.foldl_cons, List.foldl_nil, h1, h2]
      decide
    rw [hm]
    decide
  · simp at h

/-- Witness of the amended C13: the measure with the onsets 59 and 121. -/
theorem MTrack.quantize_raster_two_sixteenths_witness :
    (MTrack.quantize.interval exSixteenths 0 1920).map (fun e => e.2.duration) = [60, 60] ∧
    MTrack.quantize.raster 480 exSixteenths 0 1920 = 60 :=
  ⟨by decide, (MTrack.quantize_raster_two_sixteenths exSixteenths (by decide)).2.2⟩

/-! ## `MTrack::cleanup`: chords of duration zero -/

/-- C12, the code on the failing input: two notes of pitch 60 whose onsets quantize to the
same tick.  The overlap pass cuts the first to duration 0, and the chord of duration 0 is
still in the map `MTrack::cleanup` leaves in `chords`. -/
theorem MTrack.cleanup_keeps_zero_duration :
    MTrack.cleanup 480 exSamePitch bar44 1920 3 =
      some [(0, { mkChord 60 0 480 with duration := 0 }),
        (0, { mkChord 60 10 480 with onTime := 0 })] ∧
    (∃ out, MTrack.cleanup 480 exSamePitch bar44 1920 3 = some out ∧
      ∃ x ∈ out, x.2.duration ≤ 0) := by
  have h : MTrack.cleanup 480 exSamePitch bar44 1920 3 =
      some [(0, { mkChord 60 0 480 with duration := 0 }),
        (0, { mkChord 60 10 480 with onTime := 0 })] := by decide
  exact ⟨h, _, h, (0, { mkChord 60 0 480 with duration := 0 }), by decide, by decide⟩

/-! ## `MTrack::processPendingNotes`: the shortest pending chord -/

/-- C15: with the duration list's first element at most the requested length, the length
`len` of a segment `processPendingNotes` emits is at most every non-zero duration of a
pending chord; the pending list after the iteration consists, in order, of exactly the
chords whose duration exceeds `len`, each with `onTime` increased and `duration` decreased
by `len` (tie pointers left aside), so a chord whose duration is at most `len` is no longer
pending. -/
theorem MTrack.processPendingNotes_shortest_pending (env : Env) (voice t tick len : Int)
    (notes : List MidiChord) (score : Score)
    (hdl : ∀ l d dl, env.toDurationList l = d :: dl → d ≤ l)
    (hseg : MTrack.processPendingNotes.segment env notes t = some (some (tick, len))) :
    (∀ n ∈ notes, n.duration ≠ 0 → len ≤ n.duration) ∧
    (MTrack.processPendingNotes.emit env voice tick len notes score).1.map
        (fun n => { n with notes := n.notes.map MidiNote.untied }) =
      (notes.filter (fun n => decide (len < n.duration))).map (Spec.carry len) ∧
    (∀ n ∈ notes, len < n.duration →
      ∃ m ∈ (MTrack.processPendingNotes.emit env voice tick len notes score).1,
        m.onTime = n.onTime + len ∧ m.duration = n.duration - len ∧ m.voice = n.voice ∧
          m.notes.map MidiNote.untied = n.notes.map MidiNote.untied) ∧
    (∀ m ∈ (MTrack.processPendingNotes.emit env voice tick len notes score).1,
      ∃ n ∈ notes, len < n.duration ∧ m.onTime = n.onTime + len ∧
        m.duration = n.duration - len) ∧
    (MTrack.processPendingNotes.emit env voice tick len notes score).1.length =
      (notes.filter (fun n => decide (len < n.duration))).length := by
  obtain ⟨first, rest, measure, dl, hn, ht, hpos, hm, hd⟩ :=
    MTrack.processPendingNotes.segment_some env notes t tick len hseg
  obtain ⟨c1, c2⟩ := MTrack.processPendingNotes.clipLen_le notes measure tick t
  have hle := hdl _ _ _ hd
  have hcarry := MTrack.processPendingNotes.chords_carry env tick len notes
    { track := env.staffIdx * env.VOICES + voice, tick := tick, ticks := len } score
  have hcarry2 : (MTrack.processPendingNotes.emit env voice tick len notes score).1.map
        (fun n => { n with notes := n.notes.map MidiNote.untied }) =
      (notes.filter (fun n => decide (len < n.duration))).map (Spec.carry len) := hcarry
  refine ⟨?_, hcarry2, ?_, ?_, ?_⟩
  · intro n hn2 h0
    have := MTrack.processPendingNotes.minLen_le_duration notes (t - tick) n hn2 h0
    omega
  · intro n hn2 hlt
    have h1 : Spec.carry len n ∈
        (notes.filter (fun n => decide (len < n.duration))).map (Spec.carry len) :=
      List.mem_map_of_mem _ (List.mem_filter.mpr ⟨hn2, by simpa using hlt⟩)
    rw [← hcarry2] at h1
    obtain ⟨m, hm1, hm2⟩ := List.mem_map.mp h1
    refine ⟨m, hm1, ?_, ?_, ?_, ?_⟩
    · exact congrArg MidiChord.onTime hm2
    · exact congrArg MidiChord.duration hm2
    · have h5 := congrArg MidiChord.voice hm2
      exact h5
    · have h3 := congrArg MidiChord.notes hm2
      have h4 := congrArg (List.map MidiNote.untied) h3
      simp only [Spec.carry, MidiNote.map_untied_untied] at h4
      exact h4
  · intro m hm1
    have h1 : ({ m with notes := m.notes.map MidiNote.untied } : MidiChord) ∈
        (MTrack.processPendingNotes.emit env voice tick len notes score).1.map
          (fun n => { n with notes := n.notes.map MidiNote.untied }) :=
      List.mem_map_of_mem _ hm1
    rw [hcarry2] at h1
    obtain ⟨n, hn1, hn2⟩ := List.mem_map.mp h1
    obtain ⟨hn3, hn4⟩ := List.mem_filter.mp hn1
    refine ⟨n, hn3, by simpa using hn4, ?_, ?_⟩
    · exact (congrArg MidiChord.onTime hn2).symm
    · exact (congrArg MidiChord.duration hn2).symm
  · have := congrArg List.length hcarry2
    simpa using this

/-- Witness of C15: of the chords of 720 and 240 ticks pending at tick 0, the segment takes
240 ticks; the first chord stays pending at 240 with 480 ticks, the second is removed. -/
theorem MTrack.processPendingNotes_shortest_pending_witness :
    MTrack.processPendingNotes.segment (env44 1) exPending 1920 = some (some (0, 240)) ∧
    (MTrack.processPendingNotes.emit (env44 1) 0 0 240 exPending {}).1.map
        (fun n => { n with notes := n.notes.map MidiNote.untied }) =
      [mkChord 60 0 720].map (Spec.carry 240) ∧
    (∀ n ∈ exPending, n.duration ≠ 0 → 240 ≤ n.duration) :=
  ⟨by decide, by decide,
    (MTrack.processPendingNotes_shortest_pending (env44 1) 0 1920 0 240 exPending {}
      (fun l d dl h => exDurations_head_le _ l d dl h) (by decide)).1⟩

/-! ## `MTrack::processPendingNotes`: a chord of 700 ticks across the barline at 1920 -/

/-- C16, the code on the failing input: on a drum track with a bass drum (pitch 36, voice 1
in the drum map) and a hi-hat (pitch 42, voice 0) at tick 0, `findChords` gives the bass
drum chord the voice 1, and `convertTrack`, whose loop runs for voice 0 only, hands only
the hi-hat chord to `processPendingNotes`: the score receives one chord on track 0 with the
single note 42, and rests from 480 on. -/
theorem MTrack.convertTrack_drops_drum_voice :
    MTrack.findChords (some exDrumset) exDrums =
      [(0, { mkChord 36 0 480 with voice := 1 }), (0, mkChord 42 0 480)] ∧
    (MTrack.convertTrack.voices envDrums 10 (MTrack.findChords (some exDrumset) exDrums)
        1920 {}).map
      (fun r => (r.2.1.notes.map (fun n => n.pitch),
        r.2.1.chords.map (fun c => (c.track, c.tick, c.ticks)),
        r.2.2.map (fun s => s.pending.map (fun c => c.notes.map (fun mn => mn.pitch))),
        r.2.1.rests.map (fun c => (c.tick, c.ticks)))) =
      some ([42], [(0, 0, 480)], [[[42]]], [(480, 960), (1440, 480)]) := by
  refine ⟨by decide, by rfl⟩

/-! ## `MTrack::findChords`: the events a chord absorbs -/

theorem MTrack.findChords.absorb_split (drumset : Option Drumset) (useDrumset : Bool)
    (voice jitter ontime offtime : Int) (rest : ChordMap) :
    ∃ S : ChordMap, S.Sublist rest ∧
      (MTrack.findChords.absorb drumset useDrumset voice jitter ontime offtime rest).1 =
        S.map (fun x => x.2.notes0) ∧
      (∀ x ∈ S, x.1 - jitter ≤ ontime ∧
        MTrack.findChords.sameVoice drumset useDrumset voice x.2.notes0.pitch = true) ∧
      (MTrack.findChords.absorb drumset useDrumset voice jitter ontime offtime
        rest).2.Sublist rest ∧
      ∀ x ∈ rest, x ∈ S ∨
        x ∈ (MTrack.findChords.absorb drumset useDrumset voice jitter ontime offtime rest).2 := by
  induction rest with
  | nil => exact ⟨[], List.Sublist.refl _, rfl, fun x hx => absurd hx (List.not_mem_nil _),
      List.Sublist.refl _, fun x hx => absurd hx (List.not_mem_nil _)⟩
  | cons hd tl ih =>
    obtain ⟨k, ck⟩ := hd
    obtain ⟨S, s1, s2, s3, s4, s5⟩ := ih
    rw [MTrack.findChords.absorb]
    by_cases hbr : k - jitter > ontime
    · rw [if_pos hbr]
      exact ⟨[], List.nil_sublist _, rfl, fun x hx => absurd hx (List.not_mem_nil _),
        List.Sublist.refl _, fun x hx => Or.inr hx⟩
    · rw [if_neg hbr]
      by_cases hfar : qAbs (k - ontime) > jitter ∨ qAbs (k + ck.duration - offtime) > jitter
      · rw [if_pos hfar]
        refine ⟨S, List.Sublist.cons _ s1, s2, s3, List.Sublist.cons₂ _ s4, ?_⟩
        intro x hx
        rcases List.mem_cons.mp hx with rfl | hx
        · exact Or.inr (List.mem_cons_self _ _)
        · rcases s5 x hx with h | h
          · exact Or.inl h
          · exact Or.inr (List.mem_cons_of_mem _ h)
      · rw [if_neg hfar]
        by_cases hv : MTrack.findChords.sameVoice drumset useDrumset voice ck.notes0.pitch
            = true
        · rw [if_pos hv]
          refine ⟨(k, ck) :: S, List.Sublist.cons₂ _ s1, ?_, ?_, List.Sublist.cons _ s4, ?_⟩
          · show _ :: _ = _
            rw [s2]
            rfl
          · intro x hx
            rcases List.mem_cons.mp hx with rfl | hx
            · exact ⟨by omega, hv⟩
            · exact s3 x hx
          · intro x hx
            rcases List.mem_cons.mp hx with rfl | hx
            · exact Or.inl (List.mem_cons_self _ _)
            · rcases s5 x hx with h | h
              · exact Or.inl (List.mem_cons_of_mem _ h)
              · exact Or.inr h
        · rw [if_neg hv]
          refine ⟨S, List.Sublist.cons _ s1, s2, s3, List.Sublist.cons₂ _ s4, ?_⟩
          intro x hx
          rcases List.mem_cons.mp hx with rfl | hx
          · exact Or.inr (List.mem_cons_self _ _)
          · rcases s5 x hx with h | h
            · exact Or.inl h
            · exact Or.inr (List.mem_cons_of_mem _ h)

theorem MTrack.findChords.loop_cons (drumset : Option Drumset) (n : Nat) (k : Int)
    (e : MidiChord) (rest : ChordMap) :
    MTrack.findChords.loop drumset (n + 1) ((k, e) :: rest) =
      (k, { MTrack.findChords.anchor drumset e with
          notes := e.notes ++
            (MTrack.findChords.absorb drumset (MTrack.findChords.useDrumset drumset e)
              (MTrack.findChords.anchor drumset e).voice 3 k (k + e.duration) rest).1 }) ::
      MTrack.findChords.loop drumset n
        (MTrack.findChords.absorb drumset (MTrack.findChords.useDrumset drumset e)
          (MTrack.findChords.anchor drumset e).voice 3 k (k + e.duration) rest).2 := by
  rw [MTrack.findChords.loop]

theorem MidiChord.notes0_mem (c : MidiChord) (h : c.notes ≠ []) : c.notes0 ∈ c.notes := by
  unfold MidiChord.notes0
  cases hn : c.notes with
  | nil => exact absurd hn h
  | cons a l => exact List.mem_cons_self _ _

/-- C19, counterexample: two events of pitch 60 whose onsets and offsets are 2 ticks apart
are merged by `MTrack::findChords` into one chord that holds the pitch 60 twice. -/
theorem MTrack.findChords_duplicate_pitch_counterexample :
    (MTrack.findChords none exEqualPitch).map
        (fun x => (x.1, x.2.notes.map (fun mn => mn.pitch))) = [(0, [60, 60])] ∧
    ¬ (∀ y ∈ MTrack.findChords none exEqualPitch,
        (y.2.notes.map (fun mn => mn.pitch)).Nodup) := by
  refine ⟨by decide, ?_⟩
  intro h
  have h1 := h (0, { mkChord 60 0 100 with
    notes := (mkChord 60 0 100).notes ++ (mkChord 60 2 100).notes }) (by decide)
  revert h1
  decide

/-! ## `MTrack::findChords` on a drum track -/

theorem MTrack.findChords.loop_drum (d : Drumset) (n : Nat) (chords : ChordMap)
    (hn : chords.length ≤ n)
    (hsingle : ∀ x ∈ chords, x.2.notes.length = 1)
    (hvoice : ∀ x ∈ chords, x.2.voice = 0) :
    (∀ y ∈ MTrack.findChords.loop (some d) n chords,
      (d.isValid y.2.notes0.pitch = true →
        y.2.voice = d.voice y.2.notes0.pitch ∧
          ∀ mn ∈ y.2.notes, d.isValid mn.pitch = true ∧ d.voice mn.pitch = y.2.voice) ∧
      (d.isValid y.2.notes0.pitch = false → y.2.voice = 0)) ∧
    (∀ x ∈ chords, d.isValid x.2.notes0.pitch = false →
      ∃ y ∈ MTrack.findChords.loop (some d) n chords,
        x.2.notes0 ∈ y.2.notes ∧ y.2.voice = 0 ∧ d.isValid y.2.notes0.pitch = false) := by
  induction n generalizing chords with
  | zero =>
    have hl : chords = [] := List.length_eq_zero.mp (by omega)
    subst hl
    exact ⟨fun y hy => absurd hy (List.not_mem_nil _),
      fun x hx => absurd hx (List.not_mem_nil _)⟩
  | succ n ih =>
    cases chords with
    | nil =>
      refine ⟨fun y hy => ?_, fun x hx => absurd hx (List.not_mem_nil _)⟩
      simp [MTrack.findChords.loop] at hy
    | cons hd rest =>
      obtain ⟨k, e⟩ := hd
      rw [MTrack.findChords.loop_cons]
      obtain ⟨S, s1, s2, s3, s4, s5⟩ := MTrack.findChords.absorb_split (some d)
        (MTrack.findChords.useDrumset (some d) e)
        (MTrack.findChords.anchor (some d) e).voice 3 k (k + e.duration) rest
      have hlen := MTrack.findChords.absorb_length (some d)
        (MTrack.findChords.useDrumset (some d) e)
        (MTrack.findChords.anchor (some d) e).voice 3 k (k + e.duration) rest
      obtain ⟨mn0, hmn0⟩ := List.length_eq_one.mp (hsingle (k, e) (List.mem_cons_self _ _))
      have hv0 : e.voice = 0 := hvoice (k, e) (List.mem_cons_self _ _)
      have hn0 : e.notes0 = mn0 := by
        unfold MidiChord.notes0
        rw [show e.notes = [mn0] from hmn0]
        rfl
      obtain ⟨ih1, ih2⟩ := ih
        (MTrack.findChords.absorb (some d) (MTrack.findChords.useDrumset (some d) e)
          (MTrack.findChords.anchor (some d) e).voice 3 k (k + e.duration) rest).2
        (by simp only [List.length_cons] at hn; omega)
        (fun x hx => hsingle x (List.mem_cons_of_mem _ (s4.subset hx)))
        (fun x hx => hvoice x (List.mem_cons_of_mem _ (s4.subset hx)))
      generalize MTrack.findChords.absorb (some d) (MTrack.findChords.useDrumset (some d) e)
          (MTrack.findChords.anchor (some d) e).voice 3 k (k + e.duration) rest = ab
        at s2 s4 s5 ih1 ih2 hlen
      have hhead0 : ({ MTrack.findChords.anchor (some d) e with
          notes := e.notes ++ ab.1 } : MidiChord).notes0 = mn0 := by
        show (e.notes ++ ab.1).headD _ = mn0
        rw [show e.notes = [mn0] from hmn0]
        rfl
      by_cases hval : d.isValid mn0.pitch = true
      · have hanchor : MTrack.findChords.anchor (some d) e =
            { e with voice := d.voice mn0.pitch } := by
          show (if d.isValid e.notes0.pitch then _ else e) = _
          rw [hn0, if_pos hval]
        have huse : MTrack.findChords.useDrumset (some d) e = true := by
          show d.isValid e.notes0.pitch = true
          rw [hn0]
          exact hval
        rw [hanchor] at hhead0 s3 ⊢
        rw [huse] at s3
        constructor
        · intro y hy
          rcases List.mem_cons.mp hy with rfl | hy
          · dsimp only
            rw [hhead0]
            refine ⟨fun _ => ⟨rfl, ?_⟩, fun h => ?_⟩
            · intro mn hmn
              rcases List.mem_append.mp hmn with h | h
              · rw [show e.notes = [mn0] from hmn0, List.mem_singleton] at h
                subst h
                exact ⟨hval, rfl⟩
              · rw [s2] at h
                obtain ⟨b, hb, rfl⟩ := List.mem_map.mp h
                have h3 := (s3 b hb).2
                simp only [MTrack.findChords.sameVoice, Bool.not_true, Bool.false_or,
                  Bool.and_eq_true, decide_eq_true_eq] at h3
                exact h3
            · rw [hval] at h
              exact absurd h (by decide)
          · exact ih1 y hy
        · intro x hx hinv
          rcases List.mem_cons.mp hx with rfl | hx
          · rw [show (k, e).2.notes0 = mn0 from hn0, hval] at hinv
            exact absurd hinv (by decide)
          · rcases s5 x hx with h | h
            · have h3 := (s3 x h).2
              simp only [MTrack.findChords.sameVoice, Bool.not_true, Bool.false_or,
                Bool.and_eq_true, decide_eq_true_eq] at h3
              rw [h3.1] at hinv
              exact absurd hinv (by decide)
            · obtain ⟨y, hy, h1⟩ := ih2 x h hinv
              exact ⟨y, List.mem_cons_of_mem _ hy, h1⟩
      · have hval2 : d.isValid mn0.pitch = false := by simpa using hval
        have hanchor : MTrack.findChords.anchor (some d) e = e := by
          show (if d.isValid e.notes0.pitch then _ else e) = _
          rw [hn0, if_neg hval]
        rw [hanchor] at hhead0 ⊢
        constructor
        · intro y hy
          rcases List.mem_cons.mp hy with rfl | hy
          · dsimp only
            rw [hhead0]
            exact ⟨fun h => absurd h hval, fun _ => hv0⟩
          · exact ih1 y hy
        · intro x hx hinv
          rcases List.mem_cons.mp hx with rfl | hx
          · refine ⟨_, List.mem_cons_self _ _, ?_, hv0, ?_⟩
            · show (k, e).2.notes0 ∈ e.notes ++ ab.1
              rw [show (k, e).2.notes0 = mn0 from hn0, show e.notes = [mn0] from hmn0]
              exact List.mem_append_left _ (List.mem_singleton_self _)
            · dsimp only
              rw [hhead0]
              exact hval2
          · rcases s5 x hx with h | h
            · refine ⟨_, List.mem_cons_self _ _, ?_, hv0, ?_⟩
              · show x.2.notes0 ∈ e.notes ++ ab.1
                rw [s2]
                exact List.mem_append_right _
                  (List.mem_map_of_mem (fun x : Int × MidiChord => x.2.notes0) h)
              · dsimp only
                rw [hhead0]
                exact hval2
            · obtain ⟨y, hy, h1⟩ := ih2 x h hinv
              exact ⟨y, List.mem_cons_of_mem _ hy, h1⟩

/-- C20: on a drum track whose events are single notes on the default voice 0, after
`MTrack::findChords` every chord whose anchor pitch `notes[0].pitch` is valid in the drum
map has the drum map's voice for that pitch, and every note of it (the anchor's and each
merged event's) is valid in the drum map and maps to the chord's voice; a chord whose
anchor pitch is not in the drum map keeps the voice 0; and every event whose pitch is not
in the drum map ends in such a chord of voice 0, never in a chord anchored by a valid
pitch. -/
theorem MTrack.findChords_drum_voice (d : Drumset) (chords : ChordMap)
    (hsingle : ∀ x ∈ chords, x.2.notes.length = 1)
    (hvoice : ∀ x ∈ chords, x.2.voice = 0) :
    (∀ y ∈ MTrack.findChords (some d) chords,
      (d.isValid y.2.notes0.pitch = true →
        y.2.voice = d.voice y.2.notes0.pitch ∧
          ∀ mn ∈ y.2.notes, d.isValid mn.pitch = true ∧ d.voice mn.pitch = y.2.voice) ∧
      (d.isValid y.2.notes0.pitch = false → y.2.voice = 0)) ∧
    (∀ x ∈ chords, d.isValid x.2.notes0.pitch = false →
      ∃ y ∈ MTrack.findChords (some d) chords,
        x.2.notes0 ∈ y.2.notes ∧ y.2.voice = 0 ∧ d.isValid y.2.notes0.pitch = false) :=
  MTrack.findChords.loop_drum d chords.length chords (le_refl _) hsingle hvoice

/-- Witness of C20: the bass drum at 0 takes the voice 1 and merges the bass drum at 2, not
the unmapped pitch 50 nor the hi-hat; the event of pitch 50 stays on voice 0. -/
theorem MTrack.findChords_drum_voice_witness :
    (MTrack.findChords (some exDrumset) exDrumsJitter).map
        (fun x => (x.1, x.2.voice, x.2.notes.map (fun mn => mn.pitch))) =
      [(0, 1, [36, 35]), (1, 0, [50, 42])] ∧
    (∀ y ∈ MTrack.findChords (some exDrumset) exDrumsJitter,
      (exDrumset.isValid y.2.notes0.pitch = true →
        y.2.voice = exDrumset.voice y.2.notes0.pitch ∧
          ∀ mn ∈ y.2.notes, exDrumset.isValid mn.pitch = true ∧
            exDrumset.voice mn.pitch = y.2.voice) ∧
      (exDrumset.isValid y.2.notes0.pitch = false → y.2.voice = 0)) :=
  ⟨by decide,
    (MTrack.findChords_drum_voice exDrumset exDrumsJitter (by decide) (by decide)).1⟩

/-! ## `splitIntoLeftRightHands`: the clusters -/

theorem Spec.clusters_cons_cons (tol : Int) (c next : Int × MidiChord)
    (rest cur : List (Int × MidiChord)) :
    Spec.clusters tol (c :: next :: rest) cur =
      if next.2.onTime - Spec.firstOnTime (cur ++ [c]) > tol then
        (cur ++ [c]) :: Spec.clusters tol (next :: rest) []
      else Spec.clusters tol (next :: rest) (cur ++ [c]) := by
  rw [Spec.clusters]

theorem Spec.firstOnTime_append (cur : List (Int × MidiChord)) (c : Int × MidiChord)
    (l : List (Int × MidiChord)) :
    Spec.firstOnTime (cur ++ [c] ++ l) = Spec.firstOnTime (cur ++ [c]) := by
  cases cur <;> rfl

theorem splitIntoLeftRightHands.currentTime_eq (cur : List (Int × MidiChord))
    (i : Int × MidiChord) (currentTime : Int)
    (h : cur ≠ [] → currentTime = Spec.firstOnTime cur) :
    (if cur.isEmpty then i.2.onTime else currentTime) = Spec.firstOnTime (cur ++ [i]) := by
  cases cur with
  | nil => rfl
  | cons a t =>
    have := h (List.cons_ne_nil _ _)
    simp only [List.isEmpty_cons, Bool.false_eq_true, if_false]
    rw [this]
    rfl

theorem splitIntoLeftRightHands.walk_clusters
    (sort : List (Int × MidiChord) → List (Int × MidiChord)) (tol : Int)
    (chords : ChordMap) (cur : List (Int × MidiChord)) (currentTime : Int) (l r : ChordMap)
    (h : cur ≠ [] → currentTime = Spec.firstOnTime cur) :
    splitIntoLeftRightHands.walk sort tol chords cur currentTime l r =
      (Spec.clusters tol chords cur).foldl
        (fun hands g => splitIntoLeftRightHands.assign sort g hands.1 hands.2) (l, r) := by
  induction chords generalizing cur currentTime l r with
  | nil => rfl
  | cons i rest ih =>
    cases rest with
    | nil => simp only [splitIntoLeftRightHands.walk, Spec.clusters, List.foldl_cons,
        List.foldl_nil]
    | cons next rest2 =>
      rw [splitIntoLeftRightHands.walk_cons_cons, Spec.clusters_cons_cons,
        splitIntoLeftRightHands.currentTime_eq cur i currentTime h]
      by_cases hc : next.2.onTime - Spec.firstOnTime (cur ++ [i]) > tol
      · rw [if_pos hc, if_pos hc, List.foldl_cons]
        exact ih [] _ _ _ (fun h0 => absurd rfl h0)
      · rw [if_neg hc, if_neg hc]
        exact ih (cur ++ [i]) _ _ _ (fun _ => rfl)

theorem Spec.clusters_flatten (tol : Int) (chords cur : List (Int × MidiChord))
    (hne : chords ≠ []) :
    (Spec.clusters tol chords cur).flatten = cur ++ chords ∧
      ∀ g ∈ Spec.clusters tol chords cur, g ≠ [] := by
  induction chords generalizing cur with
  | nil => exact absurd rfl hne
  | cons c rest ih =>
    cases rest with
    | nil =>
      simp only [Spec.clusters, List.flatten_cons, List.flatten_nil, List.append_nil,
        List.mem_singleton, true_and]
      rintro g rfl
      simp
    | cons next rest2 =>
      rw [Spec.clusters_cons_cons]
      by_cases hc : next.2.onTime - Spec.firstOnTime (cur ++ [c]) > tol
      · rw [if_pos hc]
        obtain ⟨h1, h2⟩ := ih [] (List.cons_ne_nil _ _)
        constructor
        · rw [List.flatten_cons, h1]
          simp
        · intro g hg
          rcases List.mem_cons.mp hg with rfl | hg
          · simp
          · exact h2 g hg
      · rw [if_neg hc]
        obtain ⟨h1, h2⟩ := ih (cur ++ [c]) (List.cons_ne_nil _ _)
        exact ⟨by rw [h1]; simp, h2⟩

theorem Spec.clusters_head (tol : Int) (c : Int × MidiChord)
    (rest cur : List (Int × MidiChord)) :
    ∃ g gs, Spec.clusters tol (c :: rest) cur = g :: gs ∧
      Spec.firstOnTime g = Spec.firstOnTime (cur ++ [c]) := by
  induction rest generalizing c cur with
  | nil => exact ⟨_, [], rfl, rfl⟩
  | cons next rest2 ih =>
    rw [Spec.clusters_cons_cons]
    by_cases hc : next.2.onTime - Spec.firstOnTime (cur ++ [c]) > tol
    · rw [if_pos hc]
      exact ⟨_, _, rfl, rfl⟩
    · rw [if_neg hc]
      obtain ⟨g, gs, h1, h2⟩ := ih next (cur ++ [c])
      exact ⟨g, gs, h1, by rw [h2, Spec.firstOnTime_append]⟩

theorem Spec.clusters_within (tol : Int) (c : Int × MidiChord)
    (rest cur : List (Int × MidiChord))
    (h : ∀ x ∈ (cur ++ [c]).tail, x.2.onTime - Spec.firstOnTime (cur ++ [c]) ≤ tol) :
    (∀ g ∈ Spec.clusters tol (c :: rest) cur,
      ∀ x ∈ g.tail, x.2.onTime - Spec.firstOnTime g ≤ tol) ∧
    List.Chain' (fun g1 g2 => Spec.firstOnTime g2 - Spec.firstOnTime g1 > tol)
      (Spec.clusters tol (c :: rest) cur) := by
  induction rest generalizing c cur with
  | nil =>
    refine ⟨?_, List.chain'_singleton _⟩
    intro g hg
    rw [Spec.clusters, List.mem_singleton] at hg
    subst hg
    exact h
  | cons next rest2 ih =>
    rw [Spec.clusters_cons_cons]
    by_cases hc : next.2.onTime - Spec.firstOnTime (cur ++ [c]) > tol
    · rw [if_pos hc]
      obtain ⟨h1, h2⟩ := ih next [] (fun x hx => absurd hx (List.not_mem_nil _))
      constructor
      · intro g hg
        rcases List.mem_cons.mp hg with rfl | hg
        · exact h
        · exact h1 g hg
      · obtain ⟨g, gs, e1, e2⟩ := Spec.clusters_head tol next rest2 []
        rw [e1] at h2 ⊢
        refine List.Chain'.cons ?_ h2
        rw [e2]
        exact hc
    · rw [if_neg hc]
      refine ih next (cur ++ [c]) ?_
      intro x hx
      rw [Spec.firstOnTime_append]
      have ht : (cur ++ [c] ++ [next]).tail = (cur ++ [c]).tail ++ [next] := by
        cases cur <;> rfl
      rw [ht] at hx
      rcases List.mem_append.mp hx with hx | hx
      · exact h x hx
      · rw [List.mem_singleton] at hx
        subst hx
        omega

theorem splitIntoLeftRightHands.durationTol_spec (first : Int × MidiChord)
    (chords : ChordMap) :
    (∀ c ∈ chords, splitIntoLeftRightHands.durationTol first chords ≤ c.2.notes0.len) ∧
    splitIntoLeftRightHands.durationTol first chords ≤ first.2.notes0.len ∧
    (splitIntoLeftRightHands.durationTol first chords = first.2.notes0.len ∨
      ∃ c ∈ chords, splitIntoLeftRightHands.durationTol first chords = c.2.notes0.len) := by
  unfold splitIntoLeftRightHands.durationTol
  generalize first.2.notes0.len = a
  induction chords generalizing a with
  | nil => exact ⟨fun c hc => absurd hc (List.not_mem_nil _), le_refl _, Or.inl rfl⟩
  | cons hd tl ih =>
    simp only [List.foldl_cons]
    obtain ⟨h1, h2, h3⟩ := ih (if hd.2.notes0.len < a then hd.2.notes0.len else a)
    refine ⟨?_, ?_, ?_⟩
    · intro c hc
      rcases List.mem_cons.mp hc with rfl | hc
      · refine le_trans h2 ?_
        split <;> omega
      · exact h1 c hc
    · refine le_trans h2 ?_
      split <;> omega
    · rcases h3 with h3 | ⟨c, hc, h3⟩
      · by_cases hlt : hd.2.notes0.len < a
        · rw [if_pos hlt] at h3 ⊢
          exact Or.inr ⟨hd, List.mem_cons_self _ _, h3⟩
        · rw [if_neg hlt] at h3 ⊢
          exact Or.inl h3
      · exact Or.inr ⟨c, List.mem_cons_of_mem _ hc, h3⟩

/-- C17: for a non-empty source track, the tolerance `durationTol` is the minimum
`notes[0].len` over the chords of the track, and the hand maps `splitIntoLeftRightHands`
builds are those of processing, in order, the clusters of the specification: walking the
chords in map order, the current cluster is closed after a chord exactly when it is the last
chord or the next chord's `onTime` minus the `onTime` of the cluster's first chord exceeds
the tolerance.  The clusters are non-empty contiguous runs whose concatenation is the chord
sequence; every chord of a cluster after the first is within the tolerance of the cluster's
first chord, and the first chord of the next cluster is beyond the tolerance of it. -/
theorem splitIntoLeftRightHands_clusters
    (sort : List (Int × MidiChord) → List (Int × MidiChord)) (first : Int × MidiChord)
    (rest : ChordMap) :
    (∀ c ∈ first :: rest,
      splitIntoLeftRightHands.durationTol first (first :: rest) ≤ c.2.notes0.len) ∧
    (∃ c ∈ first :: rest,
      splitIntoLeftRightHands.durationTol first (first :: rest) = c.2.notes0.len) ∧
    splitIntoLeftRightHands.hands sort (first :: rest) =
      some ((Spec.clusters (splitIntoLeftRightHands.durationTol first (first :: rest))
          (first :: rest) []).foldl
        (fun hands g => splitIntoLeftRightHands.assign sort g hands.1 hands.2) ([], [])) ∧
    (Spec.clusters (splitIntoLeftRightHands.durationTol first (first :: rest))
      (first :: rest) []).flatten = first :: rest ∧
    (∀ g ∈ Spec.clusters (splitIntoLeftRightHands.durationTol first (first :: rest))
        (first :: rest) [],
      g ≠ [] ∧ ∀ x ∈ g.tail, x.2.onTime - Spec.firstOnTime g ≤
        splitIntoLeftRightHands.durationTol first (first :: rest)) ∧
    List.Chain'
      (fun g1 g2 => Spec.firstOnTime g2 - Spec.firstOnTime g1 >
        splitIntoLeftRightHands.durationTol first (first :: rest))
      (Spec.clusters (splitIntoLeftRightHands.durationTol first (first :: rest))
        (first :: rest) []) := by
  obtain ⟨t1, t2, t3⟩ := splitIntoLeftRightHands.durationTol_spec first (first :: rest)
  obtain ⟨f1, f2⟩ := Spec.clusters_flatten
    (splitIntoLeftRightHands.durationTol first (first :: rest)) (first :: rest) []
    (List.cons_ne_nil _ _)
  obtain ⟨w1, w2⟩ := Spec.clusters_within
    (splitIntoLeftRightHands.durationTol first (first :: rest)) first rest []
    (fun x hx => absurd hx (List.not_mem_nil _))
  refine ⟨t1, ?_, ?_, f1, fun g hg => ⟨f2 g hg, w1 g hg⟩, w2⟩
  · rcases t3 with h | h
    · exact ⟨first, List.mem_cons_self _ _, h⟩
    · exact h
  · show some _ = some _
    rw [splitIntoLeftRightHands.walk_clusters sort _ _ [] 0 [] []
      (fun h0 => absurd rfl h0)]

/-- An instance of the cluster rule: with the tolerance 150 the chords at 0, 100 and 200
form the clusters {0, 100} and {200}; the chord at 200 is measured against the chord at 0,
not against the chord at 100. -/
theorem splitIntoLeftRightHands.clusters_exChain :
    splitIntoLeftRightHands.durationTol (0, mkChord 60 0 150) exChain = 150 ∧
    (Spec.clusters 150 exChain []).map (fun g => g.map (fun x => x.1)) = [[0, 100], [200]] ∧
    splitIntoLeftRightHands.hands sortByPitch exChain =
      some ([(0, mkChord 60 0 150)], [(100, mkChord 62 100 150), (200, mkChord 64 200 150)]) := by
  decide

/-! ## `splitIntoLeftRightHands`: the track list after the call -/

theorem splitIntoLeftRightHands.assign_right_ne_nil
    (sort : List (Int × MidiChord) → List (Int × MidiChord)) (hs : ∀ l, (sort l).Perm l)
    (chordGroup : List (Int × MidiChord)) (l r : ChordMap) (hne : chordGroup ≠ []) :
    (splitIntoLeftRightHands.assign sort chordGroup l r).2 ≠ [] := by
  have hne2 : sort chordGroup ≠ [] := by
    intro h
    have := hs chordGroup
    rw [h] at this
    exact hne (List.Perm.nil_eq this).symm
  rw [splitIntoLeftRightHands.assign_eq sort chordGroup l r hne2]
  have hlen : ∀ xs : List (Int × MidiChord), xs ≠ [] → ChordMap.insertAll r xs ≠ [] := by
    intro xs hxs h
    have h1 := (ChordMap.insertAll_perm r xs).length_eq
    rw [h, List.length_append] at h1
    have h2 : 0 < xs.length := List.length_pos.mpr hxs
    simp only [List.length_nil] at h1
    omega
  split
  · rename_i hoct
    apply hlen
    intro h
    have hmem : (sort chordGroup).getLast hne2 ∈ (sort chordGroup).filter (fun x =>
        !decide (x.2.notes0.pitch ≤ ((sort chordGroup).head hne2).2.notes0.pitch + 12)) := by
      refine List.mem_filter.mpr ⟨List.getLast_mem hne2, ?_⟩
      simp only [Bool.not_eq_true', decide_eq_false_iff_not, not_le]
      omega
    rw [h] at hmem
    exact absurd hmem (List.not_mem_nil _)
  · exact hlen _ (List.cons_ne_nil _ _)

theorem splitIntoLeftRightHands.walk_right_ne_nil
    (sort : List (Int × MidiChord) → List (Int × MidiChord)) (hs : ∀ l, (sort l).Perm l)
    (durationTol : Int) (chords : ChordMap) (hne : chords ≠ [])
    (chordGroup : List (Int × MidiChord)) (currentTime : Int) (l r : ChordMap) :
    (splitIntoLeftRightHands.walk sort durationTol chords chordGroup currentTime l r).2
      ≠ [] := by
  induction chords generalizing chordGroup currentTime l r with
  | nil => exact absurd rfl hne
  | cons i rest ih =>
    cases rest with
    | nil =>
      simp only [splitIntoLeftRightHands.walk]
      exact splitIntoLeftRightHands.assign_right_ne_nil sort hs _ l r (by simp)
    | cons next rest2 =>
      rw [splitIntoLeftRightHands.walk_cons_cons]
      generalize (if chordGroup.isEmpty then i.2.onTime else currentTime) = ct
      by_cases h : next.2.onTime - ct > durationTol
      · rw [if_pos h]
        exact ih (by simp) _ _ _ _
      · rw [if_neg h]
        exact ih (by simp) _ _ _ _

theorem splitIntoLeftRightHands.hands_right_ne_nil
    (sort : List (Int × MidiChord) → List (Int × MidiChord)) (hs : ∀ l, (sort l).Perm l)
    (chords : ChordMap) (hne : chords ≠ []) :
    ∃ leftHand rightHand,
      splitIntoLeftRightHands.hands sort chords = some (leftHand, rightHand) ∧
        rightHand ≠ [] := by
  cases chords with
  | nil => exact absurd rfl hne
  | cons first rest =>
    exact ⟨_, _, rfl, splitIntoLeftRightHands.walk_right_ne_nil sort hs _ _
      (List.cons_ne_nil _ _) _ _ _ _⟩

theorem Spec.splitTracks_nil (sort : List (Int × MidiChord) → List (Int × MidiChord))
    (operations : List TrackOperations) : Spec.splitTracks sort [] operations = [] := rfl

theorem Spec.splitTracks_no_operations
    (sort : List (Int × MidiChord) → List (Int × MidiChord)) (tracks : List MTrack) :
    Spec.splitTracks sort tracks [] = tracks := by
  unfold Spec.splitTracks
  have h : (fun (i : Nat) (srcTrack : MTrack) =>
      if Spec.flag [] i then Spec.handTracks sort srcTrack else [srcTrack]) =
      fun _ srcTrack => [srcTrack] := by
    funext i srcTrack
    simp [Spec.flag]
  rw [h]
  induction tracks with
  | nil => rfl
  | cons t ts ih =>
    rw [List.mapIdx_cons, List.flatten_cons, ih]
    rfl

theorem Spec.splitTracks_cons (sort : List (Int × MidiChord) → List (Int × MidiChord))
    (t : MTrack) (ts : List MTrack) (op : TrackOperations) (ops : List TrackOperations) :
    Spec.splitTracks sort (t :: ts) (op :: ops) =
      (if op.doLHRHSeparation then Spec.handTracks sort t else [t]) ++
        Spec.splitTracks sort ts ops := by
  unfold Spec.splitTracks
  rw [List.mapIdx_cons, List.flatten_cons]
  have h : (fun (i : Nat) (srcTrack : MTrack) =>
      if Spec.flag (op :: ops) (i + 1) then Spec.handTracks sort srcTrack else [srcTrack]) =
      fun i srcTrack =>
        if Spec.flag ops i then Spec.handTracks sort srcTrack else [srcTrack] := by
    funext i srcTrack
    simp [Spec.flag]
  have h0 : Spec.flag (op :: ops) 0 = op.doLHRHSeparation := by
    simp [Spec.flag]
  rw [h, h0]

/-- C18: for a track list whose tracks all have at least one chord (and any `std::sort`
that returns a rearrangement of its input), `splitIntoLeftRightHands` is defined and
returns the track list of the specification: each flagged track replaced at its position by
its right-hand track, followed immediately by its left-hand track if and only if the
left-hand set is non-empty, each track that is not flagged or whose index is beyond the
operations list unchanged, the order kept.  The right-hand set of every track is non-empty,
and no track of the result has an empty chord set. -/
theorem splitIntoLeftRightHands_tracks
    (sort : List (Int × MidiChord) → List (Int × MidiChord)) (hs : ∀ l, (sort l).Perm l)
    (tracks : List MTrack) (operations : List TrackOperations)
    (hne : ∀ t ∈ tracks, t.chords ≠ []) :
    ∃ out ops, splitIntoLeftRightHands sort tracks operations = some (out, ops) ∧
      out = Spec.splitTracks sort tracks operations ∧
      (∀ t ∈ out, t.chords ≠ []) ∧
      (∀ t ∈ tracks, ∃ leftHand rightHand,
        splitIntoLeftRightHands.hands sort t.chords = some (leftHand, rightHand) ∧
          rightHand ≠ []) := by
  have hright : ∀ t ∈ tracks, ∃ leftHand rightHand,
      splitIntoLeftRightHands.hands sort t.chords = some (leftHand, rightHand) ∧
        rightHand ≠ [] :=
    fun t ht => splitIntoLeftRightHands.hands_right_ne_nil sort hs t.chords (hne t ht)
  suffices h : ∃ out ops, splitIntoLeftRightHands sort tracks operations = some (out, ops) ∧
      out = Spec.splitTracks sort tracks operations ∧ (∀ t ∈ out, t.chords ≠ []) by
    obtain ⟨out, ops, h1, h2, h3⟩ := h
    exact ⟨out, ops, h1, h2, h3, hright⟩
  clear hright
  induction tracks generalizing operations with
  | nil =>
    refine ⟨[], operations, ?_, rfl, fun t ht => absurd ht (List.not_mem_nil _)⟩
    rw [splitIntoLeftRightHands]
  | cons t ts ih =>
    cases operations with
    | nil =>
      refine ⟨t :: ts, [], ?_, (Spec.splitTracks_no_operations sort _).symm, hne⟩
      rw [splitIntoLeftRightHands]
    | cons op ops =>
      obtain ⟨out, ops2, h1, h2, h3⟩ := ih ops
        (fun x hx => hne x (List.mem_cons_of_mem _ hx))
      rw [splitIntoLeftRightHands, h1, Spec.splitTracks_cons, ← h2]
      by_cases hf : op.doLHRHSeparation = true
      · obtain ⟨l, r, e1, e2⟩ := splitIntoLeftRightHands.hands_right_ne_nil sort hs
          t.chords (hne t (List.mem_cons_self _ _))
        have e3 : Spec.handTracks sort t =
            { mtrack := t.mtrack, chords := r } ::
              (if l ≠ [] then [{ mtrack := t.mtrack, chords := l }] else []) := by
          unfold Spec.handTracks
          rw [e1]
        rw [e3]
        simp only [hf, Bool.not_true, Bool.false_eq_true, if_false, if_true, e1,
          Option.map_some']
        rw [if_pos e2]
        by_cases hl : l ≠ []
        · rw [if_pos hl, if_pos hl, if_pos hl]
          refine ⟨_, _, rfl, rfl, ?_⟩
          intro x hx
          rcases List.mem_cons.mp hx with rfl | hx
          · exact e2
          · rcases List.mem_cons.mp hx with rfl | hx
            · exact hl
            · exact h3 x hx
        · rw [if_neg hl, if_neg hl, if_neg hl]
          refine ⟨_, _, rfl, rfl, ?_⟩
          intro x hx
          rcases List.mem_cons.mp hx with rfl | hx
          · exact e2
          · exact h3 x hx
      · have hf2 : op.doLHRHSeparation = false := by simpa using hf
        simp only [hf2, Bool.not_false, if_true, Bool.false_eq_true, if_false,
          Option.map_some']
        refine ⟨_, _, rfl, rfl, ?_⟩
        intro x hx
        rcases List.mem_cons.mp hx with rfl | hx
        · exact hne _ (List.mem_cons_self _ _)
        · exact h3 x hx

/-- Witness of C18: of three tracks with the operations "separate, import only" the first
is replaced by its right-hand and left-hand tracks, the second is not flagged and the third
is beyond the operations list; both stay as they are. -/
theorem splitIntoLeftRightHands_tracks_witness :
    (splitIntoLeftRightHands sortByPitch exTracks
        [{ doLHRHSeparation := true }, { }]).map (fun r => r.1) =
      some [{ mtrack := some 7, chords := [(0, mkChord 64 0 240), (480, mkChord 52 480 240)] },
        { mtrack := some 7, chords := [(0, mkChord 40 0 240), (480, mkChord 40 480 240)] },
        { mtrack := some 8, chords := exChain }, { mtrack := some 9, chords := exHalfNote }] ∧
    ∃ out ops, splitIntoLeftRightHands sortByPitch exTracks
        [{ doLHRHSeparation := true }, { }] = some (out, ops) ∧
      out = Spec.splitTracks sortByPitch exTracks [{ doLHRHSeparation := true }, { }] ∧
      (∀ t ∈ out, t.chords ≠ []) ∧
      (∀ t ∈ exTracks, ∃ leftHand rightHand,
        splitIntoLeftRightHands.hands sortByPitch t.chords = some (leftHand, rightHand) ∧
          rightHand ≠ []) :=
  ⟨by decide,
    splitIntoLeftRightHands_tracks sortByPitch (fun l => List.perm_insertionSort _ l)
      exTracks [{ doLHRHSeparation := true }, { }] (by decide)⟩

/-! ## `MTrack::cleanup`: the overlap pass, chord by chord -/

theorem MTrack.cleanup.scan_eq_truncate (e : MidiChord) (rest : ChordMap) :
    MTrack.cleanup.scan e rest = Spec.truncate e rest := by
  unfold Spec.truncate
  induction rest with
  | nil => rfl
  | cons hd tl ih =>
    obtain ⟨k, ee⟩ := hd
    unfold MTrack.cleanup.scan
    by_cases hp : ee.notes0.pitch = e.notes0.pitch
    · rw [if_neg (not_not.mpr hp), List.find?_cons_of_pos _ (by simpa using hp)]
      by_cases ho : ee.onTime ≥ e.onTime + e.duration
      · rw [if_pos ho]
        simp only
        rw [if_neg (by omega)]
      · rw [if_neg ho]
        simp only
        rw [if_pos (by omega)]
    · rw [if_pos hp, List.find?_cons_of_neg _ (by simpa using hp)]
      exact ih

theorem Spec.truncate_frame (e : MidiChord) (later : ChordMap) :
    (Spec.truncate e later).onTime = e.onTime ∧ (Spec.truncate e later).notes = e.notes ∧
      (Spec.truncate e later).voice = e.voice ∧
      (Spec.truncate e later).duration ≤ e.duration := by
  unfold Spec.truncate
  split
  · split
    · exact ⟨rfl, rfl, rfl, by show _ - _ ≤ _; omega⟩
    · exact ⟨rfl, rfl, rfl, le_refl _⟩
  · exact ⟨rfl, rfl, rfl, le_refl _⟩

/-- C26: the overlap pass of `MTrack::cleanup` rewrites every chord `e` by the rule of the
specification against the entries after it in map order: with `n` the first later chord of
the same `notes[0].pitch`, the duration becomes `n.onTime - e.onTime` when `n` exists and
`n.onTime < e.onTime + e.duration`, and is unchanged otherwise.  The pass keeps the number
and order of the entries, every key, `onTime`, notes list and voice, and no duration is
increased. -/
theorem MTrack.cleanup_overlap_pass (dl : ChordMap) :
    MTrack.cleanup.overlaps dl = Spec.resolveOverlaps dl ∧
    (MTrack.cleanup.overlaps dl).map (fun x => (x.1, x.2.onTime, x.2.notes, x.2.voice)) =
      dl.map (fun x => (x.1, x.2.onTime, x.2.notes, x.2.voice)) ∧
    List.Forall₂ (fun x y => x.2.duration ≤ y.2.duration) (MTrack.cleanup.overlaps dl) dl := by
  induction dl with
  | nil => exact ⟨rfl, rfl, List.Forall₂.nil⟩
  | cons hd tl ih =>
    obtain ⟨k, e⟩ := hd
    obtain ⟨h1, h2, h3⟩ := ih
    obtain ⟨f1, f2, f3, f4⟩ := Spec.truncate_frame e tl
    refine ⟨?_, ?_, ?_⟩
    · show (k, MTrack.cleanup.scan e tl) :: MTrack.cleanup.overlaps tl = _
      rw [MTrack.cleanup.scan_eq_truncate, h1]
      rfl
    · show (k, (MTrack.cleanup.scan e tl).onTime, (MTrack.cleanup.scan e tl).notes,
        (MTrack.cleanup.scan e tl).voice) :: (MTrack.cleanup.overlaps tl).map _ = _
      rw [MTrack.cleanup.scan_eq_truncate, h2, f1, f2, f3]
      rfl
    · show List.Forall₂ _ ((k, MTrack.cleanup.scan e tl) :: MTrack.cleanup.overlaps tl) _
      refine List.Forall₂.cons ?_ h3
      rw [MTrack.cleanup.scan_eq_truncate]
      exact f4

/-! ## `MTrack::quantize`: the raster at 480 ticks per quarter -/

theorem MTrack.quantize.rasterOf_480 (mintick : Int) (h : mintick ≤ 480) :
    MTrack.quantize.rasterOf 480 mintick ∈ ([30, 60, 120, 240, 480] : List Int) ∧
      MTrack.quantize.div 480 mintick ∈ ([30, 60, 120, 240, 480] : List Int) := by
  have e16 : Int.tdiv 480 16 = 30 := by decide
  have e8 : Int.tdiv 480 8 = 60 := by decide
  have e4 : Int.tdiv 480 4 = 120 := by decide
  have e2 : Int.tdiv 480 2 = 240 := by decide
  have s60 : (60 : Int) >>> (1 : Nat) = 30 := by decide
  have s120 : (120 : Int) >>> (1 : Nat) = 60 := by decide
  have s240 : (240 : Int) >>> (1 : Nat) = 120 := by decide
  have s480 : (480 : Int) >>> (1 : Nat) = 240 := by decide
  have hq : ∀ r : Int, 0 < r →
      quantizeLen mintick r = max r ((2 * mintick + r) / (2 * r) * r) :=
    fun r hr => quantizeLen_eq mintick r hr
  unfold MTrack.quantize.rasterOf MTrack.quantize.div
  rw [e16, e8, e4, e2]
  by_cases h1 : mintick ≤ 30
  · simp [h1]
  · rw [if_neg h1]
    by_cases h2 : mintick ≤ 60
    · rw [if_pos h2, if_neg (by decide), s60, hq 30 (by decide)]
      have : (2 * mintick + 30) / (2 * 30) = 1 ∨ (2 * mintick + 30) / (2 * 30) = 2 := by
        omega
      rcases this with e | e <;> rw [e] <;> decide
    · rw [if_neg h2]
      by_cases h3 : mintick ≤ 120
      · rw [if_pos h3, if_neg (by decide), s120, hq 60 (by decide)]
        have : (2 * mintick + 60) / (2 * 60) = 1 ∨ (2 * mintick + 60) / (2 * 60) = 2 := by
          omega
        rcases this with e | e <;> rw [e] <;> decide
      · rw [if_neg h3]
        by_cases h4 : mintick ≤ 240
        · rw [if_pos h4, if_neg (by decide), s240, hq 120 (by decide)]
          have : (2 * mintick + 120) / (2 * 120) = 1 ∨
              (2 * mintick + 120) / (2 * 120) = 2 := by omega
          rcases this with e | e <;> rw [e] <;> decide
        · rw [if_neg h4, if_pos h, if_neg (by decide), s480, hq 240 (by decide)]
          have : (2 * mintick + 240) / (2 * 240) = 1 ∨
              (2 * mintick + 240) / (2 * 240) = 2 := by omega
          rcases this with e | e <;> rw [e] <;> decide

/-- C27: with `MScore::division` = 480, for every chord map and every interval (any
durations, an interval without chords included) the raster `MTrack::quantize` computes is
one of 30, 60, 120, 240 and 480 ticks (`division/16` ... `division`), hence positive, and
so is `div`: the rungs above `division` are never selected.  The call is defined: the
division by `raster` cannot fail. -/
theorem MTrack.quantize_raster_values (chords dst : ChordMap) (startTick endTick : Int) :
    MTrack.quantize.raster 480 chords startTick endTick ∈
      ([Int.tdiv 480 16, Int.tdiv 480 8, Int.tdiv 480 4, Int.tdiv 480 2, 480] : List Int) ∧
    0 < MTrack.quantize.raster 480 chords startTick endTick ∧
    MTrack.quantize.divOf 480 chords startTick endTick ∈
      ([Int.tdiv 480 16, Int.tdiv 480 8, Int.tdiv 480 4, Int.tdiv 480 2, 480] : List Int) ∧
    MTrack.quantize.divOf 480 chords startTick endTick ≤ 480 ∧
    ∃ out, MTrack.quantize 480 chords startTick endTick dst = some out := by
  obtain ⟨h1, h2⟩ := MTrack.quantize.rasterOf_480 _
    (MTrack.quantize.mintick_le 480 (MTrack.quantize.interval chords startTick endTick))
  have h3 : MTrack.quantize.raster 480 chords startTick endTick ∈
      ([30, 60, 120, 240, 480] : List Int) := h1
  have h4 : MTrack.quantize.divOf 480 chords startTick endTick ∈
      ([30, 60, 120, 240, 480] : List Int) := h2
  refine ⟨h3, ?_, h4, ?_, _, MTrack.quantize.eq_some 480 chords dst startTick endTick
    (by decide)⟩
  · simp only [List.mem_cons, List.mem_singleton, List.not_mem_nil, or_false] at h3
    omega
  · simp only [List.mem_cons, List.mem_singleton, List.not_mem_nil, or_false] at h4
    omega

/-! ## `MTrack::processPendingNotes`: the rest of a whole measure -/

/-- C21: in voice 0, when the rest cursor `ctick` stands at the start tick of its measure
and the gap `t - ctick` is exactly the (positive) length of that measure, the rest loop of
`processPendingNotes` adds exactly one rest to the score: a measure rest (duration type
`V_MEASURE`) at `ctick` on the track of voice 0 whose length is the measure's length; no
duration list is asked for.  The same holds for the whole call when no chord is pending. -/
theorem MTrack.processPendingNotes_measure_rest (env : Env) (fuel : Nat) (ctick t : Int)
    (measure : Measure) (score : Score) (log : List Segment)
    (hm : env.tick2measure ctick = some measure) (hstart : measure.tick = ctick)
    (hgap : t - ctick = measure.ticks) (hpos : 0 < measure.ticks) :
    MTrack.processPendingNotes.rests env (env.staffIdx * env.VOICES + 0) (fuel + 2)
        (t - ctick) ctick score =
      some { score with
        rests := score.rests ++
          [{ track := env.staffIdx * env.VOICES + 0, tick := ctick, ticks := measure.ticks,
             measureRest := true }] } ∧
    MTrack.processPendingNotes env (fuel + 2) [] 0 ctick t score log =
      some ([], { score with
        rests := score.rests ++
          [{ track := env.staffIdx * env.VOICES + 0, tick := ctick, ticks := measure.ticks,
             measureRest := true }] }, log) := by
  have h1 : MTrack.processPendingNotes.rests env (env.staffIdx * env.VOICES + 0) (fuel + 2)
        (t - ctick) ctick score =
      some { score with
        rests := score.rests ++
          [{ track := env.staffIdx * env.VOICES + 0, tick := ctick, ticks := measure.ticks,
             measureRest := true }] } := by
    rw [MTrack.processPendingNotes.rests, if_pos (by omega)]
    simp only [hm]
    rw [if_neg (by omega)]
    have hclip : MTrack.processPendingNotes.restClip measure ctick (t - ctick) =
        measure.ticks := by
      unfold MTrack.processPendingNotes.restClip
      split <;> omega
    rw [hclip, if_pos (le_refl _), MTrack.processPendingNotes.rests, if_neg (by omega)]
  refine ⟨h1, ?_⟩
  unfold MTrack.processPendingNotes
  have hl : MTrack.processPendingNotes.loop env 0 t (fuel + 2) [] ctick score log =
      some ([], ctick, score, log) := by
    rw [MTrack.processPendingNotes.loop]
    rfl
  rw [hl]
  simp only [if_true, h1, Option.map_some']

/-- Witness of C21: an empty measure of a 4/4 score, the cursor at its start 1920 and the
gap 1920 up to the end of the score. -/
theorem MTrack.processPendingNotes_measure_rest_witness :
    (env44 2).tick2measure 1920 = some { tick := 1920, ticks := 1920 } ∧
    (MTrack.processPendingNotes (env44 2) 2 [] 0 1920 3840 {} []).map
        (fun r => r.2.1.rests) =
      some [{ track := 0, tick := 1920, ticks := 1920, measureRest := true }] ∧
    MTrack.processPendingNotes.rests (env44 2) ((env44 2).staffIdx * (env44 2).VOICES + 0)
        (0 + 2) (3840 - 1920) 1920 {} =
      some { ({} : Score) with
        rests := ({} : Score).rests ++
          [{ track := (env44 2).staffIdx * (env44 2).VOICES + 0, tick := 1920,
             ticks := 1920, measureRest := true }] } :=
  ⟨by decide, by decide,
    (MTrack.processPendingNotes_measure_rest (env44 2) 0 1920 3840
      { tick := 1920, ticks := 1920 } {} [] (by decide) (by decide) (by decide)
      (by decide)).1⟩

/-! ## `Tuplet::add` -/

theorem Tuplet.add.insert_spec (de : Element) (elements : List Element) :
    (match Tuplet.add.insert de elements with
      | some l => l
      | none => elements ++ [de]) = Spec.insertByTick de elements := by
  unfold Spec.insertByTick
  induction elements with
  | nil => rfl
  | cons el rest ih =>
    unfold Tuplet.add.insert
    by_cases h : el.tick > de.tick
    · rw [if_pos h, List.takeWhile_cons_of_neg (by simpa using h),
        List.dropWhile_cons_of_neg (by simpa using h)]
      rfl
    · rw [if_neg h, List.takeWhile_cons_of_pos (by simpa using h),
        List.dropWhile_cons_of_pos (by simpa using h)]
      show _ = el :: (List.takeWhile _ rest ++ de :: List.dropWhile _ rest)
      rw [← ih]
      cases Tuplet.add.insert de rest <;> rfl

theorem Spec.insertByTick_sorted (de : Element) (elements : List Element)
    (h : elements.Pairwise (fun a b => a.tick ≤ b.tick)) :
    (Spec.insertByTick de elements).Pairwise (fun a b => a.tick ≤ b.tick) := by
  unfold Spec.insertByTick
  induction elements with
  | nil => simp
  | cons el rest ih =>
    have h1 := List.pairwise_cons.mp h
    by_cases hle : el.tick ≤ de.tick
    · rw [List.takeWhile_cons_of_pos (by simpa using hle),
        List.dropWhile_cons_of_pos (by simpa using hle), List.cons_append]
      refine List.pairwise_cons.mpr ⟨?_, ih h1.2⟩
      intro x hx
      rcases List.mem_append.mp hx with hx | hx
      · exact h1.1 x ((List.takeWhile_sublist _).subset hx)
      · rcases List.mem_cons.mp hx with rfl | hx
        · exact hle
        · exact h1.1 x ((List.dropWhile_sublist _).subset hx)
    · rw [List.takeWhile_cons_of_neg (by simpa using hle),
        List.dropWhile_cons_of_neg (by simpa using hle), List.nil_append]
      refine List.pairwise_cons.mpr ⟨?_, h⟩
      intro x hx
      rcases List.mem_cons.mp hx with rfl | hx
      · omega
      · have := h1.1 x hx
        omega

/-- C30: `Tuplet::add` of a chord, rest or nested tuplet whose tick is not -1 (in a build
with `NDEBUG`, or when the element is not yet in the tuplet) returns normally; the element,
with its tuplet pointer set, is inserted immediately before the first element of strictly
greater tick and appended when there is none; an element list sorted by non-decreasing
tick stays sorted; and the tuplet's tick is the tick of the first element of its list. -/
theorem Tuplet.add_sorted (ndebug : Bool) (self : Tuplet) (e : Element)
    (htype : e.type = ElementType.CHORD ∨ e.type = ElementType.REST ∨
      e.type = ElementType.TUPLET)
    (htick : e.tick ≠ -1)
    (hnew : ndebug = true ∨ ∀ el ∈ self._elements, el.id ≠ e.id) :
    ∃ t, Tuplet.add ndebug self e = some (t, { e with tuplet := some self.id }) ∧
      t._elements = Spec.insertByTick { e with tuplet := some self.id } self._elements ∧
      (self._elements.Pairwise (fun a b => a.tick ≤ b.tick) →
        t._elements.Pairwise (fun a b => a.tick ≤ b.tick)) ∧
      (∃ first rest, t._elements = first :: rest ∧ t._tick = first.tick) ∧
      t._number = self._number ∧ t.id = self.id := by
  have hguard : ¬ (ndebug = false ∧
      (self._elements.any (fun el => el.id == e.id)) = true) := by
    rintro ⟨h1, h2⟩
    rcases hnew with h | h
    · rw [h] at h1
      exact absurd h1 (by decide)
    · obtain ⟨el, hel, heq⟩ := List.any_eq_true.mp h2
      exact h el hel (by simpa using heq)
  have hspec := Tuplet.add.insert_spec { e with tuplet := some self.id } self._elements
  have hne : Spec.insertByTick { e with tuplet := some self.id } self._elements ≠ [] := by
    unfold Spec.insertByTick
    simp
  have hfront : ∀ l : List Element, l ≠ [] →
      ∃ first rest, l = first :: rest ∧ Tuplet.add.frontTick l = first.tick := by
    intro l hl
    cases l with
    | nil => exact absurd rfl hl
    | cons a b => exact ⟨a, b, rfl, rfl⟩
  have hbody : Tuplet.add.durationElement self e =
      ({ self with
          _elements := Spec.insertByTick { e with tuplet := some self.id } self._elements
          _tick := Tuplet.add.frontTick
            (Spec.insertByTick { e with tuplet := some self.id } self._elements) },
        { e with tuplet := some self.id }) := by
    unfold Tuplet.add.durationElement
    rw [if_pos htick, ← hspec]
    cases Tuplet.add.insert { e with tuplet := some self.id } self._elements <;> rfl
  refine ⟨{ self with
      _elements := Spec.insertByTick { e with tuplet := some self.id } self._elements
      _tick := Tuplet.add.frontTick
        (Spec.insertByTick { e with tuplet := some self.id } self._elements) },
    ?_, rfl, Spec.insertByTick_sorted _ _, hfront _ hne, rfl, rfl⟩
  unfold Tuplet.add
  rw [if_neg hguard]
  rcases htype with h | h | h <;> simp only [h, hbody]

/-- Witness of C30: a chord at tick 80 added to the tuplet with chords at 0 and 160 goes
between them. -/
theorem Tuplet.add_sorted_witness :
    (Tuplet.add false exTuplet { id := 11, type := ElementType.CHORD, tick := 80 }).map
        (fun r => (r.1._elements.map (fun el => (el.id, el.tick)), r.1._tick)) =
      some ([(10, 0), (11, 80), (12, 160)], 0) ∧
    ∃ t, Tuplet.add false exTuplet { id := 11, type := ElementType.CHORD, tick := 80 } =
        some (t, { ({ id := 11, type := ElementType.CHORD, tick := 80 } : Element) with
          tuplet := some exTuplet.id }) ∧
      t._elements = Spec.insertByTick
        { ({ id := 11, type := ElementType.CHORD, tick := 80 } : Element) with
          tuplet := some exTuplet.id } exTuplet._elements ∧
      (exTuplet._elements.Pairwise (fun a b => a.tick ≤ b.tick) →
        t._elements.Pairwise (fun a b => a.tick ≤ b.tick)) ∧
      (∃ first rest, t._elements = first :: rest ∧ t._tick = first.tick) ∧
      t._number = exTuplet._number ∧ t.id = exTuplet.id :=
  ⟨by decide,
    Tuplet.add_sorted false exTuplet { id := 11, type := ElementType.CHORD, tick := 80 }
      (Or.inl rfl) (by decide) (Or.inr (by decide))⟩

/-! ## `importMidi` -/

/-- C22: `importMidi` returns `FILE_NOT_FOUND` when the name is empty, `FILE_OPEN_ERROR`
when the file cannot be opened, `FILE_BAD_FORMAT` when `MidiFile::read` throws, and
`FILE_NO_ERROR` otherwise, after one call of `convertMidi`; in the three failure outcomes
`convertMidi` is not called and the score is the one passed in, whatever `convertMidi`
does; the four outcomes are pairwise distinct. -/
theorem importMidi_outcomes {File MidiFile : Type} (fpOpen : String → Option File)
    (read : File → Except String MidiFile) (convertMidi : Score → MidiFile → Score)
    (score : Score) (name : String) :
    (name = "" →
      importMidi fpOpen read convertMidi score name =
        (FileError.FILE_NOT_FOUND, score, [])) ∧
    (name ≠ "" → fpOpen name = none →
      importMidi fpOpen read convertMidi score name =
        (FileError.FILE_OPEN_ERROR, score, [])) ∧
    (∀ fp errorText, name ≠ "" → fpOpen name = some fp → read fp = Except.error errorText →
      importMidi fpOpen read convertMidi score name =
        (FileError.FILE_BAD_FORMAT, score, [])) ∧
    (∀ fp mf, name ≠ "" → fpOpen name = some fp → read fp = Except.ok mf →
      importMidi fpOpen read convertMidi score name =
        (FileError.FILE_NO_ERROR, convertMidi score mf, [mf])) ∧
    ((importMidi fpOpen read convertMidi score name).1 ≠ FileError.FILE_NO_ERROR →
      (importMidi fpOpen read convertMidi score name).2 = (score, [])) ∧
    FileError.FILE_NOT_FOUND ≠ FileError.FILE_OPEN_ERROR ∧
    FileError.FILE_NOT_FOUND ≠ FileError.FILE_BAD_FORMAT ∧
    FileError.FILE_OPEN_ERROR ≠ FileError.FILE_BAD_FORMAT ∧
    FileError.FILE_NO_ERROR ≠ FileError.FILE_NOT_FOUND ∧
    FileError.FILE_NO_ERROR ≠ FileError.FILE_OPEN_ERROR ∧
    FileError.FILE_NO_ERROR ≠ FileError.FILE_BAD_FORMAT := by
  refine ⟨?_, ?_, ?_, ?_, ?_, by decide, by decide, by decide, by decide, by decide,
    by decide⟩
  · intro h
    unfold importMidi
    rw [if_pos h]
  · intro h1 h2
    unfold importMidi
    rw [if_neg h1, h2]
  · intro fp errorText h1 h2 h3
    unfold importMidi
    rw [if_neg h1, h2]
    simp only [h3]
  · intro fp mf h1 h2 h3
    unfold importMidi
    rw [if_neg h1, h2]
    simp only [h3]
  · unfold importMidi
    split
    · intro _
      rfl
    · split
      · intro _
        rfl
      · split
        · intro _
          rfl
        · intro h
          exact absurd rfl h

/-- Witness of C22: the four outcomes on a file system with a MIDI file `a.mid`, a file
`b.mid` of another format and no other file; only the first import changes the score. -/
theorem importMidi_outcomes_witness :
    importMidi exOpen exRead exConvert {} "" = (FileError.FILE_NOT_FOUND, {}, []) ∧
    importMidi exOpen exRead exConvert {} "c.mid" = (FileError.FILE_OPEN_ERROR, {}, []) ∧
    importMidi exOpen exRead exConvert {} "b.mid" = (FileError.FILE_BAD_FORMAT, {}, []) ∧
    importMidi exOpen exRead exConvert {} "a.mid" =
      (FileError.FILE_NO_ERROR, exConvert {} 1, [1]) :=
  ⟨(importMidi_outcomes exOpen exRead exConvert {} "").1 rfl,
    (importMidi_outcomes exOpen exRead exConvert {} "c.mid").2.1 (by decide) (by decide),
    (importMidi_outcomes exOpen exRead exConvert {} "b.mid").2.2.1 [0]
      ("bad midifile: MThd expected") (by decide) (by decide) rfl,
    (importMidi_outcomes exOpen exRead exConvert {} "a.mid").2.2.2.1 [77, 84] 1 (by decide)
      (by decide) rfl⟩

/-! ## `MTrack::processMeta`: key signatures -/

theorem KeyList.mem_set (km : KeyList) (tick : Int) (ks : KeySigEvent)
    (h : km.Pairwise (fun a b => a.1 < b.1)) (x : Int × KeySigEvent) :
    x ∈ KeyList.set km tick ks ↔ x = (tick, ks) ∨ (x ∈ km ∧ x.1 ≠ tick) := by
  induction km with
  | nil => simp [KeyList.set]
  | cons hd tl ih =>
    obtain ⟨t1, k1⟩ := hd
    have h1 := List.pairwise_cons.mp h
    unfold KeyList.set
    by_cases hlt : tick < t1
    · rw [if_pos hlt, List.mem_cons]
      constructor
      · rintro (hx | hx)
        · exact Or.inl hx
        · refine Or.inr ⟨hx, ?_⟩
          rcases List.mem_cons.mp hx with rfl | hx2
          · exact ne_of_gt hlt
          · have := h1.1 x hx2
            show x.1 ≠ tick
            have h3 : t1 < x.1 := this
            omega
      · rintro (hx | ⟨hx, _⟩)
        · exact Or.inl hx
        · exact Or.inr hx
    · rw [if_neg hlt]
      by_cases heq : tick = t1
      · rw [if_pos heq, List.mem_cons]
        subst heq
        constructor
        · rintro (hx | hx)
          · exact Or.inl hx
          · have h3 : tick < x.1 := h1.1 x hx
            exact Or.inr ⟨List.mem_cons_of_mem _ hx, by omega⟩
        · rintro (hx | ⟨hx, hne⟩)
          · exact Or.inl hx
          · rcases List.mem_cons.mp hx with rfl | hx2
            · exact absurd rfl hne
            · exact Or.inr hx2
      · rw [if_neg heq, List.mem_cons, ih h1.2]
        constructor
        · rintro (rfl | hx | ⟨hx, hne⟩)
          · exact Or.inr ⟨List.mem_cons_self _ _, fun h0 => heq h0.symm⟩
          · exact Or.inl hx
          · exact Or.inr ⟨List.mem_cons_of_mem _ hx, hne⟩
        · rintro (hx | ⟨hx, hne⟩)
          · exact Or.inr (Or.inl hx)
          · rcases List.mem_cons.mp hx with rfl | hx2
            · exact Or.inl rfl
            · exact Or.inr (Or.inr ⟨hx2, hne⟩)

theorem KeyList.set_sorted (km : KeyList) (tick : Int) (ks : KeySigEvent)
    (h : km.Pairwise (fun a b => a.1 < b.1)) :
    (KeyList.set km tick ks).Pairwise (fun a b => a.1 < b.1) := by
  induction km with
  | nil => simp [KeyList.set]
  | cons hd tl ih =>
    obtain ⟨t1, k1⟩ := hd
    have h1 := List.pairwise_cons.mp h
    unfold KeyList.set
    by_cases hlt : tick < t1
    · rw [if_pos hlt]
      refine List.pairwise_cons.mpr ⟨?_, h⟩
      intro x hx
      rcases List.mem_cons.mp hx with rfl | hx2
      · exact hlt
      · have h3 : t1 < x.1 := h1.1 x hx2
        show tick < x.1
        omega
    · rw [if_neg hlt]
      by_cases heq : tick = t1
      · rw [if_pos heq]
        subst heq
        exact List.pairwise_cons.mpr ⟨h1.1, h1.2⟩
      · rw [if_neg heq]
        refine List.pairwise_cons.mpr ⟨?_, ih h1.2⟩
        intro x hx
        rcases (KeyList.mem_set tl tick ks h1.2 x).mp hx with rfl | ⟨hx2, _⟩
        · show t1 < tick
          omega
        · exact h1.1 x hx2

/-- C23: `MTrack::processMeta` on a key signature meta event, with a staff attached and
`key` the first payload byte read as a signed byte: when `-7 <= key <= 7` the call sets
`hasKey` and assigns the key signature `key` to the event's tick in the key map of the
staff (the map then holds that entry, keeps its order and every entry of another tick, and
gets no other entry); for any other value the call returns with the track and the key map
unchanged. -/
theorem MTrack.processMeta_key_signature (self : MTrack) (keymap : KeyList) (tick : Int)
    (mm : MidiEvent) (b : Nat) (rest : List Nat) (hstaff : self.staff ≠ none)
    (hmeta : mm.metaType = MetaType.META_KEY_SIGNATURE) (hdata : mm.edata = b :: rest)
    (hkm : keymap.Pairwise (fun x y => x.1 < y.1)) :
    (-7 ≤ MTrack.processMeta.toChar b ∧ MTrack.processMeta.toChar b ≤ 7 →
      MTrack.processMeta self keymap tick mm =
        some ({ self with hasKey := true },
          KeyList.set keymap tick { accidentalType := MTrack.processMeta.toChar b })) ∧
    (MTrack.processMeta.toChar b < -7 ∨ 7 < MTrack.processMeta.toChar b →
      MTrack.processMeta self keymap tick mm = some (self, keymap)) ∧
    (∀ x, x ∈ KeyList.set keymap tick { accidentalType := MTrack.processMeta.toChar b } ↔
      x = (tick, { accidentalType := MTrack.processMeta.toChar b }) ∨
        (x ∈ keymap ∧ x.1 ≠ tick)) ∧
    (KeyList.set keymap tick { accidentalType := MTrack.processMeta.toChar b }).Pairwise
      (fun x y => x.1 < y.1) ∧
    -128 ≤ MTrack.processMeta.toChar b ∧ MTrack.processMeta.toChar b ≤ 127 ∧
    (MTrack.processMeta.toChar b - (b : Int)) % 256 = 0 := by
  have hbody : MTrack.processMeta self keymap tick mm =
      if MTrack.processMeta.toChar b < -7 ∨ MTrack.processMeta.toChar b > 7 then
        some (self, keymap)
      else
        some ({ self with hasKey := true },
          KeyList.set keymap tick { accidentalType := MTrack.processMeta.toChar b }) := by
    unfold MTrack.processMeta
    cases hs : self.staff with
    | none => exact absurd hs hstaff
    | some st => simp only [hmeta, hdata]
  refine ⟨?_, ?_, KeyList.mem_set keymap tick _ hkm, KeyList.set_sorted keymap tick _ hkm,
    ?_, ?_, ?_⟩
  · intro h
    rw [hbody, if_neg (by omega)]
  · intro h
    rw [hbody, if_pos (by omega)]
  · unfold MTrack.processMeta.toChar
    split <;> omega
  · unfold MTrack.processMeta.toChar
    split <;> omega
  · unfold MTrack.processMeta.toChar
    split <;> omega

/-- Witness of C23: the byte 253 is the key -3 (three flats) and is stored at tick 1920
with `hasKey` set; the byte 9 is no key and changes nothing. -/
theorem MTrack.processMeta_key_signature_witness :
    MTrack.processMeta.toChar 253 = -3 ∧
    MTrack.processMeta exTrack [(0, { accidentalType := 2 })] 1920 (mkKeySig 253) =
      some ({ exTrack with hasKey := true },
        [(0, { accidentalType := 2 }), (1920, { accidentalType := -3 })]) ∧
    MTrack.processMeta exTrack [(0, { accidentalType := 2 })] 1920 (mkKeySig 9) =
      some (exTrack, [(0, { accidentalType := 2 })]) :=
  ⟨by decide,
    (MTrack.processMeta_key_signature exTrack [(0, { accidentalType := 2 })] 1920
      (mkKeySig 253) 253 [0] (by decide) rfl rfl (by decide)).1 (by decide),
    (MTrack.processMeta_key_signature exTrack [(0, { accidentalType := 2 })] 1920
      (mkKeySig 9) 9 [0] (by decide) rfl rfl (by decide)).2.1 (by decide)⟩

/-! ## `MTrack::convertTrack`: the key signatures -/

theorem MTrack.convertTrack.keySigLoop_eq (env : Env) (km : KeyList) (added : List KeySig)
    (hm : ∀ x ∈ km, env.tick2measure x.1 ≠ none) :
    MTrack.convertTrack.keySigLoop env km added =
      some (added ++ km.map (fun x =>
        { track := env.staffIdx * env.VOICES, tick := x.1, keySigEvent := x.2 })) := by
  induction km generalizing added with
  | nil => simp [MTrack.convertTrack.keySigLoop]
  | cons hd tl ih =>
    obtain ⟨tick, key⟩ := hd
    unfold MTrack.convertTrack.keySigLoop
    cases h : env.tick2measure tick with
    | none => exact absurd h (hm (tick, key) (List.mem_cons_self _ _))
    | some m =>
      simp only
      rw [ih _ (fun x hx => hm x (List.mem_cons_of_mem _ hx))]
      simp

theorem Spec.keyChanges_of_chain (prev : Option KeySigEvent) (km : KeyList)
    (h0 : ∀ x, km.head? = some x → prev ≠ some x.2)
    (h : List.Chain' (fun a b => a.2 ≠ b.2) km) :
    Spec.keyChanges prev km = km := by
  induction km generalizing prev with
  | nil => rfl
  | cons hd tl ih =>
    obtain ⟨tick, key⟩ := hd
    unfold Spec.keyChanges
    rw [if_neg (h0 (tick, key) rfl)]
    rw [ih (some key) ?_ (List.Chain'.tail h)]
    intro x hx
    cases tl with
    | nil => simp at hx
    | cons y ys =>
      simp only [List.head?_cons, Option.some.injEq] at hx
      subst hx
      have := (List.chain'_cons.mp h).1
      intro heq
      exact this (Option.some.inj heq)

/-- C24, counterexample: for a track with `hasKey` set whose key map holds the key of two
sharps at tick 0 and again at tick 1920, `convertTrack` adds a `KeySig` at tick 0 and a
`KeySig` at tick 1920, although the key at 1920 repeats the key in force; the ticks where
the key differs from the key in force before are the tick 0 only. -/
theorem MTrack.convertTrack_repeated_key_counterexample :
    (MTrack.convertTrack.keySigs (env44 2) { exTrack with hasKey := true } false
        exKeyMap).map (fun r => r.2.map (fun ks => (ks.tick, ks.keySigEvent))) =
      some [(0, { accidentalType := 2 }), (1920, { accidentalType := 2 })] ∧
    Spec.keyChanges none exKeyMap = [(0, { accidentalType := 2 })] ∧
    ¬ (MTrack.convertTrack.keySigs (env44 2) { exTrack with hasKey := true } false
        exKeyMap).map (fun r => r.2.map (fun ks => (ks.tick, ks.keySigEvent))) =
      some (Spec.keyChanges none exKeyMap) := by
  decide

/-- C24, amended: when every tick of the key map lies in a measure, `convertTrack` adds one
`KeySig` per entry of the key map of the staff, in the order of the ticks, on the track of
voice 0, at the entry's tick and with the entry's key, whether or not the key repeats the
preceding entry's key; the key map is the one passed in, with the key 0 assigned to tick 0
first when no key signature has been seen and the track is no drum track.  When no entry
repeats the key of the entry before it, these are exactly the ticks where the key
changes. -/
theorem MTrack.convertTrack_key_signatures (env : Env) (self : MTrack) (drumTrack : Bool)
    (km : KeyList)
    (hm : ∀ x ∈ (if self.hasKey = false ∧ drumTrack = false then
        KeyList.set km 0 { accidentalType := 0 } else km), env.tick2measure x.1 ≠ none) :
    MTrack.convertTrack.keySigs env self drumTrack km =
      some (if self.hasKey = false ∧ drumTrack = false then
          KeyList.set km 0 { accidentalType := 0 } else km,
        (if self.hasKey = false ∧ drumTrack = false then
          KeyList.set km 0 { accidentalType := 0 } else km).map (fun x =>
          { track := env.staffIdx * env.VOICES, tick := x.1, keySigEvent := x.2 })) ∧
    (List.Chain' (fun a b => a.2 ≠ b.2)
        (if self.hasKey = false ∧ drumTrack = false then
          KeyList.set km 0 { accidentalType := 0 } else km) →
      (MTrack.convertTrack.keySigs env self drumTrack km).map
          (fun r => r.2.map (fun ks => (ks.tick, ks.keySigEvent))) =
        some (Spec.keyChanges none
          (if self.hasKey = false ∧ drumTrack = false then
            KeyList.set km 0 { accidentalType := 0 } else km))) := by
  generalize hkm : (if self.hasKey = false ∧ drumTrack = false then
      KeyList.set km 0 { accidentalType := 0 } else km) = km1 at hm
  have h1 : MTrack.convertTrack.keySigs env self drumTrack km =
      some (km1, km1.map (fun x =>
        { track := env.staffIdx * env.VOICES, tick := x.1, keySigEvent := x.2 })) := by
    unfold MTrack.convertTrack.keySigs
    rw [hkm, MTrack.convertTrack.keySigLoop_eq env km1 [] hm]
    rfl
  refine ⟨h1, ?_⟩
  intro hc
  rw [h1, Spec.keyChanges_of_chain none km1 (fun x _ h => by cases h) hc]
  simp only [Option.map_some', List.map_map]
  congr 1
  have hid : ∀ l : KeyList,
      l.map ((fun ks : KeySig => (ks.tick, ks.keySigEvent)) ∘ fun x =>
        ({ track := env.staffIdx * env.VOICES, tick := x.1, keySigEvent := x.2 } : KeySig))
        = l := by
    intro l
    induction l with
    | nil => rfl
    | cons a t ih =>
      rw [List.map_cons, ih]
      rfl
  exact hid km1

/-- Witness of the amended C24: a track without key signature events and with an empty key
map gets the key 0 at tick 0 and one `KeySig` there. -/
theorem MTrack.convertTrack_key_signatures_witness :
    MTrack.convertTrack.keySigs (env44 2) exTrack false [] =
      some ([(0, { accidentalType := 0 })],
        [{ track := 0, tick := 0, keySigEvent := { accidentalType := 0 } }]) ∧
    MTrack.convertTrack.keySigs (env44 2) exTrack false [] =
      some (if exTrack.hasKey = false ∧ false = false then
          KeyList.set [] 0 { accidentalType := 0 } else [],
        (if exTrack.hasKey = false ∧ false = false then
          KeyList.set [] 0 { accidentalType := 0 } else []).map (fun x =>
          { track := (env44 2).staffIdx * (env44 2).VOICES, tick := x.1,
            keySigEvent := x.2 })) :=
  ⟨by decide,
    (MTrack.convertTrack_key_signatures (env44 2) exTrack false [] (by decide)).1⟩

/-! ## `createMTrackList`: the change of resolution -/

theorem createMTrackList.tdiv_eq (x m : Int) (hx : 0 ≤ x) (hm : 0 < m) :
    Int.tdiv (x + Int.tdiv m 2) m = (2 * x + m) / (2 * m) := by
  have h1 : Int.tdiv m 2 = m >>> (1 : Nat) := by
    rw [Int.shiftRight_eq_div_pow, Int.tdiv_eq_ediv (by omega) (by omega)]
    norm_num
  rw [h1]
  exact MTrack.quantize.tdiv_half_eq x m hx hm

theorem createMTrackList.toDivision_eq (D m r : Int) (hr : 0 ≤ r) (hm : 0 < m)
    (hD : 0 ≤ D) (hov : r * D + Int.tdiv m 2 ≤ 2147483647) :
    createMTrackList.toDivision D m r = some (Spec.toDivision D m r) ∧
      Spec.toDivision D m r = (2 * (r * D) + m) / (2 * m) := by
  have hx : 0 ≤ r * D := mul_nonneg hr hD
  have hh : 0 ≤ Int.tdiv m 2 := by
    rw [Int.tdiv_eq_ediv (by omega) (by omega)]
    omega
  have e2 : Spec.toDivision D m r = (2 * (r * D) + m) / (2 * m) := by
    unfold Spec.toDivision
    exact Spec.round_div_eq (r * D) m hm
  refine ⟨?_, e2⟩
  unfold createMTrackList.toDivision
  rw [if_neg (by omega), if_neg (by omega), if_neg (by omega),
    createMTrackList.tdiv_eq _ _ hx hm, e2]

/-- C25: for a raw tick or length `r >= 0`, a file resolution `m > 0` and the internal
resolution `D >= 0`, when `r * D + m/2` stays in the range of `int`, the expression of
`createMTrackList` is defined and is the integer nearest to `r * D / m`: it is
`round(r * D / m)`, no integer is nearer to the quotient, and it is within half a unit of
it.  The conversion is monotone in `r` and the identity when `m = D`.  For a note event
`createMTrackList` inserts the chord under the converted tick, with the converted tick as
`onTime` of chord and note and the converted length as `duration` and `len`. -/
theorem createMTrackList_tick_conversion (D m r : Int) (hr : 0 ≤ r) (hm : 0 < m)
    (hD : 0 ≤ D) (hov : r * D + Int.tdiv m 2 ≤ 2147483647) :
    createMTrackList.toDivision D m r =
      some (Int.tdiv (r * D + Int.tdiv m 2) m) ∧
    createMTrackList.toDivision D m r = some (Spec.toDivision D m r) ∧
    (∀ z : Int, |Spec.toDivision D m r * m - r * D| ≤ |z * m - r * D|) ∧
    2 * |Spec.toDivision D m r * m - r * D| ≤ m ∧
    (∀ r2, r ≤ r2 → Spec.toDivision D m r ≤ Spec.toDivision D m r2) ∧
    (m = D → Spec.toDivision D m r = r) ∧
    (∀ (st : createMTrackList.State) (i : Int × MidiEvent), i.1 = r →
      i.2.type = MidiEventType.ME_NOTE → 0 ≤ i.2.len →
      i.2.len * D + Int.tdiv m 2 ≤ 2147483647 →
      ∃ st1, createMTrackList.event D m st i = some st1 ∧
        st1.track.chords = ChordMap.insert st.track.chords (Spec.toDivision D m r)
          { onTime := Spec.toDivision D m r, duration := Spec.toDivision D m i.2.len,
            notes := [{ pitch := i.2.pitch, velo := i.2.velo,
                        onTime := Spec.toDivision D m r,
                        len := Spec.toDivision D m i.2.len }] }) := by
  obtain ⟨e1, e2⟩ := createMTrackList.toDivision_eq D m r hr hm hD hov
  have hx : 0 ≤ r * D := mul_nonneg hr hD
  refine ⟨?_, e1, ?_, ?_, ?_, ?_, ?_⟩
  · rw [e1, e2, createMTrackList.tdiv_eq _ _ hx hm]
  · intro z
    rw [e2]
    exact (MTrack.quantize.nearest_multiple (r * D) m (z * m) hm (Dvd.intro_left _ rfl)).1
  · rw [e2]
    obtain ⟨b1, b2⟩ := MTrack.quantize.nearest_bounds (r * D) m hm
    rcases abs_cases ((2 * (r * D) + m) / (2 * m) * m - r * D) with ⟨a1, _⟩ | ⟨a1, _⟩ <;>
      rw [a1] <;> omega
  · intro r2 hr2
    have e3 : Spec.toDivision D m r2 = (2 * (r2 * D) + m) / (2 * m) := by
      unfold Spec.toDivision
      exact Spec.round_div_eq (r2 * D) m hm
    rw [e2, e3]
    have : r * D ≤ r2 * D := mul_le_mul_of_nonneg_right hr2 hD
    exact Int.ediv_le_ediv (by omega) (by omega)
  · intro hmD
    subst hmD
    rw [e2]
    have h1 : 2 * (r * m) + m = m * (2 * r + 1) := by ring
    have h2 : 2 * m = m * 2 := by ring
    rw [h1, h2, Int.mul_ediv_mul_of_pos _ _ hm]
    omega
  · intro st i hi htype hlen hov2
    obtain ⟨e3, _⟩ := createMTrackList.toDivision_eq D m i.2.len hlen hm hD hov2
    have hev : createMTrackList.event D m st i =
        some { st with
          events := st.events + 1
          track := { st.track with
            maxPitch := max i.2.pitch st.track.maxPitch
            minPitch := min i.2.pitch st.track.minPitch
            medPitch := st.track.medPitch + i.2.pitch
            chords := ChordMap.insert st.track.chords (Spec.toDivision D m r)
              { onTime := Spec.toDivision D m r, duration := Spec.toDivision D m i.2.len,
                notes := [{ pitch := i.2.pitch, velo := i.2.velo,
                            onTime := Spec.toDivision D m r,
                            len := Spec.toDivision D m i.2.len }] } }
          lastTick := max (max st.lastTick
            (Spec.toDivision D m r + Spec.toDivision D m i.2.len))
            (Spec.toDivision D m r) } := by
      unfold createMTrackList.event
      rw [hi, e1]
      simp only [htype]
      rw [if_neg (by simp), if_pos trivial, e3]
    exact ⟨_, hev, rfl⟩

/-- Witness of C25: from 96 to 480 ticks per quarter the raw tick 100 becomes 500; from 480
to 96 the raw tick 37 becomes 7 (37 * 96 / 480 = 7.4). -/
theorem createMTrackList_tick_conversion_witness :
    createMTrackList.toDivision 480 96 100 = some 500 ∧
    createMTrackList.toDivision 96 480 37 = some 7 ∧
    (createMTrackList 480 96 [] 0 [] [exMidiTrack]).map
        (fun r => (r.1, r.2.1.map (fun t => t.chords))) =
      some (685, [[(500, mkChord 60 500 185)]]) ∧
    createMTrackList.toDivision 96 480 37 = some (Int.tdiv (37 * 96 + Int.tdiv 480 2) 480) :=
  ⟨by decide, by decide, by decide,
    (createMTrackList_tick_conversion 96 480 37 (by decide) (by decide) (by decide)
      (by decide)).1⟩

/-! ## `MTrack::findChords`: the notes are conserved -/

theorem MTrack.findChords.absorb_notes (drumset : Option Drumset) (useDrumset : Bool)
    (voice jitter ontime offtime : Int) (rest : ChordMap)
    (hsingle : ∀ x ∈ rest, x.2.notes.length = 1) :
    ((MTrack.findChords.absorb drumset useDrumset voice jitter ontime offtime rest).1 ++
        Spec.allNotes
          (MTrack.findChords.absorb drumset useDrumset voice jitter ontime offtime rest).2).Perm
      (Spec.allNotes rest) ∧
    (MTrack.findChords.absorb drumset useDrumset voice jitter ontime offtime rest).1.length +
      (MTrack.findChords.absorb drumset useDrumset voice jitter ontime offtime rest).2.length =
      rest.length := by
  induction rest with
  | nil => exact ⟨List.Perm.refl _, rfl⟩
  | cons hd tl ih =>
    obtain ⟨k, ck⟩ := hd
    obtain ⟨ih1, ih2⟩ := ih (fun x hx => hsingle x (List.mem_cons_of_mem _ hx))
    obtain ⟨mn, hmn⟩ := List.length_eq_one.mp (hsingle (k, ck) (List.mem_cons_self _ _))
    have hmn2 : ck.notes = [mn] := hmn
    have h0 : ck.notes0 = mn := by
      unfold MidiChord.notes0
      rw [hmn2]
      rfl
    have hall : ∀ l : ChordMap, Spec.allNotes ((k, ck) :: l) = mn :: Spec.allNotes l := by
      intro l
      unfold Spec.allNotes
      rw [List.map_cons, List.flatten_cons, hmn2]
      rfl
    rw [MTrack.findChords.absorb]
    by_cases hbr : k - jitter > ontime
    · rw [if_pos hbr]
      exact ⟨List.Perm.refl _, by simp⟩
    · rw [if_neg hbr]
      by_cases hfar : qAbs (k - ontime) > jitter ∨ qAbs (k + ck.duration - offtime) > jitter
      · rw [if_pos hfar]
        refine ⟨?_, by simp only [List.length_cons]; omega⟩
        rw [hall, hall]
        exact (List.perm_middle).trans (List.Perm.cons _ ih1)
      · rw [if_neg hfar]
        by_cases hv : MTrack.findChords.sameVoice drumset useDrumset voice ck.notes0.pitch
            = true
        · rw [if_pos hv]
          refine ⟨?_, by simp only [List.length_cons]; omega⟩
          rw [hall, h0]
          exact List.Perm.cons _ ih1
        · rw [if_neg hv]
          refine ⟨?_, by simp only [List.length_cons]; omega⟩
          rw [hall, hall]
          exact (List.perm_middle).trans (List.Perm.cons _ ih1)

theorem MTrack.findChords.loop_notes (drumset : Option Drumset) (n : Nat)
    (chords : ChordMap) (hn : chords.length ≤ n)
    (hsingle : ∀ x ∈ chords, x.2.notes.length = 1) :
    (Spec.allNotes (MTrack.findChords.loop drumset n chords)).Perm (Spec.allNotes chords) ∧
    ((MTrack.findChords.loop drumset n chords).map
        (fun y => (y.1, y.2.notes0, y.2.onTime, y.2.duration))).Sublist
      (chords.map (fun x => (x.1, x.2.notes0, x.2.onTime, x.2.duration))) ∧
    (MTrack.findChords.loop drumset n chords).length +
      Spec.merges (MTrack.findChords.loop drumset n chords) = chords.length := by
  induction n generalizing chords with
  | zero =>
    have hl : chords = [] := List.length_eq_zero.mp (by omega)
    subst hl
    exact ⟨List.Perm.refl _, List.Sublist.refl _, rfl⟩
  | succ n ih =>
    cases chords with
    | nil => exact ⟨List.Perm.refl _, List.Sublist.refl _, rfl⟩
    | cons hd rest =>
      obtain ⟨k, e⟩ := hd
      rw [MTrack.findChords.loop_cons]
      obtain ⟨S, s1, s2, s3, s4, s5⟩ := MTrack.findChords.absorb_split drumset
        (MTrack.findChords.useDrumset drumset e) (MTrack.findChords.anchor drumset e).voice
        3 k (k + e.duration) rest
      have hlen := MTrack.findChords.absorb_length drumset
        (MTrack.findChords.useDrumset drumset e)
        (MTrack.findChords.anchor drumset e).voice 3 k (k + e.duration) rest
      obtain ⟨a1, a2⟩ := MTrack.findChords.absorb_notes drumset
        (MTrack.findChords.useDrumset drumset e) (MTrack.findChords.anchor drumset e).voice
        3 k (k + e.duration) rest (fun x hx => hsingle x (List.mem_cons_of_mem _ hx))
      obtain ⟨i1, i2, i3⟩ := ih
        (MTrack.findChords.absorb drumset (MTrack.findChords.useDrumset drumset e)
          (MTrack.findChords.anchor drumset e).voice 3 k (k + e.duration) rest).2
        (by simp only [List.length_cons] at hn; omega)
        (fun x hx => hsingle x (List.mem_cons_of_mem _ (s4.subset hx)))
      obtain ⟨mn, hmn⟩ := List.length_eq_one.mp (hsingle (k, e) (List.mem_cons_self _ _))
      have hmn2 : e.notes = [mn] := hmn
      have hanchor : (MTrack.findChords.anchor drumset e).onTime = e.onTime ∧
          (MTrack.findChords.anchor drumset e).duration = e.duration := by
        unfold MTrack.findChords.anchor
        cases drumset with
        | none => exact ⟨rfl, rfl⟩
        | some d =>
          simp only
          split <;> exact ⟨rfl, rfl⟩
      generalize MTrack.findChords.absorb drumset (MTrack.findChords.useDrumset drumset e)
          (MTrack.findChords.anchor drumset e).voice 3 k (k + e.duration) rest = ab
        at s2 s4 s5 hlen a1 a2 i1 i2 i3
      refine ⟨?_, ?_, ?_⟩
      · show ((e.notes ++ ab.1) ++ Spec.allNotes _).Perm (e.notes ++ Spec.allNotes rest)
        rw [List.append_assoc]
        exact List.Perm.append_left _
          ((List.Perm.append_left _ i1).trans a1)
      · show ((k, (e.notes ++ ab.1).headD _, (MTrack.findChords.anchor drumset e).onTime,
            (MTrack.findChords.anchor drumset e).duration) :: _).Sublist
          ((k, e.notes.headD _, e.onTime, e.duration) :: _)
        rw [hanchor.1, hanchor.2, hmn2]
        exact List.Sublist.cons₂ _ (i2.trans (List.Sublist.map _ s4))
      · show (_ + 1) + ((e.notes ++ ab.1).length - 1 + Spec.merges _) = rest.length + 1
        have : (e.notes ++ ab.1).length - 1 = ab.1.length := by
          rw [List.length_append, hmn2]
          simp
        rw [this]
        omega

/-- C29: if every chord of the track holds exactly one note on entry, then after
`MTrack::findChords` the notes of all chords are a rearrangement of the notes before (each
`MidiNote` as often as before), the chords that are left are chords of the input in their
order, each with its key, `onTime`, `duration` and first note unchanged, and the number of
chords has gone down by the number of merges: chords left plus notes appended make the
chords there were. -/
theorem MTrack.findChords_conserves_notes (drumset : Option Drumset) (chords : ChordMap)
    (hsingle : ∀ x ∈ chords, x.2.notes.length = 1) :
    (Spec.allNotes (MTrack.findChords drumset chords)).Perm (Spec.allNotes chords) ∧
    ((MTrack.findChords drumset chords).map
        (fun y => (y.1, y.2.notes0, y.2.onTime, y.2.duration))).Sublist
      (chords.map (fun x => (x.1, x.2.notes0, x.2.onTime, x.2.duration))) ∧
    (MTrack.findChords drumset chords).length + Spec.merges (MTrack.findChords drumset chords)
      = chords.length :=
  MTrack.findChords.loop_notes drumset chords.length chords (le_refl _) hsingle

/-- Witness of C29: of the four events of `exJitter` the second is merged into the first;
three chords are left, with the four notes. -/
theorem MTrack.findChords_conserves_notes_witness :
    (MTrack.findChords none exJitter).length = 3 ∧
    Spec.merges (MTrack.findChords none exJitter) = 1 ∧
    (Spec.allNotes (MTrack.findChords none exJitter)).Perm (Spec.allNotes exJitter) :=
  ⟨by decide, by decide,
    (MTrack.findChords_conserves_notes none exJitter (by decide)).1⟩

/-! ## `MTrack::cleanup`: the chords are conserved -/

theorem MTrack.quantize.interval_eq_filter (chords : ChordMap) (startTick endTick : Int)
    (hs : chords.Ordered) :
    MTrack.quantize.interval chords startTick endTick =
      chords.filter (fun x => decide (startTick ≤ x.1 ∧ x.1 < endTick)) := by
  unfold MTrack.quantize.interval
  induction chords with
  | nil => rfl
  | cons hd tl ih =>
    have hs1 := List.pairwise_cons.mp hs
    have ih1 := ih hs1.2
    by_cases h1 : hd.1 < startTick
    · rw [List.dropWhile_cons_of_pos (by simpa using h1), ih1,
        List.filter_cons_of_neg (by simp only [decide_eq_true_eq]; omega)]
    · rw [List.dropWhile_cons_of_neg (by simpa using h1)]
      have hdrop : tl.dropWhile (fun e => decide (e.1 < startTick)) = tl := by
        rw [List.dropWhile_eq_self_iff]
        intro hl
        have := hs1.1 _ (List.get_mem tl 0 hl)
        simp only [decide_eq_true_eq]
        omega
      rw [hdrop] at ih1
      by_cases h2 : hd.1 < endTick
      · rw [List.takeWhile_cons_of_pos (by simpa using h2), ih1,
          List.filter_cons_of_pos (by simp only [decide_eq_true_eq]; omega)]
      · rw [List.takeWhile_cons_of_neg (by simpa using h2),
          List.filter_cons_of_neg (by simp only [decide_eq_true_eq]; omega)]
        symm
        rw [List.filter_eq_nil_iff]
        intro x hx
        have := hs1.1 x hx
        simp only [decide_eq_true_eq]
        omega

theorem MTrack.quantize.kept (division : Int) (chords dst out : ChordMap)
    (startTick endTick : Int) (hord : chords.Ordered)
    (h : MTrack.quantize division chords startTick endTick dst = some out) :
    (out.map Spec.kept).Perm (dst.map Spec.kept ++
      (chords.filter (fun x => decide (startTick ≤ x.1 ∧ x.1 < endTick))).map Spec.kept) := by
  unfold MTrack.quantize at h
  simp only at h
  split at h
  · exact absurd h (by simp)
  · cases h
    rw [MTrack.quantize.interval_eq_filter chords startTick endTick hord]
    generalize MTrack.quantize.raster division chords startTick endTick = r
    generalize chords.filter (fun x => decide (startTick ≤ x.1 ∧ x.1 < endTick)) = sel
    induction sel generalizing dst with
    | nil => simp
    | cons hd tl ih =>
      rw [List.foldl_cons]
      refine (ih _).trans ?_
      have h1 := (ChordMap.insert_perm dst (MTrack.quantize.snap r hd.2).onTime
        (MTrack.quantize.snap r hd.2)).map Spec.kept
      refine (h1.append_right _).trans ?_
      rw [List.map_cons, List.map_cons, List.cons_append]
      exact List.perm_middle.symm

theorem MTrack.cleanup.filter_split (chords : ChordMap) (s e : Int) (hse : s ≤ e) :
    (chords.filter (fun x => decide (s ≤ x.1 ∧ x.1 < e)) ++
      chords.filter (fun x => decide (e ≤ x.1))).Perm
      (chords.filter (fun x => decide (s ≤ x.1))) := by
  induction chords with
  | nil => exact List.Perm.refl _
  | cons hd tl ih =>
    by_cases h1 : s ≤ hd.1
    · by_cases h2 : hd.1 < e
      · rw [List.filter_cons_of_pos (by simp only [decide_eq_true_eq]; omega),
          List.filter_cons_of_neg (by simp only [decide_eq_true_eq]; omega),
          List.filter_cons_of_pos (by simpa using h1)]
        exact List.Perm.cons _ ih
      · rw [List.filter_cons_of_neg (by simp only [decide_eq_true_eq]; omega),
          List.filter_cons_of_pos (by simp only [decide_eq_true_eq]; omega),
          List.filter_cons_of_pos (by simpa using h1)]
        exact List.perm_middle.trans (List.Perm.cons _ ih)
    · rw [List.filter_cons_of_neg (by simp only [decide_eq_true_eq]; omega),
        List.filter_cons_of_neg (by simp only [decide_eq_true_eq]; omega),
        List.filter_cons_of_neg (by simpa using h1)]
      exact ih

theorem MTrack.cleanup.measures_kept (division : Int) (chords : ChordMap)
    (bar2tick : Nat → Int) (lastTick : Int) (hord : chords.Ordered)
    (hkeys : ∀ x ∈ chords, x.1 ≤ lastTick)
    (hbar : ∀ i, 1 ≤ i → bar2tick i < bar2tick (i + 1))
    (fuel i : Nat) (startTick : Int) (dl out : ChordMap) (hi : 1 ≤ i)
    (hstart : startTick ≤ bar2tick i)
    (h : MTrack.cleanup.measures division chords bar2tick lastTick fuel i startTick dl =
      some out) :
    (out.map Spec.kept).Perm (dl.map Spec.kept ++
      (chords.filter (fun x => decide (startTick ≤ x.1))).map Spec.kept) := by
  induction fuel generalizing i startTick dl with
  | zero => exact absurd h (by simp [MTrack.cleanup.measures])
  | succ n ih =>
    unfold MTrack.cleanup.measures at h
    split at h
    · exact absurd h (by simp)
    · rename_i dl1 hq
      have h1 := MTrack.quantize.kept division chords dl dl1 startTick (bar2tick i) hord hq
      split at h
      · rename_i hlast
        cases h
        have hf : chords.filter (fun x => decide (startTick ≤ x.1 ∧ x.1 < bar2tick i)) =
            chords.filter (fun x => decide (startTick ≤ x.1)) := by
          apply List.filter_congr
          intro x hx
          have := hkeys x hx
          simp only [decide_eq_decide]
          constructor
          · exact fun h2 => h2.1
          · exact fun h2 => ⟨h2, by omega⟩
        rw [hf] at h1
        exact h1
      · have h2 := ih (i + 1) (bar2tick i) dl1 (by omega) (le_of_lt (hbar i hi)) h
        refine h2.trans ((h1.append_right _).trans ?_)
        rw [List.append_assoc, ← List.map_append]
        exact List.Perm.append_left _
          ((MTrack.cleanup.filter_split chords startTick (bar2tick i) hstart).map _)

theorem MTrack.cleanup.overlaps_frame (dl : ChordMap) :
    (MTrack.cleanup.overlaps dl).map (fun x => (x.1, x.2.onTime, x.2.notes, x.2.voice)) =
      dl.map (fun x => (x.1, x.2.onTime, x.2.notes, x.2.voice)) := by
  induction dl with
  | nil => rfl
  | cons hd tl ih =>
    obtain ⟨k, e⟩ := hd
    obtain ⟨f1, f2, f3⟩ := MTrack.cleanup.scan_frame e tl
    show (k, (MTrack.cleanup.scan e tl).onTime, (MTrack.cleanup.scan e tl).notes,
      (MTrack.cleanup.scan e tl).voice) :: (MTrack.cleanup.overlaps tl).map _ = _
    rw [ih, f1, f2, f3]
    rfl

theorem MTrack.cleanup.bar_ge (bar2tick : Nat → Int) (hbar0 : 0 < bar2tick 1)
    (hbar : ∀ i, 1 ≤ i → bar2tick i < bar2tick (i + 1)) (n : Nat) :
    (n : Int) < bar2tick (1 + n) := by
  induction n with
  | zero => simpa using hbar0
  | succ k ih =>
    have := hbar (1 + k) (by omega)
    rw [show 1 + (k + 1) = 1 + k + 1 by omega]
    push_cast
    omega

/-- C28: for an ordered chord map whose keys lie in `[0, lastTick]`, bar starts
`bar2tick(i, 0)` that increase strictly from a positive `bar2tick(1, 0)` on, and
`MScore::division` at least 16, the measure loop of `MTrack::cleanup` ends and the call
returns; the chord map it leaves has as many entries as the map before, every entry is
keyed by its chord's `onTime`, and the chords' notes lists and voices are those of the
chords before, each as often as before. -/
theorem MTrack.cleanup_conserves_chords (division : Int) (chords : ChordMap)
    (bar2tick : Nat → Int) (lastTick : Int) (hdiv : 16 ≤ division) (hord : chords.Ordered)
    (hkeys : ∀ x ∈ chords, 0 ≤ x.1 ∧ x.1 ≤ lastTick) (hbar0 : 0 < bar2tick 1)
    (hbar : ∀ i, 1 ≤ i → bar2tick i < bar2tick (i + 1)) :
    (∃ out, MTrack.cleanup division chords bar2tick lastTick (lastTick.toNat + 1) =
      some out) ∧
    ∀ fuel out, MTrack.cleanup division chords bar2tick lastTick fuel = some out →
      out.length = chords.length ∧ out.Keyed ∧
        (out.map Spec.kept).Perm (chords.map Spec.kept) := by
  constructor
  · have hb := MTrack.cleanup.bar_ge bar2tick hbar0 hbar lastTick.toNat
    obtain ⟨dl, h⟩ := MTrack.cleanup.measures_some division chords bar2tick lastTick hdiv
      lastTick.toNat 1 0 [] (by have := Int.self_le_toNat lastTick; omega)
    exact ⟨MTrack.cleanup.overlaps dl, by unfold MTrack.cleanup; rw [h]; rfl⟩
  · intro fuel out h
    unfold MTrack.cleanup at h
    obtain ⟨dl, h1, rfl⟩ := Option.map_eq_some'.mp h
    obtain ⟨h2, h3⟩ := MTrack.cleanup.measures_invariant division chords bar2tick lastTick
      fuel 1 0 [] dl List.Pairwise.nil (fun x hx => absurd hx (List.not_mem_nil _)) h1
    have h4 := MTrack.cleanup.measures_kept division chords bar2tick lastTick hord
      (fun x hx => (hkeys x hx).2) hbar fuel 1 0 [] dl (le_refl _) (le_of_lt hbar0) h1
    have hf : chords.filter (fun x => decide ((0 : Int) ≤ x.1)) = chords :=
      List.filter_eq_self.mpr (fun x hx => by simpa using (hkeys x hx).1)
    rw [hf, List.map_nil, List.nil_append] at h4
    have hframe := MTrack.cleanup.overlaps_frame dl
    have hk : (MTrack.cleanup.overlaps dl).map Spec.kept = dl.map Spec.kept := by
      have := congrArg (List.map (fun y : Int × Int × List MidiNote × Int => y.2.2)) hframe
      simpa [List.map_map, Function.comp, Spec.kept] using this
    have hp : ((MTrack.cleanup.overlaps dl).map Spec.kept).Perm (chords.map Spec.kept) := by
      rw [hk]
      exact h4
    refine ⟨?_, ?_, hp⟩
    · have := hp.length_eq
      simpa using this
    · intro x hx
      obtain ⟨b, hb, e1, e2, _⟩ := MTrack.cleanup.mem_overlaps dl x hx
      rw [e1, e2]
      exact h3 b hb

/-- Witness of C28: a track of three notes over two 4/4 measures keeps its three chords,
their notes and voices; onsets and durations move to the raster of their measure. -/
theorem MTrack.cleanup_conserves_chords_witness :
    (MTrack.cleanup 480 exRawTrack bar44 3000 3).map
        (fun out => out.map (fun x => (x.1, x.2.onTime, x.2.duration))) =
      some [(0, 0, 120), (960, 960, 240), (1920, 1920, 480)] ∧
    (∃ out, MTrack.cleanup 480 exRawTrack bar44 3000 ((3000 : Int).toNat + 1) = some out) ∧
    ∀ fuel out, MTrack.cleanup 480 exRawTrack bar44 3000 fuel = some out →
      out.length = exRawTrack.length ∧ out.Keyed ∧
        (out.map Spec.kept).Perm (exRawTrack.map Spec.kept) :=
  ⟨by decide,
    MTrack.cleanup_conserves_chords 480 exRawTrack bar44 3000 (by decide)
      (by unfold ChordMap.Ordered; decide) (by decide) (by decide)
      (fun i _ => by unfold bar44; push_cast; omega)⟩

/-! ## `MTrack::findChords`: the pitches of the merged chords -/

theorem MTrack.findChords.absorb_joins (drumset : Option Drumset) (k : Int) (e : MidiChord)
    (rest : ChordMap) (hord : ChordMap.Ordered ((k, e) :: rest)) :
    MTrack.findChords.absorb drumset (MTrack.findChords.useDrumset drumset e)
        (MTrack.findChords.anchor drumset e).voice 3 k (k + e.duration) rest =
      ((rest.filter (Spec.joins drumset k e)).map (fun x => x.2.notes0),
        rest.filter (fun x => !(Spec.joins drumset k e x))) := by
  induction rest with
  | nil => rfl
  | cons hd tl ih =>
    obtain ⟨k1, c1⟩ := hd
    have h1 := List.pairwise_cons.mp hord
    have h2 := List.pairwise_cons.mp h1.2
    have hk : k ≤ k1 := h1.1 _ (List.mem_cons_self _ _)
    have hord2 : ChordMap.Ordered ((k, e) :: tl) :=
      List.pairwise_cons.mpr ⟨fun x hx => h1.1 x (List.mem_cons_of_mem _ hx), h2.2⟩
    unfold MTrack.findChords.absorb
    split
    · rename_i hbr
      have hall : ∀ x ∈ (k1, c1) :: tl, Spec.joins drumset k e x = false := by
        intro x hx
        have hx1 : k1 ≤ x.1 := by
          rcases List.mem_cons.mp hx with rfl | hx
          · exact le_refl _
          · exact h2.1 x hx
        have hm : Spec.mergesInto k e x = false := by
          unfold Spec.mergesInto
          rw [decide_eq_false_iff_not]
          rintro ⟨h3, _⟩
          rw [abs_of_nonneg (by omega)] at h3
          omega
        unfold Spec.joins
        rw [hm]
        rfl
      have e1 : ((k1, c1) :: tl).filter (Spec.joins drumset k e) = [] :=
        List.filter_eq_nil_iff.mpr (fun x hx => by simp [hall x hx])
      have e2 : ((k1, c1) :: tl).filter (fun x => !(Spec.joins drumset k e x)) =
          (k1, c1) :: tl :=
        List.filter_eq_self.mpr (fun x hx => by simp [hall x hx])
      rw [e1, e2]
      rfl
    · rw [ih hord2]
      split
      · rename_i hfar
        have hm : Spec.mergesInto k e (k1, c1) = false := by
          show decide (|k1 - k| ≤ 3 ∧ |(k1 + c1.duration) - (k + e.duration)| ≤ 3) = false
          rw [decide_eq_false_iff_not]
          rw [qAbs_eq_abs, qAbs_eq_abs] at hfar
          rintro ⟨h3, h4⟩
          rcases hfar with h5 | h5
          · exact absurd h3 (not_le.mpr h5)
          · exact absurd h4 (not_le.mpr h5)
        have hj : Spec.joins drumset k e (k1, c1) = false := by
          unfold Spec.joins
          rw [hm]
          rfl
        simp [List.filter_cons, hj]
      · rename_i hfar
        have hm : Spec.mergesInto k e (k1, c1) = true := by
          show decide (|k1 - k| ≤ 3 ∧ |(k1 + c1.duration) - (k + e.duration)| ≤ 3) = true
          rw [decide_eq_true_iff]
          rw [qAbs_eq_abs, qAbs_eq_abs] at hfar
          constructor
          · by_contra h3
            exact hfar (Or.inl (not_le.mp h3))
          · by_contra h3
            exact hfar (Or.inr (not_le.mp h3))
        split
        · rename_i hv
          have hj : Spec.joins drumset k e (k1, c1) = true := by
            unfold Spec.joins
            rw [hm, hv]
            rfl
          simp [List.filter_cons, hj]
        · rename_i hv
          have hj : Spec.joins drumset k e (k1, c1) = false := by
            unfold Spec.joins
            rw [hm]
            simpa using hv
          simp [List.filter_cons, hj]

theorem MTrack.findChords.loop_groups (drumset : Option Drumset) (n : Nat)
    (chords : ChordMap) (hn : chords.length ≤ n) (hord : chords.Ordered) :
    (MTrack.findChords.loop drumset n chords).map
        (fun y => (y.1, y.2.notes.map (fun mn => mn.pitch))) =
      (Spec.mergeGroups drumset n chords).map
        (fun g => ((g.head?.map (fun x => x.1)).getD 0, Spec.groupPitches g)) := by
  induction n generalizing chords with
  | zero =>
    have hl : chords = [] := List.length_eq_zero.mp (by omega)
    subst hl
    rfl
  | succ n ih =>
    cases chords with
    | nil => rfl
    | cons hd rest =>
      obtain ⟨k, e⟩ := hd
      have ho := List.pairwise_cons.mp hord
      rw [MTrack.findChords.loop_cons, MTrack.findChords.absorb_joins drumset k e rest hord,
        Spec.mergeGroups, List.map_cons, List.map_cons]
      have hlen : (rest.filter (fun x => !(Spec.joins drumset k e x))).length ≤ n := by
        have := List.length_filter_le (fun x => !(Spec.joins drumset k e x)) rest
        simp only [List.length_cons] at hn
        omega
      rw [ih _ hlen (List.Pairwise.sublist (List.filter_sublist _) ho.2)]
      congr 1
      show (k, (e.notes ++ _).map _) = (k, _)
      simp [Spec.groupPitches, List.map_map, Function.comp]

theorem forall_mem_of_map_eq {α β γ : Type} (l1 : List α) (l2 : List β) (f : α → γ)
    (g : β → γ) (P : γ → Prop) (h : l1.map f = l2.map g) :
    (∀ y ∈ l1, P (f y)) ↔ ∀ x ∈ l2, P (g x) := by
  have e1 : (∀ y ∈ l1, P (f y)) ↔ ∀ p ∈ l1.map f, P p := by
    simp [List.mem_map]
  have e2 : (∀ x ∈ l2, P (g x)) ↔ ∀ p ∈ l2.map g, P p := by
    simp [List.mem_map]
  rw [e1, e2, h]

theorem Spec.mergeGroups_shape (drumset : Option Drumset) (n : Nat) (chords : ChordMap) :
    ∀ g ∈ Spec.mergeGroups drumset n chords, ∃ a l, g = a :: l ∧ a ∈ chords ∧
      ∀ x ∈ l, x ∈ chords ∧ Spec.joins drumset a.1 a.2 x = true := by
  induction n generalizing chords with
  | zero =>
    intro g hg
    simp [Spec.mergeGroups] at hg
  | succ n ih =>
    cases chords with
    | nil =>
      intro g hg
      simp [Spec.mergeGroups] at hg
    | cons hd rest =>
      obtain ⟨k, e⟩ := hd
      intro g hg
      rw [Spec.mergeGroups] at hg
      rcases List.mem_cons.mp hg with rfl | hg
      · refine ⟨(k, e), _, rfl, List.mem_cons_self _ _, ?_⟩
        intro x hx
        have hx2 := List.mem_filter.mp hx
        exact ⟨List.mem_cons_of_mem _ hx2.1, hx2.2⟩
      · obtain ⟨a, l, h1, h2, h3⟩ := ih _ g hg
        refine ⟨a, l, h1, List.mem_cons_of_mem _ (List.mem_filter.mp h2).1, ?_⟩
        intro x hx
        exact ⟨List.mem_cons_of_mem _ (List.mem_filter.mp (h3 x hx).1).1, (h3 x hx).2⟩

theorem Spec.mergeGroups_perm (drumset : Option Drumset) (n : Nat) (chords : ChordMap)
    (hn : chords.length ≤ n) :
    (Spec.mergeGroups drumset n chords).flatten.Perm chords := by
  induction n generalizing chords with
  | zero =>
    have hl : chords = [] := List.length_eq_zero.mp (by omega)
    subst hl
    exact List.Perm.refl _
  | succ n ih =>
    cases chords with
    | nil => exact List.Perm.refl _
    | cons hd rest =>
      obtain ⟨k, e⟩ := hd
      rw [Spec.mergeGroups, List.flatten_cons, List.cons_append]
      have hlen : (rest.filter (fun x => !(Spec.joins drumset k e x))).length ≤ n := by
        have := List.length_filter_le (fun x => !(Spec.joins drumset k e x)) rest
        simp only [List.length_cons] at hn
        omega
      refine List.Perm.cons _ ?_
      refine List.Perm.trans (List.Perm.append_left _ (ih _ hlen)) ?_
      exact List.filter_append_perm _ rest

/-- C19, amended: `MTrack::findChords` compares no pitches.  On a chord map in the order of
its keys the chords after the call are, one for one and in order, the merge groups of the
events: each group is an event still in the map, the anchor, followed by the later events
that join it (within 3 ticks of the anchor in onset and in offset and, on a drum track
whose drum map holds the anchor's pitch, of a drum-map pitch with the anchor's voice); every
event is in exactly one group; the chord has the key of the anchor, and its pitches are
those of the anchor's notes followed by the first pitch of every joined event.  So no chord
holds a pitch twice exactly when no merge group brings a pitch twice. -/
theorem MTrack.findChords_pitches_of_groups (drumset : Option Drumset) (chords : ChordMap)
    (hord : chords.Ordered) :
    (MTrack.findChords drumset chords).map
        (fun y => (y.1, y.2.notes.map (fun mn => mn.pitch))) =
      (Spec.mergeGroups drumset chords.length chords).map
        (fun g => ((g.head?.map (fun x => x.1)).getD 0, Spec.groupPitches g)) ∧
    ((∀ y ∈ MTrack.findChords drumset chords, (y.2.notes.map (fun mn => mn.pitch)).Nodup) ↔
      ∀ g ∈ Spec.mergeGroups drumset chords.length chords, (Spec.groupPitches g).Nodup) ∧
    (∀ g ∈ Spec.mergeGroups drumset chords.length chords, ∃ a l, g = a :: l ∧ a ∈ chords ∧
      ∀ x ∈ l, x ∈ chords ∧ Spec.joins drumset a.1 a.2 x = true) ∧
    (Spec.mergeGroups drumset chords.length chords).flatten.Perm chords := by
  have h1 := MTrack.findChords.loop_groups drumset chords.length chords (le_refl _) hord
  refine ⟨h1, ?_, Spec.mergeGroups_shape drumset _ chords,
    Spec.mergeGroups_perm drumset _ chords (le_refl _)⟩
  have h2 := congrArg (List.map (fun p : Int × List Int => p.2)) h1
  rw [List.map_map, List.map_map] at h2
  exact forall_mem_of_map_eq _ _ _ _ (fun p : List Int => p.Nodup) h2

/-- The drum track `exDrumsJitter` has the merge groups of the bass drums 36 and 35 and of
the pitches 50 and 42, and its chords hold these pitches, none twice; the two events of
pitch 60 whose offsets are 402 ticks apart are two groups, and no chord holds 60 twice. -/
theorem MTrack.findChords_pitches_of_groups_witness :
    ChordMap.Ordered exDrumsJitter ∧
    (Spec.mergeGroups (some exDrumset) exDrumsJitter.length exDrumsJitter).map
        (fun g => g.map (fun x => (x.1, x.2.notes0.pitch))) =
      [[(0, 36), (2, 35)], [(1, 50), (3, 42)]] ∧
    (MTrack.findChords (some exDrumset) exDrumsJitter).map
        (fun y => (y.1, y.2.notes.map (fun mn => mn.pitch))) =
      [(0, [36, 35]), (1, [50, 42])] ∧
    (∀ y ∈ MTrack.findChords (some exDrumset) exDrumsJitter,
      (y.2.notes.map (fun mn => mn.pitch)).Nodup) ∧
    ChordMap.Ordered exEqualPitchApart ∧
    (Spec.mergeGroups none exEqualPitchApart.length exEqualPitchApart).map
        (fun g => g.map (fun x => (x.1, x.2.notes0.pitch))) = [[(0, 60)], [(2, 60)]] ∧
    (∀ y ∈ MTrack.findChords none exEqualPitchApart,
      (y.2.notes.map (fun mn => mn.pitch)).Nodup) :=
  ⟨by unfold ChordMap.Ordered; decide, by decide,
    ((MTrack.findChords_pitches_of_groups (some exDrumset) exDrumsJitter
      (by unfold ChordMap.Ordered; decide)).1).trans (by decide),
    (MTrack.findChords_pitches_of_groups (some exDrumset) exDrumsJitter
      (by unfold ChordMap.Ordered; decide)).2.1.mpr (by decide),
    by unfold ChordMap.Ordered; decide, by decide,
    (MTrack.findChords_pitches_of_groups none exEqualPitchApart
      (by unfold ChordMap.Ordered; decide)).2.1.mpr (by decide)⟩

end Ms
